import Mathlib

/-!
Verification development of context-engine-cpp.

A shallow embedding of `context-engine.hpp`, `context-engine.cpp` and
`typing/typing_test.cpp`, followed by theorems about the embedded code.

Conventions of the embedding

* A C++ `int` is an `Int`; the conversion `static_cast<int>` of a container
  size is modelled with its wrap-around (`static_cast_int`).
* A pointer is an `Option` of a handle, `none` being the null pointer.
* An operation whose C++ body can read or write a container out of range
  returns an `Option`; `none` stands for that undefined behaviour.
* Virtual calls made on scenes and calls made to the SDL library are
  returned as a list, in the order in which the code makes them.
* `float` arithmetic of the rendering context is kept abstract (a carrier
  `F` with its own operations; an ordered field with a floor for the
  primitives that loop over coordinates); the typing test computes in exact
  rational arithmetic, a division by zero being `none`.
* What the outside world hands to the code (clock readings, random draws,
  results of library calls) is a parameter of the function that uses it.
-/

namespace ContextEngine

/-! ## SDL side: constants, events, library calls -/

/-- SDL2 header constant (`SDL_scancode.h`): number of scancodes, the size
the engine gives to its key table. -/
def SDL_NUM_SCANCODES : Nat := 512

/-- SDL2 header constant (`SDL_mouse.h`): code of the left mouse button. -/
def SDL_BUTTON_LEFT : Nat := 1

/-- SDL2 header constant (`SDL_keycode.h`): key code of the Return key. -/
def SDLK_RETURN : Int := 13

/-- SDL2 header constant (`SDL_keycode.h`): key code of the Escape key. -/
def SDLK_ESCAPE : Int := 27

/-- SDL2 header constant (`SDL_keycode.h`): key code of the Backspace key. -/
def SDLK_BACKSPACE : Int := 8

/-- SDL2 header constant (`SDL_keycode.h`): `KMOD_LSHIFT | KMOD_RSHIFT`. -/
def KMOD_SHIFT : Nat := 3

/-- The `keysym` member of an SDL keyboard event: the fields the code reads. -/
structure Keysym where
  scancode : Nat
  sym : Int
  mod : Nat
  deriving DecidableEq, Repr

/-- An `SDL_Event`, by its `type`, with the fields the code reads. -/
inductive SDL_Event where
  | quit
  | keyDown (key : Keysym)
  | keyUp (key : Keysym)
  | mouseMotion (x y : Int)
  | mouseButtonDown (button : Nat)
  | mouseButtonUp (button : Nat)
  | other (type : Nat)
  deriving DecidableEq, Repr

/-- Value of `static_cast<int>(n)` for a container size `n`: reduction modulo
`2^32` into the range of a 32-bit `int`. -/
def static_cast_int (n : Nat) : Int :=
  if n % 2 ^ 32 < 2 ^ 31 then ((n % 2 ^ 32 : Nat) : Int)
  else ((n % 2 ^ 32 : Nat) : Int) - 2 ^ 32

/-- SDL2 header constant (`SDL_scancode.h`): scancode of the Escape key. -/
def SDL_SCANCODE_ESCAPE : Int := 41

/-! ## Basic structures of `context-engine.hpp` -/

/-- `struct Color`: four `Uint8` channels. -/
structure Color where
  r : Nat
  g : Nat
  b : Nat
  a : Nat := 255
  deriving DecidableEq, Repr

/-- `struct Vector2` over the carrier `F` of `float`. -/
structure Vector2 (F : Type) where
  x : F
  y : F
  deriving DecidableEq, Repr

/-- `struct Rect` over the carrier `F` of `float`. -/
structure Rect (F : Type) where
  x : F
  y : F
  w : F
  h : F
  deriving DecidableEq, Repr

/-- A call made to the SDL rendering library, with its arguments; the first
argument is the renderer handle. `RenderGeometry` carries the three vertices
and their colour, `RenderCopyF` the text and the colour of the texture and
the destination rectangle. -/
inductive SDLCall (F : Type) where
  | SetRenderDrawColor (renderer : Option Nat) (r g b a : Nat)
  | RenderClear (renderer : Option Nat)
  | RenderPresent (renderer : Option Nat)
  | RenderFillRectF (renderer : Option Nat) (x y w h : F)
  | RenderDrawRectF (renderer : Option Nat) (x y w h : F)
  | RenderDrawLineF (renderer : Option Nat) (x1 y1 x2 y2 : F)
  | RenderDrawPointF (renderer : Option Nat) (x y : F)
  | RenderGeometry (renderer : Option Nat) (x1 y1 x2 y2 x3 y3 : F) (r g b a : Nat)
  | RenderCopyF (renderer : Option Nat) (text : List Char) (color : Color) (x y w h : F)
  deriving DecidableEq, Repr

/-- The functions and the constant of `<cmath>` that the primitives call:
`sqrtf`, `cosf`, `sinf` and `M_PI`. -/
structure MathFns (F : Type) where
  sqrtf : F → F
  cosf : F → F
  sinf : F → F
  pi : F

/-- The text side of the library, as `drawText` uses it: `fontHeight` is
`TTF_FontHeight`, and `render path originalSize textSize text color` is the
outcome of the chain `TTF_OpenFont(path, (int)(originalSize * textSize))`,
`TTF_RenderText_Blended`, `SDL_CreateTextureFromSurface`, `SDL_QueryTexture`:
the width and height of the texture, or `none` when a step fails. -/
structure TextLib (F : Type) where
  fontHeight : Nat → Int
  render : String → Int → F → List Char → Color → Option (F × F)

/-! ## `class OtherCtx` -/

/-- Fields of `class OtherCtx`. Fonts are handles; the two maps are
association lists. -/
structure OtherCtx (F : Type) where
  renderer : Option Nat
  ownsRenderer : Bool
  defaultFont : Option Nat
  fonts : List (String × Nat)
  fontPaths : List (String × String)
  cameraPos : Vector2 F
  cameraZoom : F
  useCamera : Bool
  deriving DecidableEq

namespace OtherCtx

variable {F : Type}

/-- `OtherCtx::loadFont`; `opened` is what `TTF_OpenFont` returned. -/
def loadFont (c : OtherCtx F) (name path : String) (opened : Option Nat) :
    Bool × OtherCtx F :=
  match opened with
  | none => (false, c)
  | some font =>
    (true,
      { c with
        fonts := (name, font) :: c.fonts.filter (fun p => p.1 != name)
        fontPaths := (name, path) :: c.fontPaths.filter (fun p => p.1 != name)
        defaultFont := match c.defaultFont with
          | none => some font
          | some d => some d })

/-- Constructor `OtherCtx::OtherCtx(renderer, takeOwnership)`; `ttfInit` is
the result of `TTF_Init` and `opened` that of `TTF_OpenFont` on the default
font. -/
def new [Zero F] [One F] (renderer : Option Nat) (takeOwnership : Bool)
    (ttfInit : Int) (opened : Option Nat) : OtherCtx F :=
  let c : OtherCtx F :=
    { renderer := renderer, ownsRenderer := takeOwnership, defaultFont := none,
      fonts := [], fontPaths := [],
      cameraPos := ⟨0, 0⟩, cameraZoom := 1, useCamera := true }
  if ttfInit = -1 then c else (loadFont c "default" "assets/font.ttf" opened).2

/-- `OtherCtx::setCameraPosition`. -/
def setCameraPosition (c : OtherCtx F) (pos : Vector2 F) : OtherCtx F :=
  { c with cameraPos := pos }

/-- `OtherCtx::setCameraZoom`. -/
def setCameraZoom (c : OtherCtx F) (zoom : F) : OtherCtx F :=
  { c with cameraZoom := zoom }

/-- `OtherCtx::enableCamera`. -/
def enableCamera (c : OtherCtx F) (enable : Bool) : OtherCtx F :=
  { c with useCamera := enable }

/-- `OtherCtx::transformPoint`. -/
def transformPoint [Sub F] [Mul F] (c : OtherCtx F) (x y : F) : Vector2 F :=
  if !c.useCamera then ⟨x, y⟩
  else ⟨(x - c.cameraPos.x) * c.cameraZoom, (y - c.cameraPos.y) * c.cameraZoom⟩

/-- `OtherCtx::setDrawColor`. -/
def setDrawColor (c : OtherCtx F) (color : Color) : List (SDLCall F) :=
  [SDLCall.SetRenderDrawColor c.renderer color.r color.g color.b color.a]

/-- `OtherCtx::drawRect(x, y, width, height, color)`. -/
def drawRect (c : OtherCtx F) (x y width height : F) (color : Color) :
    List (SDLCall F) :=
  setDrawColor c color ++ [SDLCall.RenderFillRectF c.renderer x y width height]

/-- `OtherCtx::drawRect(rect, color)`. -/
def drawRectR (c : OtherCtx F) (rect : Rect F) (color : Color) : List (SDLCall F) :=
  drawRect c rect.x rect.y rect.w rect.h color

/-- `OtherCtx::drawRectOutline(x, y, width, height, color)`. -/
def drawRectOutline (c : OtherCtx F) (x y width height : F) (color : Color) :
    List (SDLCall F) :=
  setDrawColor c color ++ [SDLCall.RenderDrawRectF c.renderer x y width height]

/-- `OtherCtx::drawRectOutline(rect, color)`. -/
def drawRectOutlineR (c : OtherCtx F) (rect : Rect F) (color : Color) :
    List (SDLCall F) :=
  drawRectOutline c rect.x rect.y rect.w rect.h color

/-- `OtherCtx::drawLine`. -/
def drawLine (c : OtherCtx F) (x1 y1 x2 y2 : F) (color : Color) : List (SDLCall F) :=
  setDrawColor c color ++ [SDLCall.RenderDrawLineF c.renderer x1 y1 x2 y2]

/-- `OtherCtx::drawPoint`. -/
def drawPoint (c : OtherCtx F) (x y : F) (color : Color) : List (SDLCall F) :=
  setDrawColor c color ++ [SDLCall.RenderDrawPointF c.renderer x y]

/-- `OtherCtx::clear`. -/
def clear (c : OtherCtx F) (color : Color) : List (SDLCall F) :=
  [SDLCall.SetRenderDrawColor c.renderer color.r color.g color.b color.a,
   SDLCall.RenderClear c.renderer]

/-- `OtherCtx::present`. -/
def present (c : OtherCtx F) : List (SDLCall F) := [SDLCall.RenderPresent c.renderer]

/-- `OtherCtx::drawText(text, x, y, color, font, textSize)`, the overload
that takes a `TTF_Font*`. The path of the font is the entry of `fontPaths`
under the first name that `fonts` maps to this font. -/
def drawTextFont (c : OtherCtx F) (lib : TextLib F) (text : List Char) (x y : F)
    (color : Color) (font : Option Nat) (textSize : F) : List (SDLCall F) :=
  match font with
  | none => []
  | some f =>
    let originalSize := lib.fontHeight f
    let fontPath : String :=
      match c.fonts.find? (fun p => p.2 == f) with
      | some p => (c.fontPaths.lookup p.1).getD ""
      | none => ""
    if fontPath.isEmpty then []
    else
      match lib.render fontPath originalSize textSize text color with
      | none => []
      | some (w, h) => [SDLCall.RenderCopyF c.renderer text color x y w h]

/-- `OtherCtx::drawText(text, x, y, color, fontName, textSize)`, the
overload that takes the name of a font. -/
def drawTextNamed (c : OtherCtx F) (lib : TextLib F) (text : List Char) (x y : F)
    (color : Color) (fontName : String) (textSize : F) : List (SDLCall F) :=
  match c.fonts.lookup fontName with
  | none => []
  | some f => drawTextFont c lib text x y color (some f) textSize

/-- `OtherCtx::drawText(text, x, y, color, textSize)`, the overload that
uses the default font. -/
def drawText (c : OtherCtx F) (lib : TextLib F) (text : List Char) (x y : F)
    (color : Color) (textSize : F) : List (SDLCall F) :=
  match c.defaultFont with
  | none => []
  | some f => drawTextFont c lib text x y color (some f) textSize

section CameraPrimitives

variable [LinearOrderedField F] [FloorRing F]

/-- `OtherCtx::drawTriangle`. -/
def drawTriangle (c : OtherCtx F) (x1 y1 x2 y2 x3 y3 : F) (color : Color)
    (fill : Bool) : List (SDLCall F) :=
  let p1 := transformPoint c x1 y1
  let p2 := transformPoint c x2 y2
  let p3 := transformPoint c x3 y3
  setDrawColor c color ++
    (if fill then
      [SDLCall.RenderGeometry c.renderer p1.x p1.y p2.x p2.y p3.x p3.y
        color.r color.g color.b color.a]
    else
      [SDLCall.RenderDrawLineF c.renderer p1.x p1.y p2.x p2.y,
       SDLCall.RenderDrawLineF c.renderer p2.x p2.y p3.x p3.y,
       SDLCall.RenderDrawLineF c.renderer p3.x p3.y p1.x p1.y])

/-- The loop `for (float dy = -scaledRadius; dy <= scaledRadius; dy++)` of
`drawCircle`, from the value `dy` on; the first argument bounds the number
of passes. -/
def circleFillLoop (m : MathFns F) (renderer : Option Nat) (cx cy scaledRadius : F) :
    Nat → F → List (SDLCall F)
  | 0, _ => []
  | fuel + 1, dy =>
    if dy ≤ scaledRadius then
      SDLCall.RenderDrawLineF renderer
          (cx - m.sqrtf (scaledRadius * scaledRadius - dy * dy)) (cy + dy)
          (cx + m.sqrtf (scaledRadius * scaledRadius - dy * dy)) (cy + dy) ::
        circleFillLoop m renderer cx cy scaledRadius fuel (dy + 1)
    else []

/-- The loop `while (dx >= dy)` of `drawCircle`, from the values `dx`, `dy`,
`err` on; the first argument bounds the number of passes. -/
def circleOutlineLoop (renderer : Option Nat) (cx cy : F) : Nat → F → F → F → List (SDLCall F)
  | 0, _, _, _ => []
  | fuel + 1, dx, dy, err =>
    if dx ≥ dy then
      let dy1 := if err ≤ 0 then dy + 1 else dy
      let err1 := if err ≤ 0 then err + (2 * (dy + 1) + 1) else err
      let dx2 := if err1 > 0 then dx - 1 else dx
      let err2 := if err1 > 0 then err1 - (2 * (dx - 1) + 1) else err1
      [SDLCall.RenderDrawPointF renderer (cx + dx) (cy + dy),
       SDLCall.RenderDrawPointF renderer (cx + dy) (cy + dx),
       SDLCall.RenderDrawPointF renderer (cx - dy) (cy + dx),
       SDLCall.RenderDrawPointF renderer (cx - dx) (cy + dy),
       SDLCall.RenderDrawPointF renderer (cx - dx) (cy - dy),
       SDLCall.RenderDrawPointF renderer (cx - dy) (cy - dx),
       SDLCall.RenderDrawPointF renderer (cx + dy) (cy - dx),
       SDLCall.RenderDrawPointF renderer (cx + dx) (cy - dy)] ++
        circleOutlineLoop renderer cx cy fuel dx2 dy1 err2
    else []

/-- `OtherCtx::drawCircle`. In exact arithmetic the filling loop makes at
most `floor(2 * scaledRadius) + 1` passes and the outline loop at most
`floor(scaledRadius) + 1`, the bounds given to the loops. -/
def drawCircle (c : OtherCtx F) (m : MathFns F) (x y radius : F) (color : Color)
    (fill : Bool) : List (SDLCall F) :=
  let center := transformPoint c x y
  let scaledRadius := radius * c.cameraZoom
  setDrawColor c color ++
    (if fill then
      circleFillLoop m c.renderer center.x center.y scaledRadius
        (⌊scaledRadius + scaledRadius⌋₊ + 1) (-scaledRadius)
    else
      circleOutlineLoop c.renderer center.x center.y (⌊scaledRadius⌋₊ + 1) scaledRadius 0 0)

/-- `OtherCtx::drawArc`: eight segments. -/
def drawArc (c : OtherCtx F) (m : MathFns F) (x y radius startAngle endAngle : F)
    (color : Color) : List (SDLCall F) :=
  let center := transformPoint c x y
  let scaledRadius := radius * c.cameraZoom
  let angleStep := (endAngle - startAngle) / 8
  setDrawColor c color ++
    (List.range 8).map (fun i =>
      let angle1 := (startAngle + (i : F) * angleStep) * m.pi / 180
      let angle2 := (startAngle + ((i : F) + 1) * angleStep) * m.pi / 180
      SDLCall.RenderDrawLineF c.renderer
        (center.x + m.cosf angle1 * scaledRadius) (center.y + m.sinf angle1 * scaledRadius)
        (center.x + m.cosf angle2 * scaledRadius) (center.y + m.sinf angle2 * scaledRadius))

/-- `OtherCtx::drawRoundedRect`. -/
def drawRoundedRect (c : OtherCtx F) (m : MathFns F) (x y width height radius : F)
    (color : Color) (fill : Bool) : List (SDLCall F) :=
  let pos := transformPoint c x y
  let scaledWidth := width * c.cameraZoom
  let scaledHeight := height * c.cameraZoom
  let scaledRadius := radius * c.cameraZoom
  setDrawColor c color ++
    (if fill then
      [SDLCall.RenderFillRectF c.renderer (pos.x + scaledRadius) pos.y
         (scaledWidth - 2 * scaledRadius) scaledHeight,
       SDLCall.RenderFillRectF c.renderer pos.x (pos.y + scaledRadius)
         scaledRadius (scaledHeight - 2 * scaledRadius),
       SDLCall.RenderFillRectF c.renderer (pos.x + scaledWidth - scaledRadius)
         (pos.y + scaledRadius) scaledRadius (scaledHeight - 2 * scaledRadius)] ++
      drawCircle c m (pos.x + scaledRadius) (pos.y + scaledRadius) scaledRadius color true ++
      drawCircle c m (pos.x + scaledWidth - scaledRadius) (pos.y + scaledRadius)
        scaledRadius color true ++
      drawCircle c m (pos.x + scaledRadius) (pos.y + scaledHeight - scaledRadius)
        scaledRadius color true ++
      drawCircle c m (pos.x + scaledWidth - scaledRadius) (pos.y + scaledHeight - scaledRadius)
        scaledRadius color true
    else
      [SDLCall.RenderDrawLineF c.renderer (pos.x + scaledRadius) pos.y
         (pos.x + scaledWidth - scaledRadius) pos.y,
       SDLCall.RenderDrawLineF c.renderer (pos.x + scaledRadius) (pos.y + scaledHeight)
         (pos.x + scaledWidth - scaledRadius) (pos.y + scaledHeight),
       SDLCall.RenderDrawLineF c.renderer pos.x (pos.y + scaledRadius)
         pos.x (pos.y + scaledHeight - scaledRadius),
       SDLCall.RenderDrawLineF c.renderer (pos.x + scaledWidth) (pos.y + scaledRadius)
         (pos.x + scaledWidth) (pos.y + scaledHeight - scaledRadius)] ++
      drawArc c m (pos.x + scaledRadius) (pos.y + scaledRadius) scaledRadius 180 270 color ++
      drawArc c m (pos.x + scaledWidth - scaledRadius) (pos.y + scaledRadius)
        scaledRadius 270 360 color ++
      drawArc c m (pos.x + scaledRadius) (pos.y + scaledHeight - scaledRadius)
        scaledRadius 90 180 color ++
      drawArc c m (pos.x + scaledWidth - scaledRadius) (pos.y + scaledHeight - scaledRadius)
        scaledRadius 0 90 color)

/-- `OtherCtx::drawRectLines`. -/
def drawRectLines (c : OtherCtx F) (x y width height : F) (color : Color) :
    List (SDLCall F) :=
  let pos := transformPoint c x y
  let scaledWidth := width * c.cameraZoom
  let scaledHeight := height * c.cameraZoom
  setDrawColor c color ++
    [SDLCall.RenderDrawLineF c.renderer pos.x pos.y (pos.x + scaledWidth) pos.y,
     SDLCall.RenderDrawLineF c.renderer (pos.x + scaledWidth) pos.y
       (pos.x + scaledWidth) (pos.y + scaledHeight),
     SDLCall.RenderDrawLineF c.renderer (pos.x + scaledWidth) (pos.y + scaledHeight)
       pos.x (pos.y + scaledHeight),
     SDLCall.RenderDrawLineF c.renderer pos.x (pos.y + scaledHeight) pos.x pos.y]

/-- `OtherCtx::drawRoundedRectLines`. -/
def drawRoundedRectLines (c : OtherCtx F) (m : MathFns F) (x y width height radius : F)
    (color : Color) : List (SDLCall F) :=
  drawRoundedRect c m x y width height radius color false

end CameraPrimitives

/-- A context as `GameScene::render` of `test.cpp` has it when it draws the
GUI elements: camera disabled, with the given position and zoom. -/
def guiCtx (pos : Vector2 ℚ) (zoom : ℚ) : OtherCtx ℚ :=
  { renderer := some 2, ownsRenderer := false, defaultFont := none, fonts := [],
    fontPaths := [], cameraPos := pos, cameraZoom := zoom, useCamera := false }

end OtherCtx

/-! ## `class Scene` and `class Engine` -/

/-- A scene object held by the engine, known by its identity (the callbacks
of `class Scene` are virtual; the engine only calls them). -/
structure Scene where
  id : Nat
  deriving DecidableEq, Repr

/-- A virtual call made by the engine on a scene. -/
inductive SceneCall where
  | onLoad (s : Scene)
  | onExit (s : Scene)
  | handleEvent (s : Scene) (ev : SDL_Event)
  deriving DecidableEq, Repr

/-- The anonymous `input` struct of `class Engine`. -/
structure InputState where
  mouseX : Int
  mouseY : Int
  mouseDown : Bool
  mouseReleased : Bool
  keys : List Bool
  deriving DecidableEq, Repr

/-- Fields of `class Engine`. -/
structure Engine (F : Type) where
  window : Option Nat
  renderer : Option Nat
  ctx : Option (OtherCtx F)
  scenes : List Scene
  currentSceneIndex : Int
  running : Bool
  input : InputState
  deriving DecidableEq

namespace Engine

variable {F : Type}

/-- Constructor `Engine::Engine`. The parameters are what the library
returned: `sdlInitResult` from `SDL_Init`, `createdWindow` from
`SDL_CreateWindow`, `createdRenderer` from `SDL_CreateRenderer`, and the two
results used by the constructor of `OtherCtx`. -/
def new [Zero F] [One F] (sdlInitResult : Int) (createdWindow createdRenderer : Option Nat)
    (ttfInit : Int) (opened : Option Nat) : Engine F :=
  let e : Engine F :=
    { window := none, renderer := none, ctx := none, scenes := [],
      currentSceneIndex := -1, running := false,
      input := { mouseX := 0, mouseY := 0, mouseDown := false, mouseReleased := false,
                 keys := List.replicate SDL_NUM_SCANCODES false } }
  if sdlInitResult ≠ 0 then e
  else
    let e1 := { e with window := createdWindow }
    if e1.window.isNone then e1
    else
      let e2 := { e1 with renderer := createdRenderer }
      if e2.renderer.isNone then e2
      else { e2 with ctx := some (OtherCtx.new e2.renderer false ttfInit opened) }

/-- `Engine::init`: the returned flag and the engine afterwards. -/
def init (e : Engine F) : Bool × Engine F :=
  if e.window.isNone || e.renderer.isNone || e.ctx.isNone then (false, e)
  else (true, { e with running := true })

/-- Write `input.keys[i] = b`; `none` when `i` is outside the table. -/
def keysWrite (e : Engine F) (i : Nat) (b : Bool) : Option (Engine F) :=
  if i < e.input.keys.length then
    some { e with input := { e.input with keys := e.input.keys.set i b } }
  else none

/-- The `switch (event.type)` of `Engine::handleEvents`. -/
def handleEngineEvent (e : Engine F) (ev : SDL_Event) : Option (Engine F) :=
  match ev with
  | .quit => some { e with running := false }
  | .keyDown key => keysWrite e key.scancode true
  | .keyUp key => keysWrite e key.scancode false
  | .mouseMotion x y => some { e with input := { e.input with mouseX := x, mouseY := y } }
  | .mouseButtonDown button =>
    if button = SDL_BUTTON_LEFT then some { e with input := { e.input with mouseDown := true } }
    else some e
  | .mouseButtonUp button =>
    if button = SDL_BUTTON_LEFT then
      some { e with input := { e.input with mouseDown := false, mouseReleased := true } }
    else some e
  | .other _ => some e

/-- The element `scenes[i]`; `none` when `i` is outside the vector. -/
def sceneAt (e : Engine F) (i : Int) : Option Scene :=
  if i < 0 then none else e.scenes[i.toNat]?

/-- The guard `currentSceneIndex >= 0 && currentSceneIndex < static_cast<int>(scenes.size())`. -/
def hasCurrentScene (e : Engine F) : Bool :=
  decide (0 ≤ e.currentSceneIndex) && decide (e.currentSceneIndex < static_cast_int e.scenes.length)

/-- One iteration of the polling loop of `Engine::handleEvents`: the engine
switch, then the event is passed to the current scene if there is one. -/
def handleOneEvent (e : Engine F) (ev : SDL_Event) : Option (Engine F × List SceneCall) :=
  match handleEngineEvent e ev with
  | none => none
  | some e1 =>
    if hasCurrentScene e1 then
      match sceneAt e1 e1.currentSceneIndex with
      | none => none
      | some s => some (e1, [SceneCall.handleEvent s ev])
    else some (e1, [])

/-- The loop `while (SDL_PollEvent(&event))` over the events that polling
returns, in order. -/
def pollLoop (e : Engine F) : List SDL_Event → Option (Engine F × List SceneCall)
  | [] => some (e, [])
  | ev :: rest =>
    match handleOneEvent e ev with
    | none => none
    | some (e1, calls1) =>
      match pollLoop e1 rest with
      | none => none
      | some (e2, calls2) => some (e2, calls1 ++ calls2)

/-- `Engine::handleEvents`; `polled` is the sequence of events that
`SDL_PollEvent` hands out during the call. -/
def handleEvents (e : Engine F) (polled : List SDL_Event) :
    Option (Engine F × List SceneCall) :=
  pollLoop { e with input := { e.input with mouseReleased := false } } polled

/-- `Engine::switchScene`. -/
def switchScene (e : Engine F) (index : Int) : Option (Engine F × List SceneCall) :=
  if index < 0 ∨ index ≥ static_cast_int e.scenes.length then some (e, [])
  else
    let exitCalls : Option (List SceneCall) :=
      if hasCurrentScene e then
        match sceneAt e e.currentSceneIndex with
        | none => none
        | some s => some [SceneCall.onExit s]
      else some []
    match exitCalls with
    | none => none
    | some calls =>
      let e1 := { e with currentSceneIndex := index }
      match sceneAt e1 e1.currentSceneIndex with
      | none => none
      | some s => some (e1, calls ++ [SceneCall.onLoad s])

/-- `Engine::addScene`. -/
def addScene (e : Engine F) (scene : Scene) : Option (Engine F × List SceneCall) :=
  let e1 := { e with scenes := e.scenes ++ [scene] }
  if e1.scenes.length = 1 then switchScene e1 0 else some (e1, [])

/-- `Engine::getCurrentSceneIndex`. -/
def getCurrentSceneIndex (e : Engine F) : Int := e.currentSceneIndex

/-- `Engine::isKeyPressed`; `none` would be a read outside the key table. -/
def isKeyPressed (e : Engine F) (keyCode : Int) : Option Bool :=
  if keyCode < 0 ∨ keyCode ≥ static_cast_int e.input.keys.length then some false
  else e.input.keys[keyCode.toNat]?

/-- `Engine::getMouseX`. -/
def getMouseX (e : Engine F) : Int := e.input.mouseX

/-- `Engine::getMouseY`. -/
def getMouseY (e : Engine F) : Int := e.input.mouseY

/-- `Engine::isMouseDown`. -/
def isMouseDown (e : Engine F) : Bool := e.input.mouseDown

/-- `Engine::isMouseReleased`. -/
def isMouseReleased (e : Engine F) : Bool := e.input.mouseReleased

/-- `Engine::quit`. -/
def quit (e : Engine F) : Engine F := { e with running := false }

/-- A sample engine: everything was created, `init` has run, two scenes were
added and the second one is current. -/
def sample : Engine Int :=
  { window := some 1, renderer := some 2,
    ctx := some (OtherCtx.new (some 2) false 0 (some 7)),
    scenes := [⟨10⟩, ⟨11⟩], currentSceneIndex := 1, running := true,
    input := { mouseX := 0, mouseY := 0, mouseDown := false, mouseReleased := true,
               keys := List.replicate SDL_NUM_SCANCODES false } }

/-- The scancode carried by a keyboard event is below `n`. SDL hands out
values of the enumeration `SDL_Scancode` only, all below
`SDL_NUM_SCANCODES`. -/
def scancodeBelow (n : Nat) : SDL_Event → Bool
  | .keyDown key => decide (key.scancode < n)
  | .keyUp key => decide (key.scancode < n)
  | _ => true

/-- Engines that the public interface can build: the constructor followed by
any sequence of `init`, `handleEvents`, `addScene`, `switchScene` and
`quit`. -/
inductive Reachable [Zero F] [One F] : Engine F → Prop where
  | new (sdlInitResult : Int) (createdWindow createdRenderer : Option Nat)
      (ttfInit : Int) (opened : Option Nat) :
      Reachable (Engine.new sdlInitResult createdWindow createdRenderer ttfInit opened)
  | init {e : Engine F} : Reachable e → Reachable (init e).2
  | handleEvents {e e1 : Engine F} {polled : List SDL_Event} {calls : List SceneCall} :
      Reachable e → handleEvents e polled = some (e1, calls) → Reachable e1
  | addScene {e e1 : Engine F} {scene : Scene} {calls : List SceneCall} :
      Reachable e → addScene e scene = some (e1, calls) → Reachable e1
  | switchScene {e e1 : Engine F} {index : Int} {calls : List SceneCall} :
      Reachable e → switchScene e index = some (e1, calls) → Reachable e1
  | quit {e : Engine F} : Reachable e → Reachable (quit e)

end Engine

/-! ## `class TypingTestGame` of `typing/typing_test.cpp` -/

namespace TypingTest

/-- `enum class GameState`. -/
inductive GameState where
  | START
  | TYPING
  | FINISHED
  deriving DecidableEq, Repr

/-- The member `sentences`; a `std::string` is the list of its characters. -/
def sentences : List (List Char) :=
  [ "The quick brown fox jumps over the lazy dog.".toList,
    "Programming is the art of telling another human what one wants the computer to do.".toList,
    "Be the change you wish to see in the world.".toList,
    "To be or not to be, that is the question.".toList,
    "In the end, we only regret the chances we didn't take.".toList,
    "Life is what happens when you're busy making other plans.".toList,
    "The greatest glory in living lies not in never falling, but in rising every time we fall.".toList,
    "The way to get started is to quit talking and begin doing.".toList,
    "It does not matter how slowly you go as long as you do not stop.".toList,
    "Whether you think you can or you think you can't, you're right.".toList ]

/-- Ticks of `std::chrono::high_resolution_clock` per millisecond (the clock
counts nanoseconds). -/
def ticksPerMs : Int := 1000000

/-- The value `duration_cast<milliseconds>(b - a).count()`: truncation
towards zero. -/
def durationMs (a b : Int) : Int := (b - a).tdiv ticksPerMs

/-- Division of two `float` values in exact arithmetic; `none` is the
non-finite result of a division by zero. -/
def fdiv (a b : ℚ) : Option ℚ := if b = 0 then none else some (a / b)

/-- Conversion of an `int` to `size_t` (64 bits), as done when an `int` is
compared with a `std::string` length or used as a subscript. -/
def toSizeT (i : Int) : Nat := (i % 2 ^ 64).toNat

/-- Data members of `class TypingTestGame`. Time points are clock ticks, the
`float` members are exact rationals (`none`: not a finite number). -/
structure TypingTestGame where
  state : GameState
  currentSentence : List Char
  userInput : List Char
  currentPosition : Int
  errors : Int
  startTime : Int
  endTime : Int
  wpm : Option ℚ
  accuracy : Option ℚ
  shakeDuration : ℚ
  shakeIntensity : ℚ
  shakeOffset : Vector2 ℚ
  initialized : Bool
  deriving DecidableEq

/-- `TypingTestGame::selectRandomSentence`; `pick` is the value drawn from
`uniform_int_distribution<int>(0, sentences.size() - 1)`. -/
def selectRandomSentence (g : TypingTestGame) (pick : Fin sentences.length) :
    TypingTestGame :=
  { g with currentSentence := sentences.get pick, currentPosition := 0, userInput := [] }

/-- Constructor `TypingTestGame::TypingTestGame`: the default member
initialisers, then `selectRandomSentence`. -/
def new (pick : Fin sentences.length) : TypingTestGame :=
  selectRandomSentence
    { state := GameState.START, currentSentence := [], userInput := [],
      currentPosition := 0, errors := 0, startTime := 0, endTime := 0,
      wpm := some 0, accuracy := some 100,
      shakeDuration := 0, shakeIntensity := 0, shakeOffset := ⟨0, 0⟩,
      initialized := false }
    pick

/-- `TypingTestGame::startTest`; `now` is the clock reading. -/
def startTest (g : TypingTestGame) (now : Int) : TypingTestGame :=
  { g with
    state := GameState.TYPING, startTime := now, userInput := [],
    currentPosition := 0, errors := 0, wpm := some 0, accuracy := some 100 }

/-- `TypingTestGame::finishTest`; `now` is the clock reading. -/
def finishTest (g : TypingTestGame) (now : Int) : TypingTestGame :=
  let duration : Int := durationMs g.startTime now
  let minutes : ℚ := (duration : ℚ) / 60000
  let wordCount : Int := ((g.currentSentence.length / 5 : Nat) : Int)
  let totalChars : Int := (g.currentSentence.length : Int)
  let accuracy : Option ℚ :=
    match fdiv (g.errors : ℚ) (totalChars : ℚ) with
    | none => none
    | some q => if 100 * (1 - q) < 0 then some 0 else some (100 * (1 - q))
  { g with
    state := GameState.FINISHED, endTime := now,
    wpm := fdiv (wordCount : ℚ) minutes,
    accuracy := accuracy }

/-- The `switch (inputChar)` applied when Shift is held and the character is
not a lower-case letter. -/
def shiftSpecial (c : Char) : Char :=
  if c = '1' then '!'
  else if c = '2' then '@'
  else if c = '3' then '#'
  else if c = '4' then '$'
  else if c = '5' then '%'
  else if c = '6' then '^'
  else if c = '7' then '&'
  else if c = '8' then '*'
  else if c = '9' then '('
  else if c = '0' then ')'
  else if c = '-' then '_'
  else if c = '=' then '+'
  else if c = '[' then Char.ofNat 123
  else if c = ']' then Char.ofNat 125
  else if c = Char.ofNat 92 then '|'
  else if c = ';' then ':'
  else if c = Char.ofNat 39 then Char.ofNat 34
  else if c = ',' then '<'
  else if c = '.' then '>'
  else if c = '/' then '?'
  else if c = Char.ofNat 96 then '~'
  else c

/-- The character `inputChar` that `handleTypingInput` derives from a key
with `32 <= sym <= 126`. -/
def inputCharOf (key : Keysym) : Char :=
  let inputChar := Char.ofNat key.sym.toNat
  if key.mod &&& KMOD_SHIFT ≠ 0 then
    if 'a'.toNat ≤ inputChar.toNat ∧ inputChar.toNat ≤ 'z'.toNat then
      Char.ofNat (inputChar.toNat - 32)
    else shiftSpecial inputChar
  else inputChar

/-- `TypingTestGame::handleTypingInput`; `none` would be a read of
`currentSentence` outside the string. -/
def handleTypingInput (g : TypingTestGame) (key : Keysym) (now : Int) :
    Option TypingTestGame :=
  if key.sym = SDLK_ESCAPE then some { g with state := GameState.START }
  else if key.sym = SDLK_BACKSPACE ∧ g.userInput ≠ [] then
    some { g with
      userInput := g.userInput.dropLast,
      currentPosition :=
        if g.currentPosition > 0 then g.currentPosition - 1 else g.currentPosition }
  else if 32 ≤ key.sym ∧ key.sym ≤ 126 then
    let inputChar := inputCharOf key
    if toSizeT g.currentPosition ≥ g.currentSentence.length then some (finishTest g now)
    else
      match g.currentSentence[toSizeT g.currentPosition]? with
      | none => none
      | some expected =>
        if inputChar = expected then
          let g1 := { g with
            userInput := g.userInput ++ [inputChar],
            currentPosition := g.currentPosition + 1 }
          if toSizeT g1.currentPosition ≥ g1.currentSentence.length then
            some (finishTest g1 now)
          else some g1
        else
          some { g with
            userInput := g.userInput ++ [inputChar],
            wpm := g.wpm.map (fun w => w - 5 * (g.errors : ℚ)),
            currentPosition := g.currentPosition + 1,
            errors := g.errors + 1,
            shakeDuration := 3 / 10,
            shakeIntensity := 5 }
  else some g

/-- What one call of `handleEvent` receives: the event, the reading of the
clock and the draw of the random generator, the last two used only on the
paths that read them. -/
structure Input where
  ev : SDL_Event
  now : Int
  pick : Fin sentences.length

/-- `TypingTestGame::handleEvent`. -/
def handleEvent (g : TypingTestGame) (i : Input) : Option TypingTestGame :=
  match i.ev with
  | .keyDown key =>
    match g.state with
    | GameState.START =>
      if key.sym = SDLK_RETURN then some (startTest g i.now) else some g
    | GameState.TYPING => handleTypingInput g key i.now
    | GameState.FINISHED =>
      if key.sym = SDLK_RETURN then some (startTest (selectRandomSentence g i.pick) i.now)
      else some g
  | _ => some g

/-- A sequence of calls of `handleEvent`, in order. -/
def handleEventSeq (g : TypingTestGame) : List Input → Option TypingTestGame
  | [] => some g
  | i :: rest =>
    match handleEvent g i with
    | none => none
    | some g1 => handleEventSeq g1 rest

/-- Upper-case letters, the characters typed with Shift held. -/
def isCapital (c : Char) : Bool := decide ('A'.toNat ≤ c.toNat ∧ c.toNat ≤ 'Z'.toNat)

/-- The key code of the unshifted key that types `c`: the lower-case letter
for a capital, the character itself otherwise (on the alphabet of the
sentences, `sentences_alphabet`, that is the key of a US keyboard). -/
def unshiftedSym (c : Char) : Int :=
  if isCapital c then ((c.toNat + 32 : Nat) : Int) else (c.toNat : Int)

/-- The event `ev` is a key-down that types `c`: its `sym` is the unshifted
key of `c` and Shift is held exactly when `c` is a capital letter. -/
def typesChar (c : Char) (ev : SDL_Event) : Prop :=
  ∃ key, ev = SDL_Event.keyDown key ∧ key.sym = unshiftedSym c ∧
    (key.mod &&& KMOD_SHIFT ≠ 0 ↔ isCapital c = true)

/-- A key-down event that types `c` on the left Shift key: scancode `0`,
`sym` the unshifted key, `mod` set to `KMOD_LSHIFT` for a capital. -/
def keyFor (c : Char) : Input :=
  { ev := SDL_Event.keyDown ⟨0, unshiftedSym c, if isCapital c then 1 else 0⟩,
    now := 0, pick := ⟨0, by decide⟩ }

/-- The statements of `TypingTestGame::update` that change the game: the
shake effect, then the running words-per-minute figure. `now` is the clock
reading and `rx`, `ry` the two draws from
`uniform_real_distribution<float>(-shakeIntensity, shakeIntensity)`, read
only on the paths that use them. -/
def updateGame (g : TypingTestGame) (deltaTime : ℚ) (now : Int) (rx ry : ℚ) :
    TypingTestGame :=
  let g1 : TypingTestGame :=
    if g.shakeDuration > 0 then
      if g.shakeDuration - deltaTime ≤ 0 then
        { g with shakeDuration := 0, shakeOffset := ⟨0, 0⟩ }
      else { g with shakeDuration := g.shakeDuration - deltaTime, shakeOffset := ⟨rx, ry⟩ }
    else g
  let minutes : ℚ := ((durationMs g1.startTime now : Int) : ℚ) / 60000
  if g1.state = GameState.TYPING then
    if minutes > 0 then { g1 with wpm := fdiv ((g1.currentPosition : ℚ) / 5) minutes }
    else g1
  else g1

/-- `TypingTestGame::update`: the game as left by `updateGame`, and the
engine as left by the final `if (engine->isKeyPressed(SDL_SCANCODE_ESCAPE))
engine->quit()`. -/
def update {F : Type} (g : TypingTestGame) (deltaTime : ℚ) (engine : Engine F) (now : Int)
    (rx ry : ℚ) : Option (TypingTestGame × Engine F) :=
  match Engine.isKeyPressed engine SDL_SCANCODE_ESCAPE with
  | none => none
  | some pressed =>
    some (updateGame g deltaTime now rx ry, if pressed then Engine.quit engine else engine)

/-- The member `maxCharsPerLine`. -/
def maxCharsPerLine : Int := 78

/-- The member `charWidth`. -/
def charWidth : ℚ := 12

/-- The member `textBackground`: `Rect(50, 150, 700 * 1.5, 150 * 1.5)`. -/
def textBackground : Rect ℚ := ⟨50, 150, 700 * (3 / 2), 150 * (3 / 2)⟩

/-- The member `inputBackground`: `Rect(50, 400, 700 * 1.5, 60 * 1.5)`. -/
def inputBackground : Rect ℚ := ⟨50, 400, 700 * (3 / 2), 60 * (3 / 2)⟩

/-- The member `bgColor`. -/
def bgColor : Color := ⟨40, 44, 52, 255⟩

/-- The member `textColor`. -/
def textColor : Color := ⟨220, 223, 228, 255⟩

/-- The member `highlightColor`. -/
def highlightColor : Color := ⟨86, 182, 194, 255⟩

/-- The member `errorColor`. -/
def errorColor : Color := ⟨224, 108, 117, 255⟩

/-- The member `correctColor`. -/
def correctColor : Color := ⟨152, 195, 121, 255⟩

/-- The characters that `std::isspace` accepts in the "C" locale: the space
and the control characters `\t`, `\n`, `\v`, `\f`, `\r`. -/
def isSpace (c : Char) : Bool := decide (c = ' ') || decide (9 ≤ c.toNat ∧ c.toNat ≤ 13)

/-- The extraction loop `while (stream >> word)` of the standard library,
with `cur` the characters of the word being read: leading white space is
skipped, a word ends at the next white space or at the end of the text. -/
def extractFrom (cur : List Char) : List Char → List (List Char)
  | [] => if cur = [] then [] else [cur]
  | c :: rest =>
    if isSpace c then
      if cur = [] then extractFrom [] rest else cur :: extractFrom [] rest
    else extractFrom (cur ++ [c]) rest

/-- The words that `while (stream >> word)` reads from `text`, in order. -/
def extractWords (text : List Char) : List (List Char) := extractFrom [] text

/-- The local variables `lines`, `currentLine`, `currentLineChars` of
`drawWrappedText`. -/
structure WrapState where
  lines : List (List Char)
  currentLine : List Char
  currentLineChars : Int
  deriving DecidableEq, Repr

/-- The body of the loop `while (stream >> word)` of `drawWrappedText`. The
sum `currentLineChars + word.length() + 1` is computed in `size_t` and the
results stored in the `int currentLineChars` are converted back. -/
def wrapStep (st : WrapState) (word : List Char) : WrapState :=
  if (toSizeT st.currentLineChars + word.length + 1) % 2 ^ 64 > toSizeT maxCharsPerLine ∧
      st.currentLine ≠ [] then
    { lines := st.lines ++ [st.currentLine], currentLine := word,
      currentLineChars := static_cast_int word.length }
  else if st.currentLine ≠ [] then
    { st with
      currentLine := st.currentLine ++ ' ' :: word,
      currentLineChars :=
        static_cast_int ((toSizeT st.currentLineChars + (word.length + 1)) % 2 ^ 64) }
  else
    { st with currentLine := word, currentLineChars := static_cast_int word.length }

/-- The state of `drawWrappedText` after its loop over the words. -/
def wrapLoop (text : List Char) : WrapState :=
  (extractWords text).foldl wrapStep { lines := [], currentLine := [], currentLineChars := 0 }

/-- The vector `lines` that `drawWrappedText` builds: the loop, then the
last line if it is not empty. -/
def wrapLines (text : List Char) : List (List Char) :=
  if (wrapLoop text).currentLine ≠ [] then
    (wrapLoop text).lines ++ [(wrapLoop text).currentLine]
  else (wrapLoop text).lines

/-- The first word of a line: its characters before the first space. -/
def firstWord (line : List Char) : List Char := line.takeWhile (fun c => c != ' ')

/-- A game in state `TYPING` on the first sentence of the list (44
characters), started at clock reading `0`, in which the first 43 characters
have been typed correctly. -/
def lastCharPending : TypingTestGame :=
  { startTest (TypingTest.new ⟨0, by decide⟩) 0 with
    userInput := "The quick brown fox jumps over the lazy dog".toList,
    currentPosition := 43 }

/-- The game `lastCharPending` after a wrong last character `x`: still in
state `TYPING`, with the position at the end of the sentence. -/
def wrongLastChar : TypingTestGame :=
  { lastCharPending with
    userInput := "The quick brown fox jumps over the lazy dogx".toList,
    currentPosition := 44, errors := 1, wpm := some 0,
    shakeDuration := 3 / 10, shakeIntensity := 5 }

/-- A word: not empty and free of white space. -/
def IsWord (w : List Char) : Prop := w ≠ [] ∧ ∀ c ∈ w, isSpace c = false

/-- A line made of one or more words separated by single spaces. -/
def IsWordLine (line : List Char) : Prop :=
  ∃ ws : List (List Char), ws ≠ [] ∧ (∀ w ∈ ws, IsWord w) ∧ line = [' '].intercalate ws

/-- The words held by the state of `drawWrappedText`: those of the lines
already built, then those of the line under construction. -/
def wrapContent (st : WrapState) : List (List Char) :=
  (st.lines.map (fun l => l.splitOn ' ')).flatten ++
    (if st.currentLine = [] then [] else st.currentLine.splitOn ' ')

/-- The line `l` respects the limit `maxCharsPerLine`, or is one of the
words `words` and longer than the limit by itself. -/
def lineFits (words : List (List Char)) (l : List Char) : Prop :=
  (l.length : Int) ≤ maxCharsPerLine ∨ (l ∈ words ∧ maxCharsPerLine < (l.length : Int))

/-- Appending the first word of `l2` to the line `l1`, with one separating
space, would exceed the limit `maxCharsPerLine`. -/
def breakNeeded (l1 l2 : List Char) : Prop :=
  (l1.length : Int) + 1 + ((firstWord l2).length : Int) > maxCharsPerLine

/-- The lines held by the state of `drawWrappedText`: those already built,
then the line under construction if it is not empty. -/
def wrapAllLines (st : WrapState) : List (List Char) :=
  st.lines ++ (if st.currentLine = [] then [] else [st.currentLine])

/-- The member `fontPath`. -/
def fontPath : String := "/usr/share/fonts/TTF/JetBrainsMono-Regular.ttf"

/-- The loop `for (size_t i = 0; i < lines.size(); i++)` of
`drawWrappedText`, from the line of index `i` on: one `drawText` per line,
`lineHeight = 30` apart. -/
def drawLines (c : OtherCtx ℚ) (lib : TextLib ℚ) (x y : ℚ) (color : Color)
    (fontName : String) : Nat → List (List Char) → List (SDLCall ℚ)
  | _, [] => []
  | i, line :: rest =>
    OtherCtx.drawTextNamed c lib line x (y + (i : ℚ) * 30) color fontName (6 / 5) ++
      drawLines c lib x y color fontName (i + 1) rest

/-- `TypingTestGame::drawWrappedText`. -/
def drawWrappedText (c : OtherCtx ℚ) (lib : TextLib ℚ) (text : List Char) (x y : ℚ)
    (color : Color) (fontName : String) : List (SDLCall ℚ) :=
  drawLines c lib x y color fontName 0 (wrapLines text)

/-- The values of `xPos` and `yOffset` before the character loop of
`drawTypingUI`: `xOffset = inputBackground.x + 20` and
`inputBackground.y + 30`. -/
def inputStart : ℚ × ℚ := (inputBackground.x + 20, inputBackground.y + 30)

/-- The update of `xPos` and `yOffset` at the end of one pass of the
character loop of `drawTypingUI`. -/
def advanceInput (p : ℚ × ℚ) : ℚ × ℚ :=
  if p.1 + charWidth > inputBackground.x + inputBackground.w - 30 then
    (inputStart.1, p.2 + 30)
  else (p.1 + charWidth, p.2)

/-- The character loop of `drawTypingUI`, from the character of index `i`
on, with `p` the current `(xPos, yOffset)`: the final `(xPos, yOffset)` and
the calls made. -/
def inputLoop (c : OtherCtx ℚ) (lib : TextLib ℚ) (currentSentence : List Char) :
    Nat → List Char → ℚ × ℚ → (ℚ × ℚ) × List (SDLCall ℚ)
  | _, [], p => (p, [])
  | i, ch :: rest, p =>
    let charColor := if currentSentence[i]? = some ch then correctColor else errorColor
    let calls := OtherCtx.drawTextNamed c lib [ch] p.1 p.2 charColor "monospace" (6 / 5)
    let r := inputLoop c lib currentSentence (i + 1) rest (advanceInput p)
    (r.1, calls ++ r.2)

/-- The expression `cursorX` of `drawTypingUI` for an input of `n`
characters: `xOffset + (n % (maxCharsPerLine - 2)) * charWidth`. -/
def cursorX (n : Nat) : ℚ :=
  inputStart.1 + ((n % toSizeT (maxCharsPerLine - 2) : Nat) : ℚ) * charWidth

/-- `TypingTestGame::drawTypingUI`; `fmt` is the formatting of a `float`
with `std::fixed << std::setprecision(1)` and `ticks` the value of
`SDL_GetTicks()`. -/
def drawTypingUI (g : TypingTestGame) (c : OtherCtx ℚ) (m : MathFns ℚ) (lib : TextLib ℚ)
    (fmt : Option ℚ → List Char) (ticks : Nat) : List (SDLCall ℚ) :=
  let loop := inputLoop c lib g.currentSentence 0 g.userInput inputStart
  OtherCtx.drawRoundedRect c m textBackground.x textBackground.y textBackground.w
      textBackground.h 15 ⟨30, 34, 42, 255⟩ true ++
    drawWrappedText c lib g.currentSentence (textBackground.x + 20) (textBackground.y + 30)
      textColor "monospace" ++
    OtherCtx.drawRoundedRect c m inputBackground.x inputBackground.y inputBackground.w
      inputBackground.h 15 ⟨30, 34, 42, 255⟩ true ++
    loop.2 ++
    (if (ticks / 500) % 2 = 0 then
      OtherCtx.drawRectOutline c (cursorX g.userInput.length) (loop.1.2 - 2) 2 24 highlightColor
    else []) ++
    OtherCtx.drawTextNamed c lib ("WPM: ".toList ++ fmt g.wpm) 50 520 textColor "monospace"
      (6 / 5)

/-- `TypingTestGame::drawFinishedUI`. -/
def drawFinishedUI (g : TypingTestGame) (c : OtherCtx ℚ) (m : MathFns ℚ) (lib : TextLib ℚ)
    (fmt : Option ℚ → List Char) : List (SDLCall ℚ) :=
  OtherCtx.drawRoundedRect c m textBackground.x textBackground.y textBackground.w
      textBackground.h 15 ⟨30, 34, 42, 255⟩ true ++
    drawWrappedText c lib g.currentSentence (textBackground.x + 20) (textBackground.y + 30)
      textColor "monospace" ++
    OtherCtx.drawRoundedRect c m inputBackground.x inputBackground.y inputBackground.w
      inputBackground.h 15 ⟨30, 34, 42, 255⟩ true ++
    drawWrappedText c lib g.userInput (inputBackground.x + 20) (inputBackground.y + 30)
      highlightColor "monospace" ++
    OtherCtx.drawTextNamed c lib "Typing test completed!".toList 300 100 textColor
      "monospace" (6 / 5) ++
    OtherCtx.drawTextNamed c lib ("WPM: ".toList ++ fmt g.wpm) 380 520 textColor "monospace"
      (6 / 5) ++
    OtherCtx.drawTextNamed c lib ("Accuracy: ".toList ++ fmt g.accuracy ++ "%".toList)
      620 520 textColor "monospace" (6 / 5) ++
    OtherCtx.drawTextNamed c lib "Press ENTER to try again".toList 300 550 textColor
      "monospace" (6 / 5)

/-- `TypingTestGame::render`: the game, the context and the library calls
afterwards. `opened` is what `TTF_OpenFont` returns for the monospace font
on the first call. -/
def render (g : TypingTestGame) (c : OtherCtx ℚ) (m : MathFns ℚ) (lib : TextLib ℚ)
    (fmt : Option ℚ → List Char) (opened : Option Nat) (ticks : Nat) :
    TypingTestGame × OtherCtx ℚ × List (SDLCall ℚ) :=
  let c1 := if g.initialized then c else (OtherCtx.loadFont c "monospace" fontPath opened).2
  let c2 := OtherCtx.setCameraPosition c1 g.shakeOffset
  let body : List (SDLCall ℚ) :=
    match g.state with
    | GameState.START =>
      OtherCtx.drawTextNamed c2 lib "Press ENTER to start typing".toList 300 100 textColor
          "monospace" (6 / 5) ++
        drawWrappedText c2 lib g.currentSentence (textBackground.x + 20)
          (textBackground.y + 30) ⟨150, 150, 150, 255⟩ "monospace"
    | GameState.TYPING => drawTypingUI g c2 m lib fmt ticks
    | GameState.FINISHED => drawFinishedUI g c2 m lib fmt
  ({ g with initialized := true },
   OtherCtx.setCameraPosition c2 ⟨0, 0⟩,
   OtherCtx.clear c1 bgColor ++
     OtherCtx.drawTextNamed c2 lib "Typing Speed Test".toList 350 50 textColor "monospace" 2 ++
     body)

/-- Games that the scene interface can build: the constructor followed by any
sequence of `handleEvent`, `update` and `render`. -/
inductive Reachable : TypingTestGame → Prop where
  | new (pick : Fin sentences.length) : Reachable (TypingTest.new pick)
  | handleEvent {g g1 : TypingTestGame} (i : Input) :
      Reachable g → handleEvent g i = some g1 → Reachable g1
  | update {g : TypingTestGame} (deltaTime : ℚ) (now : Int) (rx ry : ℚ) :
      Reachable g → Reachable (updateGame g deltaTime now rx ry)
  | render {g : TypingTestGame} (c : OtherCtx ℚ) (m : MathFns ℚ) (lib : TextLib ℚ)
      (fmt : Option ℚ → List Char) (opened : Option Nat) (ticks : Nat) :
      Reachable g → Reachable (render g c m lib fmt opened ticks).1

/-- A context in which the monospace font is loaded (font handle 7), with
the camera as the constructor leaves it. -/
def typingCtx : OtherCtx ℚ :=
  { renderer := some 2, ownsRenderer := false, defaultFont := some 7,
    fonts := [("monospace", 7)], fontPaths := [("monospace", fontPath)],
    cameraPos := ⟨0, 0⟩, cameraZoom := 1, useCamera := true }

/-- A text library in which every step succeeds: fonts are 16 high and a
text is 10 wide per character, both scaled by the text size. -/
def sampleLib : TextLib ℚ :=
  { fontHeight := fun _ => 16,
    render := fun _ _ textSize text _ => some ((text.length : ℚ) * 10 * textSize, 16 * textSize) }

/-- The game `wrongLastChar` during its shake, as `update` leaves it when
the two random draws are `3` and `4`; `render` has run before. -/
def shakenGame : TypingTestGame :=
  { wrongLastChar with shakeOffset := ⟨3, 4⟩, initialized := true }

/-- A game in state `TYPING` on the second sentence of the list (82
characters), in which the first 76 characters, up to the space before
`to do.`, have been typed correctly. -/
def longInput : TypingTestGame :=
  { startTest (TypingTest.new ⟨1, by decide⟩) 0 with
    userInput :=
      "Programming is the art of telling another human what one wants the computer ".toList,
    currentPosition := 76 }

/-- The number of positions `i < |userInput|` at which `userInput[i]` is not
`currentSentence[i]`: the characters that `drawTypingUI` draws in the error
colour. -/
def mismatchCount (currentSentence userInput : List Char) : Nat :=
  ((List.range userInput.length).filter
    (fun i => decide (userInput[i]? ≠ currentSentence[i]?))).length

/-- The event is a key-down of the Backspace key. -/
def isBackspaceKey : SDL_Event → Bool
  | .keyDown key => decide (key.sym = SDLK_BACKSPACE)
  | _ => false

/-- The call `handleEvent g i` runs `startTest`: a key-down of Enter in
state `START` or `FINISHED`. -/
def startsTest (g : TypingTestGame) (i : Input) : Bool :=
  match i.ev with
  | .keyDown key => decide (key.sym = SDLK_RETURN) && decide (g.state ≠ GameState.TYPING)
  | _ => false

/-- Games that can be reached, with the record of whether Backspace has been
pressed since the last `startTest` (since the constructor, before the first
one). -/
inductive ReachableSince : Bool → TypingTestGame → Prop where
  | new (pick : Fin sentences.length) : ReachableSince false (TypingTest.new pick)
  | handleEvent {b : Bool} {g g1 : TypingTestGame} (i : Input) :
      ReachableSince b g → handleEvent g i = some g1 →
      ReachableSince (if startsTest g i then false else (b || isBackspaceKey i.ev)) g1
  | update {b : Bool} {g : TypingTestGame} (deltaTime : ℚ) (now : Int) (rx ry : ℚ) :
      ReachableSince b g → ReachableSince b (updateGame g deltaTime now rx ry)
  | render {b : Bool} {g : TypingTestGame} (c : OtherCtx ℚ) (m : MathFns ℚ) (lib : TextLib ℚ)
      (fmt : Option ℚ → List Char) (opened : Option Nat) (ticks : Nat) :
      ReachableSince b g → ReachableSince b (render g c m lib fmt opened ticks).1

/-- The call is a `RenderCopyF` of a texture in the error colour. -/
def errorColoured : SDLCall ℚ → Bool
  | .RenderCopyF _ _ color _ _ _ _ => decide (color = errorColor)
  | _ => false

/-- The invariant of the typing test, with `b` the record of a Backspace
since the last `startTest`: the sentence is one of the list, the position is
the length of the input and inside the sentence, the error count is at least
the number of mismatching positions, and equal to it while `b` is false. -/
def TypingInv (b : Bool) (g : TypingTestGame) : Prop :=
  g.currentSentence ∈ sentences ∧
  g.currentPosition = (g.userInput.length : Int) ∧
  g.userInput.length ≤ g.currentSentence.length ∧
  (mismatchCount g.currentSentence g.userInput : Int) ≤ g.errors ∧
  (b = false → g.errors = (mismatchCount g.currentSentence g.userInput : Int))

end TypingTest

end ContextEngine

/-! # Theorems -/

namespace ContextEngine

/-! ## Shared lemmas: integer conversion -/

theorem static_cast_int_le (n : Nat) : static_cast_int n ≤ (n : Int) := by
  unfold static_cast_int
  have h := Nat.mod_le n (2 ^ 32)
  split <;> omega

theorem static_cast_int_of_lt (n : Nat) (h : n < 2 ^ 31) : static_cast_int n = (n : Int) := by
  unfold static_cast_int
  have h1 : n % 2 ^ 32 = n := Nat.mod_eq_of_lt (by omega)
  rw [h1, if_pos h]

namespace Engine

variable {F : Type}

/-! ## Shared lemmas: the engine -/

theorem sceneAt_of_hasCurrentScene (e : Engine F) (h : hasCurrentScene e = true) :
    ∃ s, sceneAt e e.currentSceneIndex = some s ∧
      e.scenes[e.currentSceneIndex.toNat]? = some s := by
  simp only [hasCurrentScene, Bool.and_eq_true, decide_eq_true_eq] at h
  have hle := static_cast_int_le e.scenes.length
  have hlt : e.currentSceneIndex.toNat < e.scenes.length := by omega
  refine ⟨e.scenes[e.currentSceneIndex.toNat], ?_, ?_⟩
  · unfold sceneAt
    rw [if_neg (by omega)]
    exact List.getElem?_eq_getElem hlt
  · exact List.getElem?_eq_getElem hlt

theorem hasCurrentScene_iff (e : Engine F) (hlen : e.scenes.length < 2 ^ 31) :
    hasCurrentScene e = true ↔
      0 ≤ e.currentSceneIndex ∧ e.currentSceneIndex < (e.scenes.length : Int) := by
  simp only [hasCurrentScene, Bool.and_eq_true, decide_eq_true_eq,
    static_cast_int_of_lt _ hlen]

/-- The engine switch returns on an event whose scancode is inside the key
table; it keeps the scene list, the current index and the size of the key
table, and raises the mouse-released flag exactly on a left-button-up. -/
theorem handleEngineEvent_spec (e : Engine F) (ev : SDL_Event)
    (h : scancodeBelow e.input.keys.length ev = true) :
    ∃ e1, handleEngineEvent e ev = some e1 ∧ e1.scenes = e.scenes ∧
      e1.currentSceneIndex = e.currentSceneIndex ∧
      e1.input.keys.length = e.input.keys.length ∧
      e1.input.mouseReleased =
        (e.input.mouseReleased || decide (ev = SDL_Event.mouseButtonUp SDL_BUTTON_LEFT)) := by
  cases ev with
  | quit => exact ⟨_, rfl, rfl, rfl, rfl, by simp⟩
  | keyDown key =>
    simp only [scancodeBelow, decide_eq_true_eq] at h
    simp only [handleEngineEvent, keysWrite, if_pos h]
    refine ⟨_, rfl, ?_, ?_, ?_, ?_⟩ <;> simp
  | keyUp key =>
    simp only [scancodeBelow, decide_eq_true_eq] at h
    simp only [handleEngineEvent, keysWrite, if_pos h]
    refine ⟨_, rfl, ?_, ?_, ?_, ?_⟩ <;> simp
  | mouseMotion x y => exact ⟨_, rfl, rfl, rfl, rfl, by simp⟩
  | mouseButtonDown button =>
    by_cases hb : button = SDL_BUTTON_LEFT
    · simp only [handleEngineEvent, if_pos hb]
      refine ⟨_, rfl, ?_, ?_, ?_, ?_⟩ <;> simp
    · simp only [handleEngineEvent, if_neg hb]
      refine ⟨_, rfl, ?_, ?_, ?_, ?_⟩ <;> simp
  | mouseButtonUp button =>
    by_cases hb : button = SDL_BUTTON_LEFT
    · simp only [handleEngineEvent, if_pos hb]
      refine ⟨_, rfl, ?_, ?_, ?_, ?_⟩ <;> simp [hb]
    · simp only [handleEngineEvent, if_neg hb]
      refine ⟨_, rfl, ?_, ?_, ?_, ?_⟩ <;> simp [hb]
  | other t => exact ⟨_, rfl, rfl, rfl, rfl, by simp⟩

/-- The calls that the polling loop makes on scenes for a batch of events. -/
theorem pollLoop_spec (polled : List SDL_Event) :
    ∀ e : Engine F, (∀ ev ∈ polled, scancodeBelow e.input.keys.length ev = true) →
      ∃ e1 calls, pollLoop e polled = some (e1, calls) ∧ e1.scenes = e.scenes ∧
        e1.currentSceneIndex = e.currentSceneIndex ∧
        e1.input.keys.length = e.input.keys.length ∧
        e1.input.mouseReleased =
          (e.input.mouseReleased ||
            decide (SDL_Event.mouseButtonUp SDL_BUTTON_LEFT ∈ polled)) ∧
        (hasCurrentScene e = true →
          ∀ s, e.scenes[e.currentSceneIndex.toNat]? = some s →
            calls = polled.map (SceneCall.handleEvent s)) ∧
        (hasCurrentScene e = false → calls = []) := by
  induction polled with
  | nil =>
    intro e _
    exact ⟨e, [], rfl, rfl, rfl, rfl, by simp, fun _ _ _ => rfl, fun _ => rfl⟩
  | cons ev rest ih =>
    intro e h
    obtain ⟨e1, he1, hsc, hcur, hk, hm⟩ :=
      handleEngineEvent_spec e ev (h ev (List.mem_cons_self _ _))
    have hcs : hasCurrentScene e1 = hasCurrentScene e := by
      simp only [hasCurrentScene, hsc, hcur]
    have hrest : ∀ ev2 ∈ rest, scancodeBelow e1.input.keys.length ev2 = true := by
      intro ev2 hev2
      rw [hk]
      exact h ev2 (List.mem_cons_of_mem _ hev2)
    obtain ⟨e2, calls2, he2, hsc2, hcur2, hk2, hm2, hc2, hn2⟩ := ih e1 hrest
    have hmr : e2.input.mouseReleased =
        (e.input.mouseReleased ||
          decide (SDL_Event.mouseButtonUp SDL_BUTTON_LEFT ∈ ev :: rest)) := by
      rw [hm2, hm]
      by_cases hev : ev = SDL_Event.mouseButtonUp SDL_BUTTON_LEFT
      · simp [hev]
      · have hne : ¬ (SDL_Event.mouseButtonUp SDL_BUTTON_LEFT = ev) := fun hh => hev hh.symm
        simp [hev, hne]
    cases hc : hasCurrentScene e with
    | true =>
      obtain ⟨s, hs, hs2⟩ := sceneAt_of_hasCurrentScene e1 (hcs.trans hc)
      refine ⟨e2, SceneCall.handleEvent s ev :: calls2, ?_, hsc2.trans hsc,
        hcur2.trans hcur, hk2.trans hk, hmr, ?_, ?_⟩
      · simp only [pollLoop, handleOneEvent, he1, hcs.trans hc, if_true, hs, he2,
          List.singleton_append]
      · intro _ s2 hs2e
        rw [hsc, hcur, hs2e] at hs2
        cases hs2
        rw [List.map_cons, hc2 (hcs.trans hc) s (by rw [hsc, hcur]; exact hs2e)]
      · intro hfalse
        cases hfalse
    | false =>
      refine ⟨e2, calls2, ?_, hsc2.trans hsc, hcur2.trans hcur, hk2.trans hk, hmr, ?_, ?_⟩
      · simp [pollLoop, handleOneEvent, he1, hcs.trans hc, he2]
      · intro htrue
        cases htrue
      · intro _
        exact hn2 (hcs.trans hc)

/-- Whenever the engine switch returns, it has kept the scene list, the
current index and the size of the key table. -/
theorem handleEngineEvent_preserves (e e1 : Engine F) (ev : SDL_Event)
    (h : handleEngineEvent e ev = some e1) :
    e1.scenes = e.scenes ∧ e1.currentSceneIndex = e.currentSceneIndex ∧
      e1.input.keys.length = e.input.keys.length := by
  cases ev with
  | quit =>
    simp only [handleEngineEvent, Option.some.injEq] at h
    subst h
    exact ⟨rfl, rfl, rfl⟩
  | keyDown key =>
    simp only [handleEngineEvent, keysWrite] at h
    split at h
    · simp only [Option.some.injEq] at h
      subst h
      exact ⟨rfl, rfl, by simp⟩
    · cases h
  | keyUp key =>
    simp only [handleEngineEvent, keysWrite] at h
    split at h
    · simp only [Option.some.injEq] at h
      subst h
      exact ⟨rfl, rfl, by simp⟩
    · cases h
  | mouseMotion x y =>
    simp only [handleEngineEvent, Option.some.injEq] at h
    subst h
    exact ⟨rfl, rfl, rfl⟩
  | mouseButtonDown button =>
    simp only [handleEngineEvent] at h
    split at h <;>
    · simp only [Option.some.injEq] at h
      subst h
      exact ⟨rfl, rfl, rfl⟩
  | mouseButtonUp button =>
    simp only [handleEngineEvent] at h
    split at h <;>
    · simp only [Option.some.injEq] at h
      subst h
      exact ⟨rfl, rfl, rfl⟩
  | other t =>
    simp only [handleEngineEvent, Option.some.injEq] at h
    subst h
    exact ⟨rfl, rfl, rfl⟩

/-- The engine returned by one iteration of the polling loop is the one
returned by the engine switch. -/
theorem handleOneEvent_engine (e e1 : Engine F) (ev : SDL_Event) (calls : List SceneCall)
    (h : handleOneEvent e ev = some (e1, calls)) : handleEngineEvent e ev = some e1 := by
  unfold handleOneEvent at h
  cases hev : handleEngineEvent e ev with
  | none => simp [hev] at h
  | some e2 =>
    rw [hev] at h
    simp only at h
    cases hc : hasCurrentScene e2 with
    | true =>
      obtain ⟨s, hs, _⟩ := sceneAt_of_hasCurrentScene e2 hc
      simp only [hc, if_true, hs, Option.some.injEq, Prod.mk.injEq] at h
      rw [h.1]
    | false =>
      simp only [hc, Bool.false_eq_true, if_false, Option.some.injEq, Prod.mk.injEq] at h
      rw [h.1]

/-- Whenever the polling loop returns, it has kept the scene list, the
current index and the size of the key table. -/
theorem pollLoop_preserves (polled : List SDL_Event) :
    ∀ (e e1 : Engine F) (calls : List SceneCall), pollLoop e polled = some (e1, calls) →
      e1.scenes = e.scenes ∧ e1.currentSceneIndex = e.currentSceneIndex ∧
        e1.input.keys.length = e.input.keys.length := by
  induction polled with
  | nil =>
    intro e e1 calls h
    simp only [pollLoop, Option.some.injEq, Prod.mk.injEq] at h
    rw [← h.1]
    exact ⟨rfl, rfl, rfl⟩
  | cons ev rest ih =>
    intro e e1 calls h
    unfold pollLoop at h
    cases hone : handleOneEvent e ev with
    | none => simp [hone] at h
    | some r1 =>
      obtain ⟨e2, calls2⟩ := r1
      obtain ⟨h1, h2, h3⟩ :=
        handleEngineEvent_preserves e e2 ev (handleOneEvent_engine e e2 ev calls2 hone)
      cases hrest : pollLoop e2 rest with
      | none => simp [hone, hrest] at h
      | some r =>
        obtain ⟨e3, calls3⟩ := r
        obtain ⟨h4, h5, h6⟩ := ih e2 e3 calls3 hrest
        simp only [hone, hrest, Option.some.injEq, Prod.mk.injEq] at h
        rw [← h.1]
        exact ⟨h4.trans h1, h5.trans h2, h6.trans h3⟩

/-- The guarded branch of `switchScene`: for an index accepted by the guard
the call returns, with the exit call on the current scene (if any) followed by
the load call on the new one. -/
theorem switchScene_accept (e : Engine F) (i : Int) (h0 : 0 ≤ i)
    (hi : i < static_cast_int e.scenes.length) :
    ∃ s, e.scenes[i.toNat]? = some s ∧
      switchScene e i =
        some ({ e with currentSceneIndex := i },
          (if hasCurrentScene e = true then
              (e.scenes[e.currentSceneIndex.toNat]?).toList.map SceneCall.onExit
            else []) ++ [SceneCall.onLoad s]) := by
  have hle := static_cast_int_le e.scenes.length
  have hlt : i.toNat < e.scenes.length := by omega
  have hguard : ¬ (i < 0 ∨ i ≥ static_cast_int e.scenes.length) := by omega
  have hnew : sceneAt { e with currentSceneIndex := i } i = some e.scenes[i.toNat] := by
    unfold sceneAt
    rw [if_neg (by omega)]
    exact List.getElem?_eq_getElem hlt
  refine ⟨e.scenes[i.toNat], List.getElem?_eq_getElem hlt, ?_⟩
  cases hc : hasCurrentScene e with
  | true =>
    obtain ⟨s0, hs0, hs0e⟩ := sceneAt_of_hasCurrentScene e hc
    simp [switchScene, hguard, hc, hs0, hs0e, hnew]
  | false =>
    simp [switchScene, hguard, hc, hnew]

/-- Engines built through the public interface keep a key table of
`SDL_NUM_SCANCODES` entries, and their current index is `-1` or the index of
a scene of the list. -/
theorem reachable_inv [Zero F] [One F] (e : Engine F) (h : Reachable e) :
    e.input.keys.length = SDL_NUM_SCANCODES ∧
      (e.currentSceneIndex = -1 ∨
        (0 ≤ e.currentSceneIndex ∧ e.currentSceneIndex < (e.scenes.length : Int))) := by
  have hsw : ∀ (e0 e1 : Engine F) (index : Int) (calls : List SceneCall),
      (e0.input.keys.length = SDL_NUM_SCANCODES ∧
        (e0.currentSceneIndex = -1 ∨
          (0 ≤ e0.currentSceneIndex ∧ e0.currentSceneIndex < (e0.scenes.length : Int)))) →
      switchScene e0 index = some (e1, calls) →
      (e1.input.keys.length = SDL_NUM_SCANCODES ∧
        (e1.currentSceneIndex = -1 ∨
          (0 ≤ e1.currentSceneIndex ∧ e1.currentSceneIndex < (e1.scenes.length : Int)))) := by
    intro e0 e1 index calls hinv hs
    by_cases hg : index < 0 ∨ index ≥ static_cast_int e0.scenes.length
    · simp only [switchScene, if_pos hg, Option.some.injEq, Prod.mk.injEq] at hs
      rw [← hs.1]
      exact hinv
    · have hle := static_cast_int_le e0.scenes.length
      obtain ⟨s, _, hsw⟩ := switchScene_accept e0 index (by omega) (by omega)
      rw [hsw] at hs
      simp only [Option.some.injEq, Prod.mk.injEq] at hs
      rw [← hs.1]
      refine ⟨hinv.1, Or.inr ⟨?_, ?_⟩⟩
      · show 0 ≤ index
        omega
      · show index < (e0.scenes.length : Int)
        omega
  induction h with
  | new sdlInitResult createdWindow createdRenderer ttfInit opened =>
    unfold Engine.new
    simp only
    split
    · exact ⟨by simp, Or.inl rfl⟩
    · split
      · exact ⟨by simp, Or.inl rfl⟩
      · split
        · exact ⟨by simp, Or.inl rfl⟩
        · exact ⟨by simp, Or.inl rfl⟩
  | init _ ih =>
    unfold init
    split
    · exact ih
    · exact ih
  | @handleEvents e0 e1 polled calls _ hs ih =>
    obtain ⟨hscn, hcur, hk⟩ := pollLoop_preserves polled _ _ _ hs
    rw [hk, hscn, hcur]
    exact ih
  | @addScene e0 e1 scene calls _ hs ih =>
    unfold Engine.addScene at hs
    simp only at hs
    split at hs
    · refine hsw { e0 with scenes := e0.scenes ++ [scene] } _ _ _ ⟨ih.1, ?_⟩ hs
      rcases ih.2 with h1 | h1
      · exact Or.inl h1
      · refine Or.inr ⟨h1.1, ?_⟩
        simp only [List.length_append, List.length_singleton, Nat.cast_add, Nat.cast_one]
        omega
    · simp only [Option.some.injEq, Prod.mk.injEq] at hs
      rw [← hs.1]
      refine ⟨ih.1, ?_⟩
      rcases ih.2 with h1 | h1
      · exact Or.inl h1
      · refine Or.inr ⟨h1.1, ?_⟩
        simp only [List.length_append, List.length_singleton, Nat.cast_add, Nat.cast_one]
        omega
  | switchScene _ hs ih => exact hsw _ _ _ _ ih hs
  | quit _ ih => exact ih

/-! ## Claims on the engine -/

/-- C1: on a batch of polled events (scancodes inside the key table, scene
count representable as `int`), `handleEvents` returns and the calls it makes
on scenes are exactly one `handleEvent` per polled event, in poll order, all
on the current scene `scenes[currentSceneIndex]`; without a current scene, in
particular when `currentSceneIndex = -1`, it makes no call at all. -/
theorem handleEvents_dispatch (e : Engine F) (polled : List SDL_Event)
    (hsc : ∀ ev ∈ polled, scancodeBelow e.input.keys.length ev = true)
    (hlen : e.scenes.length < 2 ^ 31) :
    ∃ e1 calls, handleEvents e polled = some (e1, calls) ∧
      (∀ s, 0 ≤ e.currentSceneIndex → e.scenes[e.currentSceneIndex.toNat]? = some s →
        calls = polled.map (SceneCall.handleEvent s)) ∧
      (e.currentSceneIndex < 0 ∨ (e.scenes.length : Int) ≤ e.currentSceneIndex →
        calls = []) ∧
      (e.currentSceneIndex = -1 → calls = []) := by
  obtain ⟨e1, calls, h1, _, _, _, _, hyes, hno⟩ :=
    pollLoop_spec polled { e with input := { e.input with mouseReleased := false } } hsc
  have hiff : hasCurrentScene { e with input := { e.input with mouseReleased := false } } = true ↔
      0 ≤ e.currentSceneIndex ∧ e.currentSceneIndex < (e.scenes.length : Int) :=
    hasCurrentScene_iff { e with input := { e.input with mouseReleased := false } } hlen
  have hnone : e.currentSceneIndex < 0 ∨ (e.scenes.length : Int) ≤ e.currentSceneIndex →
      calls = [] := by
    intro hout
    apply hno
    cases hc : hasCurrentScene { e with input := { e.input with mouseReleased := false } } with
    | false => rfl
    | true =>
      have := hiff.mp hc
      omega
  refine ⟨e1, calls, h1, ?_, hnone, ?_⟩
  · intro s h0 hs
    have hlt : e.currentSceneIndex.toNat < e.scenes.length := by
      by_contra hge
      rw [List.getElem?_eq_none (by omega)] at hs
      cases hs
    exact hyes (hiff.mpr ⟨h0, by omega⟩) s hs
  · intro hm
    exact hnone (Or.inl (by omega))

/-- C1, at a concrete input: three events polled by the sample engine. -/
theorem handleEvents_dispatch_witness :
    ∃ e1 calls,
      handleEvents sample
        [SDL_Event.keyDown ⟨4, 97, 0⟩, SDL_Event.mouseButtonUp 1, SDL_Event.quit] =
          some (e1, calls) ∧
      (∀ s, 0 ≤ sample.currentSceneIndex →
        sample.scenes[sample.currentSceneIndex.toNat]? = some s →
        calls = [SDL_Event.keyDown ⟨4, 97, 0⟩, SDL_Event.mouseButtonUp 1,
          SDL_Event.quit].map (SceneCall.handleEvent s)) ∧
      (sample.currentSceneIndex < 0 ∨
        (sample.scenes.length : Int) ≤ sample.currentSceneIndex → calls = []) ∧
      (sample.currentSceneIndex = -1 → calls = []) :=
  handleEvents_dispatch sample _
    (by
      intro ev hev
      have hl : sample.input.keys.length = 512 := List.length_replicate _ _
      rw [hl]
      simp only [List.mem_cons, List.mem_singleton, List.not_mem_nil, or_false] at hev
      rcases hev with rfl | rfl | rfl <;> decide)
    (by simp [sample])

/-- C2: `addScene` on an engine without scenes makes the added scene the
only and current one (`getCurrentSceneIndex() = 0`) and calls its `onLoad`
exactly once, and on no other scene; from the constructor's index `-1` that
is the only call made. On an engine that holds a scene already, `addScene`
appends the scene, changes nothing else and makes no call. -/
theorem addScene_spec (e : Engine F) (scene : Scene) :
    (e.scenes = [] →
      ∃ e1 calls, addScene e scene = some (e1, calls) ∧ e1.scenes = [scene] ∧
        getCurrentSceneIndex e1 = 0 ∧
        calls.count (SceneCall.onLoad scene) = 1 ∧
        (∀ s, SceneCall.onLoad s ∈ calls → s = scene) ∧
        (e.currentSceneIndex = -1 → calls = [SceneCall.onLoad scene])) ∧
    (e.scenes ≠ [] →
      addScene e scene = some ({ e with scenes := e.scenes ++ [scene] }, [])) := by
  constructor
  · intro hnil
    have hcast : static_cast_int 1 = 1 := static_cast_int_of_lt 1 (by norm_num)
    obtain ⟨s, hs, hsw⟩ := switchScene_accept { e with scenes := [scene] } 0 (le_refl 0)
      (by show (0 : Int) < static_cast_int 1; rw [hcast]; exact Int.one_pos)
    simp only [Int.toNat_zero, List.getElem?_cons_zero, Option.some.injEq] at hs
    subst hs
    have hadd : addScene e scene = switchScene { e with scenes := [scene] } 0 := by
      simp [addScene, hnil]
    rw [hadd, hsw]
    refine ⟨_, _, rfl, rfl, rfl, ?_, ?_, ?_⟩
    · cases hc : hasCurrentScene { e with scenes := [scene] } with
      | true =>
        obtain ⟨s0, _, hs0⟩ := sceneAt_of_hasCurrentScene _ hc
        simp only at hs0
        rw [if_pos rfl, hs0]
        simp [List.count_cons]
      | false => simp [List.count_cons]
    · intro s hmem
      cases hc : hasCurrentScene { e with scenes := [scene] } with
      | true =>
        obtain ⟨s0, _, hs0⟩ := sceneAt_of_hasCurrentScene _ hc
        simp only at hs0
        rw [hc, if_pos rfl, hs0] at hmem
        simpa using hmem
      | false =>
        rw [hc] at hmem
        simpa using hmem
    · intro hm1
      have hc : hasCurrentScene { e with scenes := [scene] } = false := by
        simp [hasCurrentScene, hm1]
      rw [hc]
      simp
  · intro hne
    have hlen : (e.scenes ++ [scene]).length ≠ 1 := by
      have : 0 < e.scenes.length := List.length_pos.mpr hne
      simp only [List.length_append, List.length_singleton]
      omega
    unfold addScene
    simp only
    rw [if_neg hlen]

/-- C2, at concrete inputs: a first scene added to a freshly constructed
engine, and a third scene added to the sample engine. -/
theorem addScene_spec_witness :
    (∃ e1 calls, addScene (Engine.new 0 (some 1) (some 2) 0 none : Engine Int) ⟨5⟩ =
        some (e1, calls) ∧ e1.scenes = [⟨5⟩] ∧ getCurrentSceneIndex e1 = 0 ∧
        calls.count (SceneCall.onLoad ⟨5⟩) = 1 ∧
        (∀ s, SceneCall.onLoad s ∈ calls → s = ⟨5⟩) ∧
        ((Engine.new 0 (some 1) (some 2) 0 none : Engine Int).currentSceneIndex = -1 →
          calls = [SceneCall.onLoad ⟨5⟩])) ∧
    addScene sample ⟨12⟩ = some ({ sample with scenes := sample.scenes ++ [⟨12⟩] }, []) :=
  ⟨(addScene_spec (Engine.new 0 (some 1) (some 2) 0 none : Engine Int) ⟨5⟩).1 rfl,
   (addScene_spec sample ⟨12⟩).2 (by simp [sample])⟩

/-- C3: for an index `i` with `0 <= i < scenes.size()` (scene count
representable as `int`), `switchScene(i)` returns; it calls `onExit` on the
previously current scene when there is one, then `onLoad` on scene `i`, and
nothing else; afterwards `getCurrentSceneIndex() = i` and no other field,
the scene list included, has changed. -/
theorem switchScene_in_range (e : Engine F) (i : Int) (hlen : e.scenes.length < 2 ^ 31)
    (h0 : 0 ≤ i) (hi : i < (e.scenes.length : Int)) :
    ∃ s e1 calls, e.scenes[i.toNat]? = some s ∧ switchScene e i = some (e1, calls) ∧
      calls =
        (if 0 ≤ e.currentSceneIndex ∧ e.currentSceneIndex < (e.scenes.length : Int) then
            (e.scenes[e.currentSceneIndex.toNat]?).toList.map SceneCall.onExit
          else []) ++ [SceneCall.onLoad s] ∧
      getCurrentSceneIndex e1 = i ∧ e1.scenes = e.scenes ∧
      e1 = { e with currentSceneIndex := i } := by
  obtain ⟨s, hs, hsw⟩ := switchScene_accept e i h0
    (by rw [static_cast_int_of_lt _ hlen]; exact hi)
  refine ⟨s, _, _, hs, hsw, ?_, rfl, rfl, rfl⟩
  have hiff := hasCurrentScene_iff e hlen
  by_cases hc : 0 ≤ e.currentSceneIndex ∧ e.currentSceneIndex < (e.scenes.length : Int)
  · rw [if_pos hc, if_pos (hiff.mpr hc)]
  · rw [if_neg hc, if_neg (fun h => hc (hiff.mp h))]

/-- C3, at a concrete input: the sample engine switches from scene 1 to
scene 0. -/
theorem switchScene_in_range_witness :
    ∃ s e1 calls, sample.scenes[(0 : Int).toNat]? = some s ∧
      switchScene sample 0 = some (e1, calls) ∧
      calls =
        (if 0 ≤ sample.currentSceneIndex ∧
            sample.currentSceneIndex < (sample.scenes.length : Int) then
            (sample.scenes[sample.currentSceneIndex.toNat]?).toList.map SceneCall.onExit
          else []) ++ [SceneCall.onLoad s] ∧
      getCurrentSceneIndex e1 = 0 ∧ e1.scenes = sample.scenes ∧
      e1 = { sample with currentSceneIndex := 0 } :=
  switchScene_in_range sample 0 (by simp [sample]) (le_refl 0) (by simp [sample])

/-- C4: for an index `i < 0` or `i >= scenes.size()`, `switchScene(i)`
returns the engine unchanged and makes no call on any scene. -/
theorem switchScene_out_of_range (e : Engine F) (i : Int)
    (h : i < 0 ∨ i ≥ (e.scenes.length : Int)) : switchScene e i = some (e, []) := by
  have hle := static_cast_int_le e.scenes.length
  have hg : i < 0 ∨ i ≥ static_cast_int e.scenes.length := by omega
  simp only [switchScene, if_pos hg]

/-- C4, at concrete inputs: indices `-1` and `2` on the two-scene sample
engine. -/
theorem switchScene_out_of_range_witness :
    switchScene sample (-1) = some (sample, []) ∧ switchScene sample 2 = some (sample, []) :=
  ⟨switchScene_out_of_range sample (-1) (Or.inl (by decide)),
   switchScene_out_of_range sample 2 (Or.inr (by simp [sample]))⟩

/-- C5: on an engine whose key table has the `SDL_NUM_SCANCODES` entries
the constructor gives it, `isKeyPressed(k)` returns `false` for `k < 0` and
for `k >= SDL_NUM_SCANCODES`, returns the stored state of key `k` for every
other `k`, and in no case reads the table out of range. -/
theorem isKeyPressed_spec (e : Engine F) (k : Int)
    (hsize : e.input.keys.length = SDL_NUM_SCANCODES) :
    (k < 0 ∨ k ≥ (SDL_NUM_SCANCODES : Int) → isKeyPressed e k = some false) ∧
    (0 ≤ k ∧ k < (SDL_NUM_SCANCODES : Int) →
      ∃ b, e.input.keys[k.toNat]? = some b ∧ isKeyPressed e k = some b) ∧
    isKeyPressed e k ≠ none := by
  have hcast : static_cast_int e.input.keys.length = (SDL_NUM_SCANCODES : Int) := by
    rw [hsize]
    exact static_cast_int_of_lt _ (by norm_num [SDL_NUM_SCANCODES])
  have hout : k < 0 ∨ k ≥ (SDL_NUM_SCANCODES : Int) → isKeyPressed e k = some false := by
    intro h
    unfold isKeyPressed
    rw [hcast, if_pos h]
  have hin : 0 ≤ k ∧ k < (SDL_NUM_SCANCODES : Int) →
      ∃ b, e.input.keys[k.toNat]? = some b ∧ isKeyPressed e k = some b := by
    intro h
    have hlt : k.toNat < e.input.keys.length := by omega
    refine ⟨e.input.keys[k.toNat], List.getElem?_eq_getElem hlt, ?_⟩
    unfold isKeyPressed
    rw [hcast, if_neg (by omega)]
    exact List.getElem?_eq_getElem hlt
  refine ⟨hout, hin, ?_⟩
  by_cases h : k < 0 ∨ k ≥ (SDL_NUM_SCANCODES : Int)
  · rw [hout h]
    exact Option.some_ne_none _
  · obtain ⟨b, _, hb⟩ := hin (by omega)
    rw [hb]
    exact Option.some_ne_none _

/-- C5, at a concrete input: key 4 of the sample engine. -/
theorem isKeyPressed_spec_witness :
    ((4 : Int) < 0 ∨ (4 : Int) ≥ (SDL_NUM_SCANCODES : Int) →
      isKeyPressed sample 4 = some false) ∧
    ((0 : Int) ≤ 4 ∧ (4 : Int) < (SDL_NUM_SCANCODES : Int) →
      ∃ b, sample.input.keys[(4 : Int).toNat]? = some b ∧ isKeyPressed sample 4 = some b) ∧
    isKeyPressed sample 4 ≠ none :=
  isKeyPressed_spec sample 4 (List.length_replicate _ _)

/-- C6: after `handleEvents` on a batch of polled events (scancodes inside
the key table), `isMouseReleased()` holds if and only if the batch contains a
left-button-up event, whatever the flag was before the call; a batch without
one, even with button-up events of other buttons, leaves the flag down. -/
theorem mouseReleased_per_frame (e : Engine F) (polled : List SDL_Event)
    (hsc : ∀ ev ∈ polled, scancodeBelow e.input.keys.length ev = true) :
    ∃ e1 calls, handleEvents e polled = some (e1, calls) ∧
      (isMouseReleased e1 = true ↔ SDL_Event.mouseButtonUp SDL_BUTTON_LEFT ∈ polled) ∧
      ((∀ ev ∈ polled, ev ≠ SDL_Event.mouseButtonUp SDL_BUTTON_LEFT) →
        isMouseReleased e1 = false) := by
  obtain ⟨e1, calls, h1, _, _, _, hm, _, _⟩ :=
    pollLoop_spec polled { e with input := { e.input with mouseReleased := false } } hsc
  have hflag : isMouseReleased e1 =
      decide (SDL_Event.mouseButtonUp SDL_BUTTON_LEFT ∈ polled) := by
    unfold isMouseReleased
    rw [hm]
    exact Bool.false_or _
  refine ⟨e1, calls, h1, ?_, ?_⟩
  · rw [hflag, decide_eq_true_eq]
  · intro hno
    rw [hflag, decide_eq_false_iff_not]
    intro hmem
    exact hno _ hmem rfl

/-- C6, at a concrete input: the sample engine, whose flag is up, polls a
right-button-up and a mouse motion. -/
theorem mouseReleased_per_frame_witness :
    ∃ e1 calls,
      handleEvents sample [SDL_Event.mouseButtonUp 3, SDL_Event.mouseMotion 5 6] =
        some (e1, calls) ∧
      (isMouseReleased e1 = true ↔
        SDL_Event.mouseButtonUp SDL_BUTTON_LEFT ∈
          [SDL_Event.mouseButtonUp 3, SDL_Event.mouseMotion 5 6]) ∧
      ((∀ ev ∈ [SDL_Event.mouseButtonUp 3, SDL_Event.mouseMotion 5 6],
          ev ≠ SDL_Event.mouseButtonUp SDL_BUTTON_LEFT) →
        isMouseReleased e1 = false) :=
  mouseReleased_per_frame sample _
    (by
      intro ev hev
      simp only [List.mem_cons, List.mem_singleton, List.not_mem_nil, or_false] at hev
      rcases hev with rfl | rfl <;> rfl)

/-- C7: `init` returns `true` with `running` set if and only if the window,
the renderer and the render context were all created; in that case nothing
but `running` changes, and otherwise `init` returns `false` and leaves every
field, `running` included, as it was. -/
theorem init_spec (e : Engine F) :
    (((init e).1 = true ∧ (init e).2.running = true) ↔
      (e.window.isSome = true ∧ e.renderer.isSome = true ∧ e.ctx.isSome = true)) ∧
    ((e.window.isSome = true ∧ e.renderer.isSome = true ∧ e.ctx.isSome = true) →
      init e = (true, { e with running := true })) ∧
    (¬ (e.window.isSome = true ∧ e.renderer.isSome = true ∧ e.ctx.isSome = true) →
      init e = (false, e)) := by
  have hyes : (e.window.isSome = true ∧ e.renderer.isSome = true ∧ e.ctx.isSome = true) →
      init e = (true, { e with running := true }) := by
    rintro ⟨hw, hr, hc⟩
    have hcond : (e.window.isNone || e.renderer.isNone || e.ctx.isNone) = false := by
      rw [Option.isSome_iff_exists] at hw hr hc
      obtain ⟨w, hw⟩ := hw
      obtain ⟨r, hr⟩ := hr
      obtain ⟨c, hc⟩ := hc
      rw [hw, hr, hc]
      rfl
    unfold init
    rw [hcond]
    rfl
  have hno : ¬ (e.window.isSome = true ∧ e.renderer.isSome = true ∧ e.ctx.isSome = true) →
      init e = (false, e) := by
    intro hn
    have hcond : (e.window.isNone || e.renderer.isNone || e.ctx.isNone) = true := by
      cases hw : e.window with
      | none => rfl
      | some w =>
        cases hr : e.renderer with
        | none => rfl
        | some r =>
          cases hc : e.ctx with
          | none => rfl
          | some c =>
            rw [hw, hr, hc] at hn
            exact absurd ⟨rfl, rfl, rfl⟩ hn
    unfold init
    rw [hcond]
    rfl
  refine ⟨⟨?_, ?_⟩, hyes, hno⟩
  · rintro ⟨hret, _⟩
    by_contra hn
    rw [hno hn] at hret
    cases hret
  · intro h
    rw [hyes h]
    exact ⟨rfl, rfl⟩

/-- C7, at concrete inputs: `init` on an engine whose constructor created
everything, and on one whose window could not be created. -/
theorem init_spec_witness :
    init (Engine.new 0 (some 1) (some 2) 0 none : Engine Int) =
        (true, { (Engine.new 0 (some 1) (some 2) 0 none : Engine Int) with running := true }) ∧
    init (Engine.new 0 none (some 2) 0 none : Engine Int) =
        (false, (Engine.new 0 none (some 2) 0 none : Engine Int)) :=
  ⟨(init_spec (Engine.new 0 (some 1) (some 2) 0 none : Engine Int)).2.1 ⟨rfl, rfl, rfl⟩,
   (init_spec (Engine.new 0 none (some 2) 0 none : Engine Int)).2.2 (by
      intro h
      exact absurd h.1 (by decide))⟩

end Engine

namespace OtherCtx

variable {F : Type}

/-! ## Claims on the rendering context -/

/-- The constructor leaves the camera at `(0, 0)`, zoom `1`, enabled. -/
theorem new_camera [Zero F] [One F] (renderer : Option Nat) (own : Bool) (ttfInit : Int)
    (opened : Option Nat) :
    (OtherCtx.new renderer own ttfInit opened : OtherCtx F).cameraPos = ⟨0, 0⟩ ∧
      (OtherCtx.new renderer own ttfInit opened : OtherCtx F).cameraZoom = 1 ∧
      (OtherCtx.new renderer own ttfInit opened : OtherCtx F).useCamera = true := by
  unfold OtherCtx.new
  simp only
  split
  · exact ⟨rfl, rfl, rfl⟩
  · cases opened with
    | none => exact ⟨rfl, rfl, rfl⟩
    | some font => exact ⟨rfl, rfl, rfl⟩

/-- C8: `transformPoint(x, y)` returns `(x, y)` unchanged when the camera is
disabled and `((x - cameraPos.x) * cameraZoom, (y - cameraPos.y) * cameraZoom)`
when it is enabled, in the arithmetic of the carrier; on a freshly
constructed context it is the identity, in every arithmetic with
`a - 0 = a` and `a * 1 = a` (as that of `float`). -/
theorem transformPoint_spec [Sub F] [Mul F] [Zero F] [One F] (c : OtherCtx F) (x y : F) :
    (c.useCamera = false → transformPoint c x y = ⟨x, y⟩) ∧
    (c.useCamera = true →
      transformPoint c x y =
        ⟨(x - c.cameraPos.x) * c.cameraZoom, (y - c.cameraPos.y) * c.cameraZoom⟩) ∧
    ((∀ a : F, a - 0 = a) → (∀ a : F, a * 1 = a) →
      ∀ (renderer : Option Nat) (own : Bool) (ttfInit : Int) (opened : Option Nat),
        transformPoint (OtherCtx.new renderer own ttfInit opened : OtherCtx F) x y = ⟨x, y⟩) := by
  refine ⟨?_, ?_, ?_⟩
  · intro h
    simp [transformPoint, h]
  · intro h
    simp [transformPoint, h]
  · intro hsub hmul renderer own ttfInit opened
    obtain ⟨hp, hz, hu⟩ := new_camera (F := F) renderer own ttfInit opened
    simp only [transformPoint, hu, Bool.not_true, Bool.false_eq_true, if_false, hp, hz, hsub, hmul]

/-- C8, at a concrete input: integer coordinates, a camera at `(10, 20)`
with zoom `3`, and a fresh context. -/
theorem transformPoint_spec_witness :
    transformPoint
        ({ renderer := none, ownsRenderer := false, defaultFont := none, fonts := [],
           fontPaths := [], cameraPos := ⟨10, 20⟩, cameraZoom := 3, useCamera := true } :
          OtherCtx Int) 11 22 = ⟨(11 - 10) * 3, (22 - 20) * 3⟩ ∧
    transformPoint (OtherCtx.new (some 2) false 0 none : OtherCtx Int) 11 22 = ⟨11, 22⟩ :=
  ⟨(transformPoint_spec
      ({ renderer := none, ownsRenderer := false, defaultFont := none, fonts := [],
         fontPaths := [], cameraPos := ⟨10, 20⟩, cameraZoom := 3, useCamera := true } :
        OtherCtx Int) 11 22).2.1 rfl,
   (transformPoint_spec (OtherCtx.new none false 0 none : OtherCtx Int) 11 22).2.2
      (fun a => Int.sub_zero a) (fun a => Int.mul_one a) (some 2) false 0 none⟩

/-- C9: whatever the state of the context, camera included, `drawRect`,
`drawRectOutline`, `drawLine` and `drawPoint` (and the two `Rect` overloads)
set the draw colour to the given colour and then make exactly one library
call, whose coordinates and sizes are the arguments themselves. -/
theorem basic_primitives_forward (c : OtherCtx F) (x y width height x1 y1 x2 y2 : F)
    (rect : Rect F) (color : Color) :
    drawRect c x y width height color =
      [SDLCall.SetRenderDrawColor c.renderer color.r color.g color.b color.a,
       SDLCall.RenderFillRectF c.renderer x y width height] ∧
    drawRectOutline c x y width height color =
      [SDLCall.SetRenderDrawColor c.renderer color.r color.g color.b color.a,
       SDLCall.RenderDrawRectF c.renderer x y width height] ∧
    drawLine c x1 y1 x2 y2 color =
      [SDLCall.SetRenderDrawColor c.renderer color.r color.g color.b color.a,
       SDLCall.RenderDrawLineF c.renderer x1 y1 x2 y2] ∧
    drawPoint c x y color =
      [SDLCall.SetRenderDrawColor c.renderer color.r color.g color.b color.a,
       SDLCall.RenderDrawPointF c.renderer x y] ∧
    drawRectR c rect color =
      [SDLCall.SetRenderDrawColor c.renderer color.r color.g color.b color.a,
       SDLCall.RenderFillRectF c.renderer rect.x rect.y rect.w rect.h] ∧
    drawRectOutlineR c rect color =
      [SDLCall.SetRenderDrawColor c.renderer color.r color.g color.b color.a,
       SDLCall.RenderDrawRectF c.renderer rect.x rect.y rect.w rect.h] :=
  ⟨rfl, rfl, rfl, rfl, rfl, rfl⟩

end OtherCtx

namespace TypingTest

/-! ## Shared lemmas: the typing test -/

theorem char_toNat_ofNat (n : Nat) (h : n < 55296) : (Char.ofNat n).toNat = n := by
  have hv : n.isValidChar := Or.inl h
  unfold Char.ofNat
  rw [dif_pos hv]
  simp [Char.toNat, Char.ofNatAux, UInt32.toNat]

theorem toSizeT_natCast (n : Nat) (h : n < 2 ^ 64) : toSizeT (n : Int) = n := by
  unfold toSizeT
  have h1 : ((n : Int) % 2 ^ 64) = (n : Int) := Int.emod_eq_of_lt (by omega) (by omega)
  rw [h1]
  exact Int.toNat_ofNat n

/-- A key-down that types the printable character `c` yields `inputChar = c`,
and its key code is printable, hence neither Escape nor Backspace. -/
theorem inputCharOf_typed (c : Char) (key : Keysym) (hc : 32 ≤ c.toNat ∧ c.toNat ≤ 126)
    (hsym : key.sym = unshiftedSym c)
    (hshift : key.mod &&& KMOD_SHIFT ≠ 0 ↔ isCapital c = true) :
    inputCharOf key = c ∧ 32 ≤ key.sym ∧ key.sym ≤ 126 := by
  have hA : 'A'.toNat = 65 := by decide
  have hZ : 'Z'.toNat = 90 := by decide
  have ha : 'a'.toNat = 97 := by decide
  have hz : 'z'.toNat = 122 := by decide
  by_cases hcap : isCapital c = true
  · have hrange : 65 ≤ c.toNat ∧ c.toNat ≤ 90 := by
      simpa [isCapital, hA, hZ] using hcap
    have hs : key.sym = ((c.toNat + 32 : Nat) : Int) := by
      rw [hsym, unshiftedSym, if_pos hcap]
    have hn : key.sym.toNat = c.toNat + 32 := by
      rw [hs]
      exact Int.toNat_ofNat _
    have ht : (Char.ofNat (c.toNat + 32)).toNat = c.toNat + 32 :=
      char_toNat_ofNat _ (by omega)
    refine ⟨?_, by omega, by omega⟩
    unfold inputCharOf
    simp only [hn, if_pos (hshift.mpr hcap), ht, ha, hz]
    rw [if_pos (by omega), Nat.add_sub_cancel]
    exact Char.ofNat_toNat c
  · have hs : key.sym = (c.toNat : Int) := by
      rw [hsym, unshiftedSym, if_neg hcap]
    have hn : key.sym.toNat = c.toNat := by
      rw [hs]
      exact Int.toNat_ofNat _
    have hnoshift : ¬ (key.mod &&& KMOD_SHIFT ≠ 0) := fun h => hcap (hshift.mp h)
    refine ⟨?_, by omega, by omega⟩
    unfold inputCharOf
    simp only [hn, if_neg hnoshift]
    exact Char.ofNat_toNat c

/-- What `finishTest` leaves behind when no error was made on a non-empty
sentence. -/
theorem finishTest_no_error (g : TypingTestGame) (now : Int) (herr : g.errors = 0)
    (hne : g.currentSentence ≠ []) :
    (finishTest g now).state = GameState.FINISHED ∧
      (finishTest g now).userInput = g.userInput ∧
      (finishTest g now).currentPosition = g.currentPosition ∧
      (finishTest g now).errors = 0 ∧
      (finishTest g now).accuracy = some 100 ∧
      (finishTest g now).currentSentence = g.currentSentence := by
  have hpos : 0 < g.currentSentence.length := List.length_pos.mpr hne
  have hq : ((g.currentSentence.length : Int) : ℚ) ≠ 0 := by
    have : (g.currentSentence.length : ℚ) ≠ 0 := by
      exact_mod_cast (Nat.pos_iff_ne_zero.mp hpos)
    simpa using this
  refine ⟨rfl, rfl, rfl, herr, ?_, rfl⟩
  simp only [finishTest, fdiv, herr, if_neg hq]
  norm_num

/-- One step of `handleTypingInput` on the expected character: the
character is appended, the position advances, and the test is finished when
the end of the sentence is reached. -/
theorem handleTypingInput_expected (g : TypingTestGame) (key : Keysym) (now : Int)
    (c : Char) (n : Nat) (hin : inputCharOf key = c) (h32 : 32 ≤ key.sym)
    (h126 : key.sym ≤ 126) (hpos : g.currentPosition = (n : Int)) (hn : n < 2 ^ 63)
    (hget : g.currentSentence[n]? = some c) :
    handleTypingInput g key now =
      some (if n + 1 ≥ g.currentSentence.length then
          finishTest { g with userInput := g.userInput ++ [c],
                              currentPosition := (n : Int) + 1 } now
        else { g with userInput := g.userInput ++ [c], currentPosition := (n : Int) + 1 }) := by
  have hesc : ¬ key.sym = SDLK_ESCAPE := by
    unfold SDLK_ESCAPE
    omega
  have hbs : ¬ (key.sym = SDLK_BACKSPACE ∧ g.userInput ≠ []) := by
    unfold SDLK_BACKSPACE
    omega
  have hlt : n < g.currentSentence.length := by
    by_contra hge
    rw [List.getElem?_eq_none (by omega)] at hget
    cases hget
  have hsz : toSizeT (n : Int) = n := toSizeT_natCast n (by omega)
  have hsz1 : toSizeT ((n : Int) + 1) = n + 1 := by
    have := toSizeT_natCast (n + 1) (by omega)
    simpa using this
  unfold handleTypingInput
  rw [if_neg hesc, if_neg hbs, if_pos ⟨h32, h126⟩]
  simp only [hpos, hsz, hsz1, hget, hin, ge_iff_le, if_neg (not_le.mpr hlt), if_true]
  by_cases hfin : g.currentSentence.length ≤ n + 1
  · rw [if_pos hfin, if_pos hfin]
  · rw [if_neg hfin, if_neg hfin]

/-- Typing the rest of a sentence, character by character, from a `TYPING`
state that holds the part typed so far without error, ends in `FINISHED`. -/
theorem typing_run (s : List Char) (hs : ∀ c ∈ s, 32 ≤ c.toNat ∧ c.toNat ≤ 126)
    (hlen : s.length < 2 ^ 63) :
    ∀ (rest typed : List Char) (inputs : List Input) (g : TypingTestGame),
      s = typed ++ rest → rest ≠ [] →
      List.Forall₂ (fun c i => typesChar c i.ev) rest inputs →
      g.state = GameState.TYPING → g.currentSentence = s → g.userInput = typed →
      g.currentPosition = (typed.length : Int) → g.errors = 0 →
      ∃ g1, handleEventSeq g inputs = some g1 ∧ g1.state = GameState.FINISHED ∧
        g1.userInput = s ∧ g1.currentPosition = (s.length : Int) ∧ g1.errors = 0 ∧
        g1.accuracy = some 100 := by
  intro rest
  induction rest with
  | nil =>
    intro typed inputs g _ hne
    exact absurd rfl hne
  | cons c rest1 ih =>
    intro typed inputs g hsplit _ hf hstate hsent hinput hpos herr
    cases hf with
    | cons hci hrest =>
      rename_i i inputs1
      obtain ⟨key, hev, hsym, hshift⟩ := hci
      have hcmem : c ∈ s := by
        rw [hsplit]
        exact List.mem_append_right _ (List.mem_cons_self _ _)
      obtain ⟨hic, h32, h126⟩ := inputCharOf_typed c key (hs c hcmem) hsym hshift
      have hslen : s.length = typed.length + (rest1.length + 1) := by
        rw [hsplit, List.length_append, List.length_cons]
      have hget : g.currentSentence[typed.length]? = some c := by
        rw [hsent, hsplit, List.getElem?_append_right (le_refl _)]
        simp
      have hstep := handleTypingInput_expected g key i.now c typed.length hic h32 h126 hpos
        (by omega) hget
      have hhe : handleEvent g i = handleTypingInput g key i.now := by
        unfold handleEvent
        rw [hev, hstate]
      cases rest1 with
      | nil =>
        cases hrest
        have hfin : typed.length + 1 ≥ g.currentSentence.length := by
          rw [hsent, hslen]
          simp
        rw [if_pos hfin] at hstep
        have hsne : g.currentSentence ≠ [] := by
          rw [hsent, hsplit]
          simp
        obtain ⟨f1, f2, f3, f4, f5, _⟩ := finishTest_no_error
          { g with userInput := g.userInput ++ [c], currentPosition := (typed.length : Int) + 1 }
          i.now herr hsne
        refine ⟨_, ?_, f1, ?_, ?_, f4, f5⟩
        · simp only [handleEventSeq, hhe, hstep]
        · rw [f2]
          show g.userInput ++ [c] = s
          rw [hinput, hsplit]
        · rw [f3]
          show (typed.length : Int) + 1 = (s.length : Int)
          rw [hslen]
          simp
      | cons c2 rest2 =>
        have hnfin : ¬ typed.length + 1 ≥ g.currentSentence.length := by
          rw [hsent, hslen]
          simp
        rw [if_neg hnfin] at hstep
        obtain ⟨g1, hg1, hres⟩ := ih (typed ++ [c]) inputs1
          { g with userInput := g.userInput ++ [c], currentPosition := (typed.length : Int) + 1 }
          (by rw [hsplit]; simp) (List.cons_ne_nil _ _) hrest hstate hsent
          (by show g.userInput ++ [c] = typed ++ [c]; rw [hinput])
          (by show (typed.length : Int) + 1 = ((typed ++ [c]).length : Int); simp)
          herr
        refine ⟨g1, ?_, hres⟩
        simp only [handleEventSeq, hhe, hstep]
        exact hg1

/-- Every character of every sentence of the list is printable ASCII. -/
theorem sentences_printable : ∀ s ∈ sentences, ∀ c ∈ s, 32 ≤ c.toNat ∧ c.toNat ≤ 126 := by
  decide

/-- The sentences of the list are written with letters, the space, the
comma, the full stop and the apostrophe only. -/
theorem sentences_alphabet :
    ∀ s ∈ sentences, ∀ c ∈ s,
      c.isAlpha = true ∨ c = ' ' ∨ c = ',' ∨ c = '.' ∨ c = Char.ofNat 39 := by
  decide

/-- No sentence of the list is empty, and all are shorter than 100
characters. -/
theorem sentences_length : ∀ s ∈ sentences, s ≠ [] ∧ s.length < 100 := by
  decide

/-- The event built by `keyFor` types its character. -/
theorem typesChar_keyFor (c : Char) : typesChar c (keyFor c).ev := by
  refine ⟨⟨0, unshiftedSym c, if isCapital c then 1 else 0⟩, rfl, rfl, ?_⟩
  cases hcap : isCapital c with
  | true => simp [KMOD_SHIFT]
  | false => simp

/-- The events built by `keyFor` for a string type that string. -/
theorem forall2_keyFor (s : List Char) :
    List.Forall₂ (fun c i => typesChar c i.ev) s (s.map keyFor) := by
  induction s with
  | nil => exact List.Forall₂.nil
  | cons c rest ih => exact List.Forall₂.cons (typesChar_keyFor c) ih

/-! ## Claims on the typing test -/

/-- C10: for every sentence `s` of the built-in list, starting from
`startTest` with `currentSentence = s` and handling one key-down event per
character of `s` in order (`sym` the unshifted key of the character, Shift
held exactly for capital letters; any scancode, any clock readings), every
call of `handleEvent` returns and the final state is `FINISHED` with
`userInput = s`, `currentPosition = |s|`, `errors = 0` and
`accuracy = 100`. -/
theorem typing_sentence_finishes (s : List Char) (hs : s ∈ sentences) (g0 : TypingTestGame)
    (t0 : Int) (inputs : List Input) (hg : g0.currentSentence = s)
    (hf : List.Forall₂ (fun c i => typesChar c i.ev) s inputs) :
    ∃ g1, handleEventSeq (startTest g0 t0) inputs = some g1 ∧
      g1.state = GameState.FINISHED ∧ g1.userInput = s ∧
      g1.currentPosition = (s.length : Int) ∧ g1.errors = 0 ∧ g1.accuracy = some 100 := by
  obtain ⟨hne, hlen⟩ := sentences_length s hs
  exact typing_run s (sentences_printable s hs) (by omega) s [] inputs (startTest g0 t0)
    rfl hne hf rfl hg rfl rfl rfl

/-- C10, at a concrete input: the first sentence of the list, typed with the
left Shift key on a game fresh from its constructor. -/
theorem typing_sentence_finishes_witness :
    ∃ g1,
      handleEventSeq (startTest (TypingTest.new ⟨0, by decide⟩) 5)
          ("The quick brown fox jumps over the lazy dog.".toList.map keyFor) = some g1 ∧
      g1.state = GameState.FINISHED ∧
      g1.userInput = "The quick brown fox jumps over the lazy dog.".toList ∧
      g1.currentPosition = (("The quick brown fox jumps over the lazy dog.".toList).length : Int) ∧
      g1.errors = 0 ∧ g1.accuracy = some 100 :=
  typing_sentence_finishes "The quick brown fox jumps over the lazy dog.".toList
    (List.mem_cons_self _ _) (TypingTest.new ⟨0, by decide⟩) 5 _ rfl (forall2_keyFor _)

end TypingTest

namespace TypingTest

/-! ## Claims on the statistics of the typing test -/

/-- C11: after `finishTest` on a sentence of the list with a non-negative
error count, the divisor `|currentSentence|` is not zero and
`accuracy = max(0, 100 * (1 - errors / |currentSentence|))` in exact
arithmetic, hence `0 <= accuracy <= 100`, also for error counts above the
sentence length. -/
theorem finishTest_accuracy (g : TypingTestGame) (now : Int)
    (hs : g.currentSentence ∈ sentences) (he : 0 ≤ g.errors) :
    (g.currentSentence.length : ℚ) ≠ 0 ∧
    ∃ a : ℚ, (finishTest g now).accuracy = some a ∧
      a = max 0 (100 * (1 - (g.errors : ℚ) / (g.currentSentence.length : ℚ))) ∧
      0 ≤ a ∧ a ≤ 100 := by
  obtain ⟨hne, _⟩ := sentences_length g.currentSentence hs
  have hpos : 0 < g.currentSentence.length := List.length_pos.mpr hne
  have hposq : (0 : ℚ) < (g.currentSentence.length : ℚ) := by exact_mod_cast hpos
  have herr : (0 : ℚ) ≤ (g.errors : ℚ) := by exact_mod_cast he
  have hfrac : 0 ≤ (g.errors : ℚ) / (g.currentSentence.length : ℚ) :=
    div_nonneg herr hposq.le
  refine ⟨hposq.ne', max 0 (100 * (1 - (g.errors : ℚ) / (g.currentSentence.length : ℚ))),
    ?_, rfl, le_max_left _ _, max_le (by norm_num) (by linarith)⟩
  simp only [finishTest, fdiv, Int.cast_natCast, if_neg hposq.ne']
  by_cases hneg : 100 * (1 - (g.errors : ℚ) / (g.currentSentence.length : ℚ)) < 0
  · rw [if_pos hneg, max_eq_left hneg.le]
  · rw [if_neg hneg, max_eq_right (not_lt.mp hneg)]

/-- C11, at a concrete input: 50 errors on the 44 characters of the first
sentence. -/
theorem finishTest_accuracy_witness :
    (({ lastCharPending with errors := 50 } : TypingTestGame).currentSentence.length : ℚ) ≠ 0 ∧
    ∃ a : ℚ, (finishTest { lastCharPending with errors := 50 } 7).accuracy = some a ∧
      a = max 0 (100 * (1 - ((50 : Int) : ℚ) /
        (({ lastCharPending with errors := 50 } : TypingTestGame).currentSentence.length : ℚ))) ∧
      0 ≤ a ∧ a ≤ 100 :=
  finishTest_accuracy { lastCharPending with errors := 50 } 7 (List.mem_cons_self _ _)
    (by decide)

end TypingTest

namespace TypingTest

/-- The game returned by `update` is the one computed by `updateGame`. -/
theorem update_game {F : Type} (g : TypingTestGame) (deltaTime : ℚ) (engine : Engine F)
    (now : Int) (rx ry : ℚ) (r : TypingTestGame × Engine F)
    (h : update g deltaTime engine now rx ry = some r) :
    r.1 = updateGame g deltaTime now rx ry := by
  unfold update at h
  split at h
  · cases h
  · simp only [Option.some.injEq] at h
    rw [← h]

/-- `updateGame` touches the shake members and `wpm` only. -/
theorem updateGame_keeps (g : TypingTestGame) (deltaTime : ℚ) (now : Int) (rx ry : ℚ) :
    (updateGame g deltaTime now rx ry).state = g.state ∧
      (updateGame g deltaTime now rx ry).currentSentence = g.currentSentence ∧
      (updateGame g deltaTime now rx ry).userInput = g.userInput ∧
      (updateGame g deltaTime now rx ry).currentPosition = g.currentPosition ∧
      (updateGame g deltaTime now rx ry).errors = g.errors ∧
      (updateGame g deltaTime now rx ry).startTime = g.startTime := by
  unfold updateGame
  simp only
  split_ifs <;> exact ⟨rfl, rfl, rfl, rfl, rfl, rfl⟩

/-- In `finishTest` the words-per-minute figure is the integer quotient
`|currentSentence| / 5` divided by the elapsed minutes, when these are not
zero. -/
theorem finishTest_wpm (g : TypingTestGame) (now : Int)
    (h : durationMs g.startTime now ≠ 0) :
    (finishTest g now).wpm =
      some (((g.currentSentence.length / 5 : Nat) : ℚ) /
        ((durationMs g.startTime now : ℚ) / 60000)) := by
  have hq : ((durationMs g.startTime now : Int) : ℚ) / 60000 ≠ 0 := by
    have : ((durationMs g.startTime now : Int) : ℚ) ≠ 0 := by exact_mod_cast h
    exact div_ne_zero this (by norm_num)
  simp only [finishTest, fdiv, if_neg hq, Int.cast_natCast]

/-- C15: on the 44 characters of the first sentence, one minute after the
start, `finishTest` leaves `wpm = 8` (the integer quotient `44 / 5`, over
one minute), while the live formula of `update` gives `44 / 5 = 8.8` for
`charactersTyped = 44` at the same clock reading. -/
theorem finishTest_wpm_differs_from_update :
    wrongLastChar.currentSentence.length = 44 ∧
    wrongLastChar.currentPosition = 44 ∧
    (finishTest wrongLastChar 60000000000).wpm = some 8 ∧
    (updateGame wrongLastChar 0 60000000000 0 0).wpm = some (44 / 5) := by
  have hd : durationMs wrongLastChar.startTime 60000000000 = 60000 := by decide
  refine ⟨by decide, rfl, ?_, ?_⟩
  · rw [finishTest_wpm _ _ (by rw [hd]; decide), hd]
    have hl : wrongLastChar.currentSentence.length / 5 = 8 := by decide
    rw [hl]
    norm_num
  · have hstate : wrongLastChar.state = GameState.TYPING := rfl
    have hshake : wrongLastChar.shakeDuration = 3 / 10 := rfl
    have hpos : wrongLastChar.currentPosition = 44 := rfl
    have hstart : wrongLastChar.startTime = 0 := rfl
    have hd0 : durationMs 0 60000000000 = 60000 := by decide
    simp only [updateGame, hshake, hstate, hstart, hd0, hpos, fdiv]
    norm_num [hd0]

/-- C16: `finishTest` called at the clock reading of the start divides by
zero elapsed minutes (`wpm` is then not a finite number), where `update` at
the same reading leaves `wpm` as it was. -/
theorem finishTest_divides_by_zero_minutes (g : TypingTestGame) :
    durationMs g.startTime g.startTime = 0 ∧
    (finishTest g g.startTime).wpm = none ∧
    (∀ (deltaTime rx ry : ℚ), (updateGame g deltaTime g.startTime rx ry).wpm = g.wpm) := by
  have hd : durationMs g.startTime g.startTime = 0 := by
    simp [durationMs]
  refine ⟨hd, ?_, ?_⟩
  · simp [finishTest, fdiv, hd]
  · intro deltaTime rx ry
    unfold updateGame
    simp only
    split_ifs <;> first | rfl | simp_all

end TypingTest

namespace TypingTest

/-! ## Shared lemmas: the steps of `handleTypingInput` -/

/-- The subscript `currentSentence[currentPosition]` is inside the string
whenever the guard before it has let the control through. -/
theorem sentence_read_in_range (g : TypingTestGame)
    (h : ¬ toSizeT g.currentPosition ≥ g.currentSentence.length) :
    ∃ expected, g.currentSentence[toSizeT g.currentPosition]? = some expected := by
  have hlt : toSizeT g.currentPosition < g.currentSentence.length := by omega
  exact ⟨_, List.getElem?_eq_getElem hlt⟩

/-- The outcome of `handleTypingInput`, by the path taken. -/
theorem handleTypingInput_cases (g : TypingTestGame) (key : Keysym) (now : Int) :
    ∃ g1, handleTypingInput g key now = some g1 ∧
      ((key.sym = SDLK_ESCAPE ∧ g1 = { g with state := GameState.START }) ∨
       (key.sym ≠ SDLK_ESCAPE ∧ g1.state = g.state ∧
          g1.currentSentence = g.currentSentence) ∨
       (key.sym ≠ SDLK_ESCAPE ∧ 32 ≤ key.sym ∧ key.sym ≤ 126 ∧
          ∃ g0, g1 = finishTest g0 now ∧ g0.currentSentence = g.currentSentence)) := by
  unfold handleTypingInput
  by_cases hesc : key.sym = SDLK_ESCAPE
  · rw [if_pos hesc]
    exact ⟨_, rfl, Or.inl ⟨hesc, rfl⟩⟩
  rw [if_neg hesc]
  by_cases hbs : key.sym = SDLK_BACKSPACE ∧ g.userInput ≠ []
  · rw [if_pos hbs]
    exact ⟨_, rfl, Or.inr (Or.inl ⟨hesc, rfl, rfl⟩)⟩
  rw [if_neg hbs]
  by_cases hpr : 32 ≤ key.sym ∧ key.sym ≤ 126
  swap
  · rw [if_neg hpr]
    exact ⟨_, rfl, Or.inr (Or.inl ⟨hesc, rfl, rfl⟩)⟩
  rw [if_pos hpr]
  simp only
  by_cases hend : toSizeT g.currentPosition ≥ g.currentSentence.length
  · rw [if_pos hend]
    exact ⟨_, rfl, Or.inr (Or.inr ⟨hesc, hpr.1, hpr.2, g, rfl, rfl⟩)⟩
  rw [if_neg hend]
  obtain ⟨expected, hex⟩ := sentence_read_in_range g hend
  rw [hex]
  simp only
  by_cases hc : inputCharOf key = expected
  · rw [if_pos hc]
    split
    · exact ⟨_, rfl, Or.inr (Or.inr ⟨hesc, hpr.1, hpr.2, _, rfl, rfl⟩)⟩
    · exact ⟨_, rfl, Or.inr (Or.inl ⟨hesc, rfl, rfl⟩)⟩
  · rw [if_neg hc]
    exact ⟨_, rfl, Or.inr (Or.inl ⟨hesc, rfl, rfl⟩)⟩

/-- `handleEvent` returns on every event: no path reads `currentSentence`
outside the string. -/
theorem handleEvent_returns (g : TypingTestGame) (i : Input) :
    ∃ g1, handleEvent g i = some g1 := by
  unfold handleEvent
  split
  · split
    · split <;> exact ⟨_, rfl⟩
    · obtain ⟨g1, h, _⟩ := handleTypingInput_cases g _ i.now
      exact ⟨g1, h⟩
    · split <;> exact ⟨_, rfl⟩
  · exact ⟨_, rfl⟩

end TypingTest

namespace TypingTest

/-- A printable key pressed when the position is at or past the end of the
sentence finishes the test. -/
theorem handleTypingInput_at_end (g : TypingTestGame) (key : Keysym) (now : Int)
    (h32 : 32 ≤ key.sym) (h126 : key.sym ≤ 126)
    (hend : toSizeT g.currentPosition ≥ g.currentSentence.length) :
    handleTypingInput g key now = some (finishTest g now) := by
  have hesc : ¬ key.sym = SDLK_ESCAPE := by
    unfold SDLK_ESCAPE
    omega
  have hbs : ¬ (key.sym = SDLK_BACKSPACE ∧ g.userInput ≠ []) := by
    unfold SDLK_BACKSPACE
    omega
  unfold handleTypingInput
  rw [if_neg hesc, if_neg hbs, if_pos ⟨h32, h126⟩]
  simp only
  rw [if_pos hend]

/-- A printable key that is not the expected character is appended and
counted as an error; the state stays `TYPING`, whatever the position
reached. -/
theorem handleTypingInput_wrong (g : TypingTestGame) (key : Keysym) (now : Int)
    (expected : Char) (h32 : 32 ≤ key.sym) (h126 : key.sym ≤ 126)
    (hget : g.currentSentence[toSizeT g.currentPosition]? = some expected)
    (hne : inputCharOf key ≠ expected) :
    handleTypingInput g key now =
      some { g with
        userInput := g.userInput ++ [inputCharOf key],
        wpm := g.wpm.map (fun w => w - 5 * (g.errors : ℚ)),
        currentPosition := g.currentPosition + 1,
        errors := g.errors + 1,
        shakeDuration := 3 / 10,
        shakeIntensity := 5 } := by
  have hesc : ¬ key.sym = SDLK_ESCAPE := by
    unfold SDLK_ESCAPE
    omega
  have hbs : ¬ (key.sym = SDLK_BACKSPACE ∧ g.userInput ≠ []) := by
    unfold SDLK_BACKSPACE
    omega
  have hlt : ¬ toSizeT g.currentPosition ≥ g.currentSentence.length := by
    intro hge
    rw [List.getElem?_eq_none (by omega)] at hget
    cases hget
  unfold handleTypingInput
  rw [if_neg hesc, if_neg hbs, if_pos ⟨h32, h126⟩]
  simp only
  rw [if_neg hlt, hget]
  simp only
  rw [if_neg hne]

/-! ## Claims on the states of the typing test -/

/-- C14, as stated, fails: in state `TYPING` on the first sentence with 43
characters typed, the printable key `x` (the sentence ends with a full stop)
brings `currentPosition` to the length of the sentence and the state stays
`TYPING`. -/
theorem wrong_last_char_stays_typing :
    lastCharPending.state = GameState.TYPING ∧
    ∃ g1, handleTypingInput lastCharPending ⟨0, 120, 0⟩ 0 = some g1 ∧
      (g1.currentSentence.length : Int) ≤ g1.currentPosition ∧
      g1.state = GameState.TYPING ∧ g1.state ≠ GameState.FINISHED := by
  have hget : lastCharPending.currentSentence[toSizeT lastCharPending.currentPosition]? =
      some '.' := by decide
  have hne : inputCharOf ⟨0, 120, 0⟩ ≠ '.' := by decide
  refine ⟨rfl, _, handleTypingInput_wrong lastCharPending ⟨0, 120, 0⟩ 0 '.'
    (by decide) (by decide) hget hne, ?_, rfl, ?_⟩
  · decide
  · show lastCharPending.state ≠ GameState.FINISHED
    decide

/-- C14, amended: in state `TYPING`, on a printable key-down (`sym` in
32..126) with `currentPosition = n` in the range of `int`,
`handleTypingInput` returns, and
* if the position was already at the end, the test is finished;
* if the key is the expected character, the position advances and the test
  is finished as soon as the end is reached;
* if the key is a wrong character, the position advances and the state stays
  `TYPING` even at the end of the sentence; the next printable key then
  finishes the test. -/
theorem handleTypingInput_finish (g : TypingTestGame) (key : Keysym) (now : Int) (n : Nat)
    (hstate : g.state = GameState.TYPING) (h32 : 32 ≤ key.sym) (h126 : key.sym ≤ 126)
    (hpos : g.currentPosition = (n : Int)) (hn : n < 2 ^ 31) :
    ∃ g1, handleTypingInput g key now = some g1 ∧
      (g.currentSentence.length ≤ n → g1 = finishTest g now ∧ g1.state = GameState.FINISHED) ∧
      (∀ expected, g.currentSentence[n]? = some expected → inputCharOf key = expected →
        g1.currentPosition = (n : Int) + 1 ∧
        (g1.currentSentence.length ≤ n + 1 → g1.state = GameState.FINISHED) ∧
        (n + 1 < g1.currentSentence.length → g1.state = GameState.TYPING)) ∧
      (∀ expected, g.currentSentence[n]? = some expected → inputCharOf key ≠ expected →
        g1.state = GameState.TYPING ∧ g1.currentPosition = (n : Int) + 1 ∧
        g1.errors = g.errors + 1 ∧ g1.currentSentence = g.currentSentence ∧
        (g.currentSentence.length ≤ n + 1 →
          ∀ (key2 : Keysym) (now2 : Int), 32 ≤ key2.sym → key2.sym ≤ 126 →
            handleTypingInput g1 key2 now2 = some (finishTest g1 now2))) := by
  have hsz : toSizeT g.currentPosition = n := by
    rw [hpos]
    exact toSizeT_natCast n (by omega)
  have hsz1 : toSizeT ((n : Int) + 1) = n + 1 := by
    have := toSizeT_natCast (n + 1) (by omega)
    simpa using this
  by_cases hend : g.currentSentence.length ≤ n
  · refine ⟨_, handleTypingInput_at_end g key now h32 h126 (by omega), fun _ => ⟨rfl, rfl⟩,
      ?_, ?_⟩
    · intro expected hget
      rw [List.getElem?_eq_none hend] at hget
      cases hget
    · intro expected hget
      rw [List.getElem?_eq_none hend] at hget
      cases hget
  · have hlt : n < g.currentSentence.length := by omega
    by_cases hc : inputCharOf key = g.currentSentence[n]
    · have hstep := handleTypingInput_expected g key now _ n hc h32 h126 hpos (by omega)
        (List.getElem?_eq_getElem hlt)
      refine ⟨_, hstep, fun h => absurd h hend, ?_, ?_⟩
      · intro expected _ _
        by_cases hfin : n + 1 ≥ g.currentSentence.length
        · rw [if_pos hfin]
          exact ⟨rfl, fun _ => rfl, fun h => absurd h (by
            show ¬ n + 1 < g.currentSentence.length
            omega)⟩
        · rw [if_neg hfin]
          exact ⟨rfl, fun h => absurd h (by
            show ¬ g.currentSentence.length ≤ n + 1
            omega), fun _ => hstate⟩
      · intro expected hget hne
        rw [List.getElem?_eq_getElem hlt, Option.some.injEq] at hget
        exact absurd (hc.trans hget) hne
    · have hstep := handleTypingInput_wrong g key now _ h32 h126
        (by rw [hsz]; exact List.getElem?_eq_getElem hlt) hc
      refine ⟨_, hstep, fun h => absurd h hend, ?_, ?_⟩
      · intro expected hget heq
        rw [List.getElem?_eq_getElem hlt, Option.some.injEq] at hget
        exact absurd (heq.trans hget.symm) hc
      · intro expected _ _
        refine ⟨hstate, by rw [hpos], rfl, rfl, ?_⟩
        intro hreach key2 now2 h32b h126b
        refine handleTypingInput_at_end _ key2 now2 h32b h126b ?_
        show toSizeT (g.currentPosition + 1) ≥ g.currentSentence.length
        rw [hpos, hsz1]
        omega

/-- C14 amended, at a concrete input: the wrong last character `x` on
`lastCharPending`. -/
theorem handleTypingInput_finish_witness :
    ∃ g1, handleTypingInput lastCharPending ⟨0, 120, 0⟩ 0 = some g1 ∧
      (lastCharPending.currentSentence.length ≤ 43 →
        g1 = finishTest lastCharPending 0 ∧ g1.state = GameState.FINISHED) ∧
      (∀ expected, lastCharPending.currentSentence[43]? = some expected →
        inputCharOf ⟨0, 120, 0⟩ = expected →
        g1.currentPosition = ((43 : Nat) : Int) + 1 ∧
        (g1.currentSentence.length ≤ 43 + 1 → g1.state = GameState.FINISHED) ∧
        (43 + 1 < g1.currentSentence.length → g1.state = GameState.TYPING)) ∧
      (∀ expected, lastCharPending.currentSentence[43]? = some expected →
        inputCharOf ⟨0, 120, 0⟩ ≠ expected →
        g1.state = GameState.TYPING ∧ g1.currentPosition = ((43 : Nat) : Int) + 1 ∧
        g1.errors = lastCharPending.errors + 1 ∧
        g1.currentSentence = lastCharPending.currentSentence ∧
        (lastCharPending.currentSentence.length ≤ 43 + 1 →
          ∀ (key2 : Keysym) (now2 : Int), 32 ≤ key2.sym → key2.sym ≤ 126 →
            handleTypingInput g1 key2 now2 = some (finishTest g1 now2))) :=
  handleTypingInput_finish lastCharPending ⟨0, 120, 0⟩ 0 43 rfl (by decide) (by decide) rfl
    (by decide)

end TypingTest

namespace TypingTest

/-- C17: `handleEvent` returns on every event, and
* an event that is not a key-down leaves the game as it was;
* a change of state is one of `START -> TYPING` on Enter through `startTest`,
  `TYPING -> START` on Escape, `TYPING -> FINISHED` on a printable key through
  `finishTest`, `FINISHED -> TYPING` on Enter through `selectRandomSentence`
  (a sentence of the list) and `startTest`;
* `startTest` clears `userInput` and sets `currentPosition = 0`, `errors = 0`,
  `wpm = 0`, `accuracy = 100`;
* in `START` and `FINISHED` Enter always takes its transition and every other
  key leaves the game as it was; in `TYPING` Escape always takes its
  transition;
* `update` changes neither the state, the sentence, `userInput`,
  `currentPosition` nor `errors`. -/
theorem handleEvent_transitions (g : TypingTestGame) (i : Input) :
    ∃ g1, handleEvent g i = some g1 ∧
      ((∀ key, i.ev ≠ SDL_Event.keyDown key) → g1 = g) ∧
      (g1.state ≠ g.state →
        ∃ key, i.ev = SDL_Event.keyDown key ∧
          ((g.state = GameState.START ∧ g1.state = GameState.TYPING ∧
              key.sym = SDLK_RETURN ∧ g1 = startTest g i.now) ∨
           (g.state = GameState.TYPING ∧ g1.state = GameState.START ∧
              key.sym = SDLK_ESCAPE ∧ g1 = { g with state := GameState.START }) ∨
           (g.state = GameState.TYPING ∧ g1.state = GameState.FINISHED ∧
              32 ≤ key.sym ∧ key.sym ≤ 126 ∧
              ∃ g0, g1 = finishTest g0 i.now ∧ g0.currentSentence = g.currentSentence) ∨
           (g.state = GameState.FINISHED ∧ g1.state = GameState.TYPING ∧
              key.sym = SDLK_RETURN ∧
              g1 = startTest (selectRandomSentence g i.pick) i.now ∧
              g1.currentSentence ∈ sentences))) ∧
      (∀ (g0 : TypingTestGame) (t : Int),
        (startTest g0 t).state = GameState.TYPING ∧ (startTest g0 t).userInput = [] ∧
        (startTest g0 t).currentPosition = 0 ∧ (startTest g0 t).errors = 0 ∧
        (startTest g0 t).wpm = some 0 ∧ (startTest g0 t).accuracy = some 100 ∧
        (startTest g0 t).currentSentence = g0.currentSentence) ∧
      (∀ key, i.ev = SDL_Event.keyDown key → key.sym = SDLK_RETURN →
        (g.state = GameState.START → g1 = startTest g i.now) ∧
        (g.state = GameState.FINISHED →
          g1 = startTest (selectRandomSentence g i.pick) i.now)) ∧
      (∀ key, i.ev = SDL_Event.keyDown key → key.sym = SDLK_ESCAPE →
        g.state = GameState.TYPING → g1 = { g with state := GameState.START }) ∧
      (∀ key, i.ev = SDL_Event.keyDown key → key.sym ≠ SDLK_RETURN →
        g.state ≠ GameState.TYPING → g1 = g) ∧
      (∀ (deltaTime : ℚ) (now : Int) (rx ry : ℚ),
        (updateGame g deltaTime now rx ry).state = g.state ∧
        (updateGame g deltaTime now rx ry).currentSentence = g.currentSentence ∧
        (updateGame g deltaTime now rx ry).userInput = g.userInput ∧
        (updateGame g deltaTime now rx ry).currentPosition = g.currentPosition ∧
        (updateGame g deltaTime now rx ry).errors = g.errors) := by
  have hstart : ∀ (g0 : TypingTestGame) (t : Int),
      (startTest g0 t).state = GameState.TYPING ∧ (startTest g0 t).userInput = [] ∧
      (startTest g0 t).currentPosition = 0 ∧ (startTest g0 t).errors = 0 ∧
      (startTest g0 t).wpm = some 0 ∧ (startTest g0 t).accuracy = some 100 ∧
      (startTest g0 t).currentSentence = g0.currentSentence :=
    fun _ _ => ⟨rfl, rfl, rfl, rfl, rfl, rfl, rfl⟩
  have hupd : ∀ (deltaTime : ℚ) (now : Int) (rx ry : ℚ),
      (updateGame g deltaTime now rx ry).state = g.state ∧
      (updateGame g deltaTime now rx ry).currentSentence = g.currentSentence ∧
      (updateGame g deltaTime now rx ry).userInput = g.userInput ∧
      (updateGame g deltaTime now rx ry).currentPosition = g.currentPosition ∧
      (updateGame g deltaTime now rx ry).errors = g.errors := by
    intro deltaTime now rx ry
    obtain ⟨h1, h2, h3, h4, h5, _⟩ := updateGame_keeps g deltaTime now rx ry
    exact ⟨h1, h2, h3, h4, h5⟩
  have hpick : (startTest (selectRandomSentence g i.pick) i.now).currentSentence ∈ sentences :=
    List.get_mem _ _ _
  have hst3 : g.state = GameState.START ∨ g.state = GameState.TYPING ∨
      g.state = GameState.FINISHED := by
    cases g.state
    · exact Or.inl rfl
    · exact Or.inr (Or.inl rfl)
    · exact Or.inr (Or.inr rfl)
  cases hev : i.ev with
  | keyDown key =>
    rcases hst3 with hst | hst | hst
    · by_cases hret : key.sym = SDLK_RETURN
      · refine ⟨startTest g i.now, by simp only [handleEvent, hev, hst, if_pos hret],
          fun h => absurd rfl (h key), ?_, hstart, ?_, ?_, ?_, hupd⟩
        · intro _
          exact ⟨key, rfl, Or.inl ⟨hst, rfl, hret, rfl⟩⟩
        · intro key2 _ _
          exact ⟨fun _ => rfl, fun h => (by rw [hst] at h; cases h)⟩
        · intro key2 _ _ h
          rw [hst] at h
          cases h
        · intro key2 hk2 hne _
          cases hk2
          exact absurd hret hne
      · refine ⟨g, by simp only [handleEvent, hev, hst, if_neg hret],
          fun _ => rfl, ?_, hstart, ?_, ?_, ?_, hupd⟩
        · intro h
          exact absurd rfl h
        · intro key2 hk2 hr
          cases hk2
          exact absurd hr hret
        · intro key2 _ _ h
          rw [hst] at h
          cases h
        · intro _ _ _ _
          rfl
    · obtain ⟨g1, hg1, hcases⟩ := handleTypingInput_cases g key i.now
      refine ⟨g1, by simp only [handleEvent, hev, hst]; exact hg1,
        fun h => absurd rfl (h key), ?_, hstart, ?_, ?_, ?_, hupd⟩
      · intro hchg
        refine ⟨key, rfl, ?_⟩
        rcases hcases with ⟨hesc, hg⟩ | ⟨_, hsame, _⟩ | ⟨_, h32, h126, g0, hg0, hs0⟩
        · exact Or.inr (Or.inl ⟨hst, by rw [hg], hesc, hg⟩)
        · exact absurd hsame hchg
        · exact Or.inr (Or.inr (Or.inl ⟨hst, by rw [hg0]; rfl, h32, h126, g0, hg0, hs0⟩))
      · intro key2 _ _
        exact ⟨fun h => (by rw [hst] at h; cases h), fun h => (by rw [hst] at h; cases h)⟩
      · intro key2 hk2 hesc _
        cases hk2
        rcases hcases with ⟨_, hg⟩ | ⟨hne, _⟩ | ⟨hne, _⟩
        · exact hg
        · exact absurd hesc hne
        · exact absurd hesc hne
      · intro key2 _ _ h
        exact absurd hst h
    · by_cases hret : key.sym = SDLK_RETURN
      · refine ⟨startTest (selectRandomSentence g i.pick) i.now,
          by simp only [handleEvent, hev, hst, if_pos hret],
          fun h => absurd rfl (h key), ?_, hstart, ?_, ?_, ?_, hupd⟩
        · intro _
          exact ⟨key, rfl, Or.inr (Or.inr (Or.inr ⟨hst, rfl, hret, rfl, hpick⟩))⟩
        · intro key2 _ _
          exact ⟨fun h => (by rw [hst] at h; cases h), fun _ => rfl⟩
        · intro key2 _ _ h
          rw [hst] at h
          cases h
        · intro key2 hk2 hne _
          cases hk2
          exact absurd hret hne
      · refine ⟨g, by simp only [handleEvent, hev, hst, if_neg hret],
          fun _ => rfl, ?_, hstart, ?_, ?_, ?_, hupd⟩
        · intro h
          exact absurd rfl h
        · intro key2 hk2 hr
          cases hk2
          exact absurd hr hret
        · intro key2 _ _ h
          rw [hst] at h
          cases h
        · intro _ _ _ _
          rfl
  | quit | keyUp _ | mouseMotion _ _ | mouseButtonDown _ | mouseButtonUp _ | other _ =>
    refine ⟨g, by simp only [handleEvent, hev], fun _ => rfl, fun h => absurd rfl h, hstart,
      ?_, ?_, ?_, hupd⟩
    · intro key hk
      cases hk
    · intro key hk
      cases hk
    · intro key hk
      cases hk

end TypingTest

namespace TypingTest

/-! ## Shared lemmas: word wrapping -/

theorem intercalate_one (sep w : List Char) : sep.intercalate [w] = w := by
  simp [List.intercalate, List.intersperse]

theorem intercalate_two (sep w w2 : List Char) (rest : List (List Char)) :
    sep.intercalate (w :: w2 :: rest) = w ++ sep ++ sep.intercalate (w2 :: rest) := by
  simp [List.intercalate, List.intersperse]

theorem intercalate_snoc (sep : List Char) (ws : List (List Char)) (w : List Char)
    (h : ws ≠ []) : sep.intercalate (ws ++ [w]) = sep.intercalate ws ++ sep ++ w := by
  induction ws with
  | nil => exact absurd rfl h
  | cons x xs ih =>
    cases xs with
    | nil => simp [List.intercalate, List.intersperse]
    | cons y ys =>
      have := ih (List.cons_ne_nil _ _)
      rw [List.cons_append, List.cons_append, intercalate_two, ← List.cons_append, this,
        intercalate_two]
      simp

/-- The space is white space. -/
theorem isSpace_space : isSpace ' ' = true := by decide

/-- A word holds no space. -/
theorem IsWord.no_space {w : List Char} (h : IsWord w) : ' ' ∉ w := by
  intro hmem
  have := h.2 ' ' hmem
  rw [isSpace_space] at this
  cases this

/-- The words read by the extraction loop are words. -/
theorem extractFrom_words (text : List Char) :
    ∀ cur : List Char, (∀ c ∈ cur, isSpace c = false) →
      ∀ w ∈ extractFrom cur text, IsWord w := by
  induction text with
  | nil =>
    intro cur hcur w hw
    unfold extractFrom at hw
    split at hw
    · cases hw
    · rename_i hne
      simp only [List.mem_singleton] at hw
      subst hw
      exact ⟨hne, hcur⟩
  | cons c rest ih =>
    intro cur hcur w hw
    unfold extractFrom at hw
    split at hw
    · split at hw
      · exact ih [] (fun _ h => by cases h) w hw
      · rename_i hne
        rcases List.mem_cons.mp hw with h | h
        · subst h
          exact ⟨hne, hcur⟩
        · exact ih [] (fun _ h => by cases h) w h
    · rename_i hsp
      refine ih (cur ++ [c]) ?_ w hw
      intro d hd
      rcases List.mem_append.mp hd with h | h
      · exact hcur d h
      · simp only [List.mem_singleton] at h
        subst h
        simpa using hsp

/-- The extraction loop reads the non-empty pieces between white-space
characters. -/
theorem extractFrom_eq_splitOnP (text : List Char) :
    ∀ cur : List Char,
      extractFrom cur text =
        (List.splitOnP.go isSpace text cur.reverse).filter (fun w => decide (w ≠ [])) := by
  induction text with
  | nil =>
    intro cur
    by_cases h : cur = []
    · simp [extractFrom, List.splitOnP.go, h]
    · simp [extractFrom, List.splitOnP.go, h]
  | cons c rest ih =>
    intro cur
    by_cases hsp : isSpace c = true
    · by_cases h : cur = []
      · simp [extractFrom, List.splitOnP.go, hsp, h, ih []]
      · simp [extractFrom, List.splitOnP.go, hsp, h, ih []]
    · have := ih (cur ++ [c])
      simp only [List.reverse_append, List.reverse_cons, List.reverse_nil, List.nil_append,
        List.singleton_append] at this
      simp [extractFrom, List.splitOnP.go, hsp, this]

/-- A word read by the extraction loop is not longer than the characters
at hand. -/
theorem extractFrom_length (text : List Char) :
    ∀ cur : List Char, ∀ w ∈ extractFrom cur text, w.length ≤ cur.length + text.length := by
  induction text with
  | nil =>
    intro cur w hw
    unfold extractFrom at hw
    split at hw
    · cases hw
    · rw [List.mem_singleton.mp hw]
      simp
  | cons c rest ih =>
    intro cur w hw
    unfold extractFrom at hw
    simp only [List.length_cons]
    split at hw
    · split at hw
      · have := ih [] w hw
        simp only [List.length_nil] at this
        omega
      · rcases List.mem_cons.mp hw with h | h
        · rw [h]
          omega
        · have := ih [] w h
          simp only [List.length_nil] at this
          omega
    · have := ih (cur ++ [c]) w hw
      simp only [List.length_append, List.length_singleton] at this
      omega

/-- A line of words splits at its spaces into these words. -/
theorem IsWordLine.splitOn {line : List Char} {ws : List (List Char)} (hne : ws ≠ [])
    (hw : ∀ w ∈ ws, IsWord w) (hl : line = [' '].intercalate ws) :
    line.splitOn ' ' = ws := by
  rw [hl]
  exact List.splitOn_intercalate ws ' ' (fun w h => (hw w h).no_space) hne

/-- A line of words is not empty and neither starts nor ends with a space. -/
theorem IsWordLine.ends {line : List Char} (h : IsWordLine line) :
    line ≠ [] ∧ line.head? ≠ some ' ' ∧ line.getLast? ≠ some ' ' := by
  obtain ⟨ws, hne, hw, hl⟩ := h
  have hhead : ∃ c tail, line = c :: tail ∧ c ≠ ' ' := by
    cases ws with
    | nil => exact absurd rfl hne
    | cons w rest =>
      have hww := hw w (List.mem_cons_self _ _)
      obtain ⟨c, t, hct⟩ := List.exists_cons_of_ne_nil hww.1
      have hc : c ≠ ' ' := by
        intro hc
        apply hww.no_space
        rw [hct, hc]
        exact List.mem_cons_self _ _
      cases rest with
      | nil =>
        rw [intercalate_one] at hl
        exact ⟨c, t, by rw [hl, hct], hc⟩
      | cons w2 rest2 =>
        rw [intercalate_two, hct] at hl
        exact ⟨c, _, by rw [hl]; rfl, hc⟩
  have hlast : ∃ init c, line = init ++ [c] ∧ c ≠ ' ' := by
    obtain ⟨init, wl, hws⟩ : ∃ init wl, ws = init ++ [wl] :=
      ⟨ws.dropLast, ws.getLast hne, (List.dropLast_append_getLast hne).symm⟩
    have hww := hw wl (by rw [hws]; exact List.mem_append_right _ (List.mem_singleton_self _))
    obtain ⟨wi, c, hwl⟩ : ∃ wi c, wl = wi ++ [c] :=
      ⟨wl.dropLast, wl.getLast hww.1, (List.dropLast_append_getLast hww.1).symm⟩
    have hc : c ≠ ' ' := by
      intro hc
      apply hww.no_space
      rw [hwl, hc]
      exact List.mem_append_right _ (List.mem_singleton_self _)
    by_cases hinit : init = []
    · rw [hws, hinit, List.nil_append, intercalate_one] at hl
      exact ⟨wi, c, by rw [hl, hwl], hc⟩
    · rw [hws, intercalate_snoc _ _ _ hinit, hwl, ← List.append_assoc] at hl
      exact ⟨_, c, hl, hc⟩
  obtain ⟨c, tail, hct, hc⟩ := hhead
  obtain ⟨init, d, hid, hd⟩ := hlast
  refine ⟨by rw [hct]; exact List.cons_ne_nil _ _, ?_, ?_⟩
  · rw [hct, List.head?_cons]
    intro h
    exact hc (Option.some.inj h)
  · rw [hid, List.getLast?_append, List.getLast?_singleton]
    intro h
    exact hd (Option.some.inj h)

end TypingTest

namespace TypingTest

/-- One pass of the wrapping loop on a word keeps every line a line of
words and adds the word at the end of the words held. -/
theorem wrapStep_content (st : WrapState) (w : List Char) (hw : IsWord w)
    (hlines : ∀ l ∈ st.lines, IsWordLine l)
    (hcur : st.currentLine = [] ∨ IsWordLine st.currentLine) :
    (∀ l ∈ (wrapStep st w).lines, IsWordLine l) ∧
      IsWordLine (wrapStep st w).currentLine ∧
      wrapContent (wrapStep st w) = wrapContent st ++ [w] := by
  have hwl : IsWordLine w := ⟨[w], List.cons_ne_nil _ _,
    fun x hx => by rw [List.mem_singleton.mp hx]; exact hw, (intercalate_one _ _).symm⟩
  have hsplitw : w.splitOn ' ' = [w] :=
    IsWordLine.splitOn (List.cons_ne_nil _ _)
      (fun x hx => by rw [List.mem_singleton.mp hx]; exact hw) (intercalate_one _ _).symm
  by_cases hempty : st.currentLine = []
  · have hstep : wrapStep st w =
        { st with currentLine := w, currentLineChars := static_cast_int w.length } := by
      unfold wrapStep
      rw [if_neg (fun h => h.2 hempty), if_neg (fun h => h hempty)]
    rw [hstep]
    refine ⟨hlines, hwl, ?_⟩
    simp only [wrapContent, hempty, if_true, if_neg hw.1, hsplitw, List.append_nil]
  · have hgood : IsWordLine st.currentLine := hcur.resolve_left hempty
    obtain ⟨ws, hne, hws, hl⟩ := hgood
    have hsplit : st.currentLine.splitOn ' ' = ws := IsWordLine.splitOn hne hws hl
    by_cases hbreak : (toSizeT st.currentLineChars + w.length + 1) % 2 ^ 64 >
        toSizeT maxCharsPerLine ∧ st.currentLine ≠ []
    · have hstep : wrapStep st w =
          { lines := st.lines ++ [st.currentLine], currentLine := w,
            currentLineChars := static_cast_int w.length } := by
        unfold wrapStep
        rw [if_pos hbreak]
      rw [hstep]
      refine ⟨?_, hwl, ?_⟩
      · intro l hmem
        rcases List.mem_append.mp hmem with h | h
        · exact hlines l h
        · rw [List.mem_singleton.mp h]
          exact ⟨ws, hne, hws, hl⟩
      · simp only [wrapContent, if_neg hempty, if_neg hw.1, hsplitw, List.map_append,
          List.map_cons, List.map_nil, List.flatten_append, List.flatten_cons,
          List.flatten_nil, List.append_nil, List.append_assoc]
    · have hstep : wrapStep st w =
          { st with
            currentLine := st.currentLine ++ ' ' :: w,
            currentLineChars :=
              static_cast_int ((toSizeT st.currentLineChars + (w.length + 1)) % 2 ^ 64) } := by
        unfold wrapStep
        rw [if_neg hbreak, if_pos hempty]
      have hline : st.currentLine ++ ' ' :: w = [' '].intercalate (ws ++ [w]) := by
        rw [intercalate_snoc _ _ _ hne, ← hl]
        simp
      have hws2 : ∀ x ∈ ws ++ [w], IsWord x := by
        intro x hx
        rcases List.mem_append.mp hx with h | h
        · exact hws x h
        · rw [List.mem_singleton.mp h]
          exact hw
      have hne2 : ws ++ [w] ≠ [] := by simp
      have hsplit2 : (st.currentLine ++ ' ' :: w).splitOn ' ' = ws ++ [w] :=
        IsWordLine.splitOn hne2 hws2 hline
      rw [hstep]
      refine ⟨hlines, ⟨ws ++ [w], hne2, hws2, hline⟩, ?_⟩
      have hne3 : st.currentLine ++ ' ' :: w ≠ [] := by simp
      simp only [wrapContent, if_neg hempty, if_neg hne3, hsplit, hsplit2, List.append_assoc]

/-- The wrapping loop over a list of words keeps every line a line of words
and adds the words, in order, to the words held. -/
theorem wrapFold_content (words : List (List Char)) :
    ∀ st : WrapState, (∀ w ∈ words, IsWord w) → (∀ l ∈ st.lines, IsWordLine l) →
      (st.currentLine = [] ∨ IsWordLine st.currentLine) →
      (∀ l ∈ (words.foldl wrapStep st).lines, IsWordLine l) ∧
        ((words.foldl wrapStep st).currentLine = [] ∨
          IsWordLine (words.foldl wrapStep st).currentLine) ∧
        wrapContent (words.foldl wrapStep st) = wrapContent st ++ words := by
  induction words with
  | nil =>
    intro st _ hlines hcur
    exact ⟨hlines, hcur, by simp⟩
  | cons w rest ih =>
    intro st hwords hlines hcur
    obtain ⟨h1, h2, h3⟩ :=
      wrapStep_content st w (hwords w (List.mem_cons_self _ _)) hlines hcur
    obtain ⟨k1, k2, k3⟩ := ih (wrapStep st w)
      (fun x hx => hwords x (List.mem_cons_of_mem _ hx)) h1 (Or.inr h2)
    refine ⟨k1, k2, ?_⟩
    rw [List.foldl_cons, k3, h3]
    simp

/-! ## Claims on word wrapping -/

/-- C18: for every text, the lines built by `drawWrappedText`, each split at
its single spaces and put one after the other in line order, are exactly the
words that the extraction loop reads from the text (its white-space-separated
words), in their order; no line is empty and no line starts or ends with a
space. The words read are the non-empty pieces of the text between
white-space characters. -/
theorem wrapLines_preserve_text (text : List Char) :
    ((wrapLines text).map (fun l => l.splitOn ' ')).flatten = extractWords text ∧
    (∀ l ∈ wrapLines text, l ≠ [] ∧ l.head? ≠ some ' ' ∧ l.getLast? ≠ some ' ') ∧
    (∀ w ∈ extractWords text, w ≠ [] ∧ ∀ c ∈ w, isSpace c = false) ∧
    extractWords text = (text.splitOnP isSpace).filter (fun w => decide (w ≠ [])) := by
  have hwords : ∀ w ∈ extractWords text, IsWord w :=
    extractFrom_words text [] (fun _ h => by cases h)
  obtain ⟨h1, h2, h3⟩ := wrapFold_content (extractWords text)
    { lines := [], currentLine := [], currentLineChars := 0 } hwords
    (fun _ h => by cases h) (Or.inl rfl)
  have hcontent : wrapContent (wrapLoop text) = extractWords text := by
    unfold wrapLoop
    rw [h3]
    simp [wrapContent]
  have hgood : ∀ l ∈ wrapLines text, IsWordLine l := by
    intro l hl
    unfold wrapLines at hl
    split at hl
    · rename_i hne
      rcases List.mem_append.mp hl with h | h
      · exact h1 l h
      · rw [List.mem_singleton.mp h]
        exact h2.resolve_left hne
    · exact h1 l hl
  refine ⟨?_, fun l hl => (hgood l hl).ends, hwords, extractFrom_eq_splitOnP text []⟩
  rw [← hcontent]
  unfold wrapLines wrapContent
  by_cases hne : (wrapLoop text).currentLine = []
  · simp [hne]
  · simp [hne]

end TypingTest

namespace TypingTest

/-- The limit `maxCharsPerLine`, converted to `size_t`. -/
theorem toSizeT_maxCharsPerLine : toSizeT maxCharsPerLine = 78 :=
  toSizeT_natCast 78 (by norm_num)

/-- The first word of a line that holds no space is the line. -/
theorem firstWord_of_no_space (l : List Char) (h : ' ' ∉ l) : firstWord l = l := by
  unfold firstWord
  rw [List.takeWhile_eq_self_iff]
  intro c hc
  have : c ≠ ' ' := fun hcs => h (hcs ▸ hc)
  simpa using this

/-- Appending a space and further characters to a line keeps its first
word. -/
theorem firstWord_append_space (l r : List Char) (hne : l ≠ []) :
    firstWord (l ++ ' ' :: r) = firstWord l := by
  unfold firstWord
  induction l with
  | nil => exact absurd rfl hne
  | cons c t ih =>
    by_cases hc : c = ' '
    · subst hc
      simp [List.takeWhile]
    · have hcb : (c != ' ') = true := by simpa using hc
      cases t with
      | nil => simp [List.takeWhile, hcb]
      | cons d t2 =>
        have := ih (List.cons_ne_nil _ _)
        simp only [List.cons_append, List.takeWhile_cons, hcb, if_true] at this ⊢
        rw [this]

/-- One pass of the wrapping loop on a word keeps the count of the current
line exact, keeps every line within the limit (a single long word apart),
and starts a new line only when the word would not fit. -/
theorem wrapStep_limit (allw : List (List Char)) (st : WrapState) (w : List Char)
    (hw : IsWord w) (hmem : w ∈ allw) (hsmall : ∀ x ∈ allw, x.length < 2 ^ 31)
    (hcount : st.currentLineChars = (st.currentLine.length : Int))
    (hlines : ∀ l ∈ st.lines, lineFits allw l)
    (hcur : st.currentLine = [] ∨ lineFits allw st.currentLine)
    (hnil : st.currentLine = [] → st.lines = [])
    (hchain : List.Chain' breakNeeded (wrapAllLines st)) :
    (wrapStep st w).currentLineChars = ((wrapStep st w).currentLine.length : Int) ∧
      (∀ l ∈ (wrapStep st w).lines, lineFits allw l) ∧
      lineFits allw (wrapStep st w).currentLine ∧
      (wrapStep st w).currentLine ≠ [] ∧
      List.Chain' breakNeeded (wrapAllLines (wrapStep st w)) := by
  have hwlen : w.length < 2 ^ 31 := hsmall w hmem
  have hwfits : lineFits allw w := by
    by_cases h : (w.length : Int) ≤ maxCharsPerLine
    · exact Or.inl h
    · exact Or.inr ⟨hmem, not_le.mp h⟩
  have hwcount : static_cast_int w.length = (w.length : Int) := static_cast_int_of_lt _ hwlen
  by_cases hempty : st.currentLine = []
  · have hstep : wrapStep st w =
        { st with currentLine := w, currentLineChars := static_cast_int w.length } := by
      unfold wrapStep
      rw [if_neg (fun h => h.2 hempty), if_neg (fun h => h hempty)]
    rw [hstep]
    refine ⟨hwcount, hlines, hwfits, hw.1, ?_⟩
    simp only [wrapAllLines, hnil hempty, if_neg hw.1, List.nil_append]
    exact List.chain'_singleton _
  · have hcfits : lineFits allw st.currentLine := hcur.resolve_left hempty
    have hclen : st.currentLine.length < 2 ^ 31 := by
      rcases hcfits with h | ⟨h, _⟩
      · unfold maxCharsPerLine at h
        omega
      · exact hsmall _ h
    have hsz : toSizeT st.currentLineChars = st.currentLine.length := by
      rw [hcount]
      exact toSizeT_natCast _ (by omega)
    have hmod : (st.currentLine.length + w.length + 1) % 2 ^ 64 =
        st.currentLine.length + w.length + 1 := Nat.mod_eq_of_lt (by omega)
    have hall : wrapAllLines st = st.lines ++ [st.currentLine] := by
      simp only [wrapAllLines, if_neg hempty]
    by_cases hbreak : (toSizeT st.currentLineChars + w.length + 1) % 2 ^ 64 >
        toSizeT maxCharsPerLine ∧ st.currentLine ≠ []
    · have hstep : wrapStep st w =
          { lines := st.lines ++ [st.currentLine], currentLine := w,
            currentLineChars := static_cast_int w.length } := by
        unfold wrapStep
        rw [if_pos hbreak]
      have hgt : st.currentLine.length + w.length + 1 > 78 := by
        have := hbreak.1
        rw [hsz, hmod, toSizeT_maxCharsPerLine] at this
        exact this
      rw [hstep]
      refine ⟨hwcount, ?_, hwfits, hw.1, ?_⟩
      · intro l hl
        rcases List.mem_append.mp hl with h | h
        · exact hlines l h
        · rw [List.mem_singleton.mp h]
          exact hcfits
      · have hall2 : wrapAllLines
            { lines := st.lines ++ [st.currentLine], currentLine := w,
              currentLineChars := static_cast_int w.length } =
            wrapAllLines st ++ [w] := by
          simp only [wrapAllLines, if_neg hw.1, if_neg hempty]
        rw [hall2, List.chain'_append]
        refine ⟨hchain, List.chain'_singleton _, ?_⟩
        intro x hx y hy
        rw [hall, List.getLast?_append, List.getLast?_singleton] at hx
        simp only [Option.or, Option.mem_def, Option.some.injEq] at hx
        simp only [List.head?_cons, Option.mem_def, Option.some.injEq] at hy
        subst hx
        subst hy
        unfold breakNeeded maxCharsPerLine
        rw [firstWord_of_no_space _ hw.no_space]
        omega
    · have hstep : wrapStep st w =
          { st with
            currentLine := st.currentLine ++ ' ' :: w,
            currentLineChars :=
              static_cast_int ((toSizeT st.currentLineChars + (w.length + 1)) % 2 ^ 64) } := by
        unfold wrapStep
        rw [if_neg hbreak, if_pos hempty]
      have hle : st.currentLine.length + w.length + 1 ≤ 78 := by
        by_contra hgt
        apply hbreak
        refine ⟨?_, hempty⟩
        rw [hsz, hmod, toSizeT_maxCharsPerLine]
        omega
      have hne3 : st.currentLine ++ ' ' :: w ≠ [] := by simp
      rw [hstep]
      refine ⟨?_, hlines, Or.inl ?_, hne3, ?_⟩
      · show static_cast_int ((toSizeT st.currentLineChars + (w.length + 1)) % 2 ^ 64) =
          ((st.currentLine ++ ' ' :: w).length : Int)
        rw [hsz, ← Nat.add_assoc, hmod, static_cast_int_of_lt _ (by omega)]
        simp only [List.length_append, List.length_cons]
        omega
      · show (((st.currentLine ++ ' ' :: w).length : Nat) : Int) ≤ maxCharsPerLine
        unfold maxCharsPerLine
        simp only [List.length_append, List.length_cons]
        omega
      · have hall2 : wrapAllLines
            { st with
              currentLine := st.currentLine ++ ' ' :: w,
              currentLineChars :=
                static_cast_int ((toSizeT st.currentLineChars + (w.length + 1)) % 2 ^ 64) } =
            st.lines ++ [st.currentLine ++ ' ' :: w] := by
          simp only [wrapAllLines, if_neg hne3]
        rw [hall2, List.chain'_append]
        rw [hall, List.chain'_append] at hchain
        refine ⟨hchain.1, List.chain'_singleton _, ?_⟩
        intro x hx y hy
        simp only [List.head?_cons, Option.mem_def, Option.some.injEq] at hy
        subst hy
        have := hchain.2.2 x hx st.currentLine (by simp)
        unfold breakNeeded at this ⊢
        rw [firstWord_append_space _ _ hempty]
        exact this

end TypingTest

namespace TypingTest

/-- The wrapping loop over a list of words keeps the count of the current
line exact, every line within the limit (a single long word apart), and
every line break needed. -/
theorem wrapFold_limit (allw : List (List Char)) (hsmall : ∀ x ∈ allw, x.length < 2 ^ 31)
    (words : List (List Char)) :
    ∀ st : WrapState, (∀ w ∈ words, IsWord w ∧ w ∈ allw) →
      st.currentLineChars = (st.currentLine.length : Int) →
      (∀ l ∈ st.lines, lineFits allw l) →
      (st.currentLine = [] ∨ lineFits allw st.currentLine) →
      (st.currentLine = [] → st.lines = []) →
      List.Chain' breakNeeded (wrapAllLines st) →
      (∀ l ∈ wrapAllLines (words.foldl wrapStep st), lineFits allw l) ∧
        List.Chain' breakNeeded (wrapAllLines (words.foldl wrapStep st)) := by
  induction words with
  | nil =>
    intro st _ _ hlines hcur _ hchain
    refine ⟨?_, hchain⟩
    intro l hl
    rw [List.foldl_nil] at hl
    unfold wrapAllLines at hl
    rcases List.mem_append.mp hl with h | h
    · exact hlines l h
    · by_cases hempty : st.currentLine = []
      · rw [if_pos hempty] at h
        cases h
      · rw [if_neg hempty, List.mem_singleton] at h
        rw [h]
        exact hcur.resolve_left hempty
  | cons w rest ih =>
    intro st hwords hcount hlines hcur hnil hchain
    obtain ⟨hw, hmem⟩ := hwords w (List.mem_cons_self _ _)
    obtain ⟨h1, h2, h3, h4, h5⟩ :=
      wrapStep_limit allw st w hw hmem hsmall hcount hlines hcur hnil hchain
    exact ih (wrapStep st w) (fun x hx => hwords x (List.mem_cons_of_mem _ hx)) h1 h2
      (Or.inr h3) (fun h => absurd h h4) h5

/-- The lines built by `drawWrappedText` are those held by the state after
the loop. -/
theorem wrapLines_eq_all (text : List Char) : wrapLines text = wrapAllLines (wrapLoop text) := by
  unfold wrapLines wrapAllLines
  by_cases h : (wrapLoop text).currentLine = []
  · simp [h]
  · simp [h]

/-- C19: for every text (of a length that fits an `int`), every line built
by `drawWrappedText` has at most `maxCharsPerLine` (78) characters, unless
it is one single word of the text that is itself longer than the limit; and
for every two consecutive lines, appending the first word of the second one
to the first one, with one separating space, would have exceeded the limit:
a word starts a new line only then. -/
theorem wrapLines_limit (text : List Char) (hlen : text.length < 2 ^ 31) :
    (∀ l ∈ wrapLines text,
      (l.length : Int) ≤ maxCharsPerLine ∨
        (l ∈ extractWords text ∧ maxCharsPerLine < (l.length : Int))) ∧
    (∀ (pre post : List (List Char)) (l1 l2 : List Char),
      wrapLines text = pre ++ l1 :: l2 :: post →
        (l1.length : Int) + 1 + ((firstWord l2).length : Int) > maxCharsPerLine) ∧
    maxCharsPerLine = 78 := by
  have hwords : ∀ w ∈ extractWords text, IsWord w ∧ w ∈ extractWords text :=
    fun w hw => ⟨extractFrom_words text [] (fun _ h => by cases h) w hw, hw⟩
  have hsmall : ∀ x ∈ extractWords text, x.length < 2 ^ 31 := by
    intro x hx
    have := extractFrom_length text [] x hx
    simp only [List.length_nil] at this
    omega
  obtain ⟨hfit, hchain⟩ := wrapFold_limit (extractWords text) hsmall (extractWords text)
    { lines := [], currentLine := [], currentLineChars := 0 } hwords rfl
    (fun _ h => by cases h) (Or.inl rfl) (fun _ => rfl) (by simp [wrapAllLines])
  refine ⟨?_, ?_, rfl⟩
  · intro l hl
    rw [wrapLines_eq_all] at hl
    exact hfit l hl
  · intro pre post l1 l2 heq
    have hc : List.Chain' breakNeeded (wrapLines text) := by
      rw [wrapLines_eq_all]
      exact hchain
    rw [heq, List.chain'_append] at hc
    exact (List.chain'_cons.mp hc.2.1).1

/-- C19, at a concrete input: the second sentence of the list (82
characters). -/
theorem wrapLines_limit_witness :
    (∀ l ∈ wrapLines
        "Programming is the art of telling another human what one wants the computer to do.".toList,
      (l.length : Int) ≤ maxCharsPerLine ∨
        (l ∈ extractWords
            "Programming is the art of telling another human what one wants the computer to do.".toList ∧
          maxCharsPerLine < (l.length : Int))) ∧
    (∀ (pre post : List (List Char)) (l1 l2 : List Char),
      wrapLines
          "Programming is the art of telling another human what one wants the computer to do.".toList =
        pre ++ l1 :: l2 :: post →
        (l1.length : Int) + 1 + ((firstWord l2).length : Int) > maxCharsPerLine) ∧
    maxCharsPerLine = 78 :=
  wrapLines_limit _ (by decide)

end TypingTest

namespace TypingTest

/-! ## Shared lemmas: games that can be reached -/

/-- `handleTypingInput` keeps the sentence and never lowers the error
count. -/
theorem handleTypingInput_errors (g g1 : TypingTestGame) (key : Keysym) (now : Int)
    (h : handleTypingInput g key now = some g1) :
    g1.currentSentence = g.currentSentence ∧ g.errors ≤ g1.errors := by
  unfold handleTypingInput at h
  split at h
  · simp only [Option.some.injEq] at h
    rw [← h]
    exact ⟨rfl, le_refl _⟩
  split at h
  · simp only [Option.some.injEq] at h
    rw [← h]
    exact ⟨rfl, le_refl _⟩
  split at h
  swap
  · simp only [Option.some.injEq] at h
    rw [← h]
    exact ⟨rfl, le_refl _⟩
  simp only at h
  split at h
  · simp only [Option.some.injEq] at h
    rw [← h]
    exact ⟨rfl, le_refl _⟩
  split at h
  · cases h
  split at h
  · split at h
    · simp only [Option.some.injEq] at h
      rw [← h]
      exact ⟨rfl, le_refl _⟩
    · simp only [Option.some.injEq] at h
      rw [← h]
      exact ⟨rfl, le_refl _⟩
  · simp only [Option.some.injEq] at h
    rw [← h]
    exact ⟨rfl, by show g.errors ≤ g.errors + 1; omega⟩

/-- `handleEvent` keeps the sentence in the list and the error count
non-negative. -/
theorem handleEvent_sentence_errors (g g1 : TypingTestGame) (i : Input)
    (hs : g.currentSentence ∈ sentences) (he : 0 ≤ g.errors)
    (h : handleEvent g i = some g1) :
    g1.currentSentence ∈ sentences ∧ 0 ≤ g1.errors := by
  unfold handleEvent at h
  split at h
  · split at h
    · split at h
      · simp only [Option.some.injEq] at h
        rw [← h]
        exact ⟨hs, le_refl _⟩
      · simp only [Option.some.injEq] at h
        rw [← h]
        exact ⟨hs, he⟩
    · obtain ⟨h1, h2⟩ := handleTypingInput_errors g g1 _ i.now h
      rw [h1]
      exact ⟨hs, le_trans he h2⟩
    · split at h
      · simp only [Option.some.injEq] at h
        rw [← h]
        exact ⟨List.get_mem _ _ _, le_refl _⟩
      · simp only [Option.some.injEq] at h
        rw [← h]
        exact ⟨hs, he⟩
  · simp only [Option.some.injEq] at h
    rw [← h]
    exact ⟨hs, he⟩

/-- In every game that can be reached the sentence is one of the list and
the error count is not negative. -/
theorem reachable_sentence_errors (g : TypingTestGame) (h : Reachable g) :
    g.currentSentence ∈ sentences ∧ 0 ≤ g.errors := by
  induction h with
  | new pick => exact ⟨List.get_mem _ _ _, le_refl _⟩
  | handleEvent i _ hstep ih => exact handleEvent_sentence_errors _ _ i ih.1 ih.2 hstep
  | update deltaTime now rx ry _ ih =>
    obtain ⟨_, h2, _, _, h5, _⟩ := updateGame_keeps _ deltaTime now rx ry
    rw [h2, h5]
    exact ih
  | render c m lib fmt opened ticks _ ih => exact ih

end TypingTest

namespace OtherCtx

/-! ## Claims on the camera-aware primitives -/

/-- With the camera disabled, `transformPoint` does not read the camera. -/
theorem transformPoint_disabled {F : Type} [Sub F] [Mul F] (c : OtherCtx F) (x y : F)
    (h : c.useCamera = false) : transformPoint c x y = ⟨x, y⟩ := by
  simp [transformPoint, h]

/-- With the camera disabled, the position of the camera has no effect on
what the five camera-aware primitives send to the library. -/
theorem camera_disabled_position {F : Type} [LinearOrderedField F] [FloorRing F]
    (c : OtherCtx F) (m : MathFns F) (pos : Vector2 F) (h : c.useCamera = false)
    (a1 a2 a3 a4 a5 a6 : F) (color : Color) (fill : Bool) :
    drawTriangle (setCameraPosition c pos) a1 a2 a3 a4 a5 a6 color fill =
      drawTriangle c a1 a2 a3 a4 a5 a6 color fill ∧
    drawRectLines (setCameraPosition c pos) a1 a2 a3 a4 color =
      drawRectLines c a1 a2 a3 a4 color ∧
    drawCircle (setCameraPosition c pos) m a1 a2 a3 color fill =
      drawCircle c m a1 a2 a3 color fill ∧
    drawArc (setCameraPosition c pos) m a1 a2 a3 a4 a5 color =
      drawArc c m a1 a2 a3 a4 a5 color ∧
    drawRoundedRect (setCameraPosition c pos) m a1 a2 a3 a4 a5 color fill =
      drawRoundedRect c m a1 a2 a3 a4 a5 color fill := by
  have ht : ∀ x y : F, transformPoint (setCameraPosition c pos) x y = transformPoint c x y := by
    intro x y
    rw [transformPoint_disabled _ _ _ (by exact h), transformPoint_disabled _ _ _ h]
  have hz : (setCameraPosition c pos).cameraZoom = c.cameraZoom := rfl
  have hr : (setCameraPosition c pos).renderer = c.renderer := rfl
  have hcirc : ∀ (x y r : F) (f : Bool),
      drawCircle (setCameraPosition c pos) m x y r color f = drawCircle c m x y r color f := by
    intro x y r f
    simp only [drawCircle, ht, hz, hr, setDrawColor]
  have harc : ∀ (x y r s e : F),
      drawArc (setCameraPosition c pos) m x y r s e color = drawArc c m x y r s e color := by
    intro x y r s e
    simp only [drawArc, ht, hz, hr, setDrawColor]
  refine ⟨?_, ?_, hcirc _ _ _ _, harc _ _ _ _ _, ?_⟩
  · simp only [drawTriangle, ht, hr, setDrawColor]
  · simp only [drawRectLines, ht, hz, hr, setDrawColor]
  · simp only [drawRoundedRect, ht, hz, hr, setDrawColor, hcirc, harc]

/-- C12, on the code: with the camera disabled, the zoom still scales the
sizes that `drawRectLines` and `drawRoundedRect` send to the library. For the
score panel of `test.cpp`, `drawRoundedRect(10, 10, 200, 100, 15, ...)`, the
first rectangle filled is `(25, 10, 170, 100)` at zoom 1 and
`(40, 10, 340, 200)` at zoom 2; `drawRectLines(10, 10, 200, 100, ...)` draws
its first line to `x = 210` at zoom 1 and to `x = 410` at zoom 2. -/
theorem camera_disabled_zoom_scales (m : MathFns ℚ) (pos : Vector2 ℚ) (color : Color) :
    (guiCtx pos 2).useCamera = false ∧
    (drawRoundedRect (guiCtx pos 1) m 10 10 200 100 15 color true)[1]? =
      some (SDLCall.RenderFillRectF (some 2) 25 10 170 100) ∧
    (drawRoundedRect (guiCtx pos 2) m 10 10 200 100 15 color true)[1]? =
      some (SDLCall.RenderFillRectF (some 2) 40 10 340 200) ∧
    (drawRectLines (guiCtx pos 1) 10 10 200 100 color)[1]? =
      some (SDLCall.RenderDrawLineF (some 2) 10 10 210 10) ∧
    (drawRectLines (guiCtx pos 2) 10 10 200 100 color)[1]? =
      some (SDLCall.RenderDrawLineF (some 2) 10 10 410 10) := by
  refine ⟨rfl, ?_, ?_, ?_, ?_⟩
  · simp only [drawRoundedRect, setDrawColor, transformPoint, guiCtx, if_true,
      List.singleton_append, List.cons_append, List.getElem?_cons_succ,
      List.getElem?_cons_zero, Bool.not_false]
    norm_num
  · simp only [drawRoundedRect, setDrawColor, transformPoint, guiCtx, if_true,
      List.singleton_append, List.cons_append, List.getElem?_cons_succ,
      List.getElem?_cons_zero, Bool.not_false]
    norm_num
  · simp only [drawRectLines, setDrawColor, transformPoint, guiCtx, if_true,
      List.singleton_append, List.getElem?_cons_succ, List.getElem?_cons_zero,
      Bool.not_false]
    norm_num
  · simp only [drawRectLines, setDrawColor, transformPoint, guiCtx, if_true,
      List.singleton_append, List.getElem?_cons_succ, List.getElem?_cons_zero,
      Bool.not_false]
    norm_num

end OtherCtx

namespace OtherCtx

/-- With the camera disabled, the zoom still acts as a factor on the sizes:
drawing at zoom `z` is drawing at zoom 1 with the radius, or the width and
height, multiplied by `z`. -/
theorem camera_disabled_zoom_is_scale (m : MathFns ℚ) (pos : Vector2 ℚ) (z : ℚ)
    (x y r s e w h : ℚ) (color : Color) (fill : Bool) :
    drawCircle (guiCtx pos z) m x y r color fill =
      drawCircle (guiCtx pos 1) m x y (r * z) color fill ∧
    drawArc (guiCtx pos z) m x y r s e color =
      drawArc (guiCtx pos 1) m x y (r * z) s e color ∧
    drawRectLines (guiCtx pos z) x y w h color =
      drawRectLines (guiCtx pos 1) x y (w * z) (h * z) color := by
  refine ⟨?_, ?_, ?_⟩
  · simp only [drawCircle, transformPoint, guiCtx, setDrawColor, mul_one, Bool.not_false,
      if_true]
  · simp only [drawArc, transformPoint, guiCtx, setDrawColor, mul_one, Bool.not_false,
      if_true]
  · simp only [drawRectLines, transformPoint, guiCtx, setDrawColor, mul_one, Bool.not_false,
      if_true]

end OtherCtx

namespace TypingTest

/-! ## Claims on the rendering of the typing test -/

/-- The text and the outline primitives do not read the camera. -/
theorem drawText_ignores_camera (c : OtherCtx ℚ) (lib : TextLib ℚ) (pos : Vector2 ℚ)
    (text : List Char) (x y w h : ℚ) (color : Color) (fontName : String) (textSize : ℚ) :
    OtherCtx.drawTextNamed (OtherCtx.setCameraPosition c pos) lib text x y color fontName
        textSize =
      OtherCtx.drawTextNamed c lib text x y color fontName textSize ∧
    OtherCtx.drawRectOutline (OtherCtx.setCameraPosition c pos) x y w h color =
      OtherCtx.drawRectOutline c x y w h color :=
  ⟨rfl, rfl⟩

/-- The lines of a wrapped text are drawn at the same places whatever the
position of the camera. -/
theorem drawLines_ignores_camera (c : OtherCtx ℚ) (lib : TextLib ℚ) (pos : Vector2 ℚ)
    (x y : ℚ) (color : Color) (fontName : String) (lines : List (List Char)) :
    ∀ i : Nat, drawLines (OtherCtx.setCameraPosition c pos) lib x y color fontName i lines =
      drawLines c lib x y color fontName i lines := by
  induction lines with
  | nil =>
    intro i
    rfl
  | cons line rest ih =>
    intro i
    simp only [drawLines, ih]
    rfl

/-- In state `START` what `render` sends to the library does not depend on
`shakeOffset`: nothing is displaced by the shake. -/
theorem render_start_ignores_shake (g : TypingTestGame) (c : OtherCtx ℚ) (m : MathFns ℚ)
    (lib : TextLib ℚ) (fmt : Option ℚ → List Char) (opened : Option Nat) (ticks : Nat)
    (offset : Vector2 ℚ) (h : g.state = GameState.START) :
    (render { g with shakeOffset := offset } c m lib fmt opened ticks).2.2 =
      (render g c m lib fmt opened ticks).2.2 := by
  simp only [render, h, drawWrappedText, drawLines_ignores_camera,
    (drawText_ignores_camera _ lib _ _ _ _ 0 0 _ _ _).1]

/-- C13, on the code: in `render` with `shakeOffset = (3, 4)` the title
reaches the library at `(350, 50)`, its unshaken place, not at
`(347, 46)`, while the first rectangle of the text panel is displaced by
the offset, from `(65, 150)` to `(62, 146)`: the shake moves the panels
only. -/
theorem shake_moves_panels_only (m : MathFns ℚ) (fmt : Option ℚ → List Char)
    (opened : Option Nat) (ticks : Nat) :
    shakenGame.shakeOffset = ⟨3, 4⟩ ∧
    (render shakenGame typingCtx m sampleLib fmt opened ticks).2.2[2]? =
      some (SDLCall.RenderCopyF (some 2) "Typing Speed Test".toList textColor 350 50
        (17 * 10 * 2) (16 * 2)) ∧
    (render shakenGame typingCtx m sampleLib fmt opened ticks).2.2[4]? =
      some (SDLCall.RenderFillRectF (some 2) 62 146 1020 225) ∧
    (render { shakenGame with shakeOffset := ⟨0, 0⟩ } typingCtx m sampleLib fmt opened
        ticks).2.2[4]? =
      some (SDLCall.RenderFillRectF (some 2) 65 150 1020 225) := by
  have htitle : ∀ pos : Vector2 ℚ,
      OtherCtx.drawTextNamed (OtherCtx.setCameraPosition typingCtx pos) sampleLib
        "Typing Speed Test".toList 350 50 textColor "monospace" 2 =
      [SDLCall.RenderCopyF (some 2) "Typing Speed Test".toList textColor 350 50
        (17 * 10 * 2) (16 * 2)] := by
    intro pos
    rfl
  have hinit : shakenGame.initialized = true := rfl
  have hstate : shakenGame.state = GameState.TYPING := rfl
  have hoff : shakenGame.shakeOffset = ⟨3, 4⟩ := rfl
  refine ⟨rfl, ?_, ?_, ?_⟩
  · simp only [render, hinit, if_true, htitle, OtherCtx.clear, List.cons_append,
      List.nil_append, List.getElem?_cons_succ, List.getElem?_cons_zero]
  · simp only [render, hinit, hstate, hoff, if_true, htitle, OtherCtx.clear, List.cons_append,
      List.nil_append, List.getElem?_cons_succ, List.getElem?_cons_zero, drawTypingUI,
      OtherCtx.drawRoundedRect, OtherCtx.setDrawColor, List.append_assoc,
      List.singleton_append]
    simp only [OtherCtx.transformPoint, OtherCtx.setCameraPosition, typingCtx, textBackground,
      Bool.not_true, Bool.false_eq_true, if_false]
    norm_num
  · simp only [render, hinit, hstate, if_true, htitle, OtherCtx.clear, List.cons_append,
      List.nil_append, List.getElem?_cons_succ, List.getElem?_cons_zero, drawTypingUI,
      OtherCtx.drawRoundedRect, OtherCtx.setDrawColor, List.append_assoc,
      List.singleton_append]
    simp only [OtherCtx.transformPoint, OtherCtx.setCameraPosition, typingCtx, textBackground,
      Bool.not_true, Bool.false_eq_true, if_false]
    norm_num

end TypingTest

namespace TypingTest

/-- The position left by the character loop of `drawTypingUI` depends on the
number of characters only: one `advanceInput` per character. -/
theorem inputLoop_pos (c : OtherCtx ℚ) (lib : TextLib ℚ) (sentence : List Char)
    (chars : List Char) :
    ∀ (i : Nat) (p : ℚ × ℚ),
      (inputLoop c lib sentence i chars p).1 = advanceInput^[chars.length] p := by
  induction chars with
  | nil =>
    intro i p
    rfl
  | cons ch rest ih =>
    intro i p
    simp only [inputLoop, ih, List.length_cons, Function.iterate_succ, Function.comp_apply]

/-- Up to 83 characters the loop stays on its line, 12 further per
character. -/
theorem advanceInput_line (y : ℚ) :
    ∀ k : Nat, k ≤ 83 → advanceInput^[k] (70, y) = (70 + 12 * (k : ℚ), y) := by
  intro k
  induction k with
  | zero =>
    intro _
    simp
  | succ n ih =>
    intro hk
    rw [Function.iterate_succ_apply', ih (by omega)]
    have hn : (n : ℚ) ≤ 82 := by exact_mod_cast (by omega : n ≤ 82)
    have hcond : ¬ (70 + 12 * (n : ℚ) + 12 > inputBackground.x + inputBackground.w - 30) := by
      simp only [inputBackground]
      linarith
    simp only [advanceInput, charWidth]
    rw [if_neg hcond]
    push_cast
    rw [Prod.mk.injEq]
    exact ⟨by ring, rfl⟩

/-- The 84th character makes the loop wrap to the next line. -/
theorem advanceInput_wrap (y : ℚ) : advanceInput^[84] (70, y) = (70, y + 30) := by
  rw [Function.iterate_succ_apply', advanceInput_line y 83 (le_refl _)]
  have hcond : (70 + 12 * ((83 : Nat) : ℚ) + 12 > inputBackground.x + inputBackground.w - 30) := by
    simp only [inputBackground]
    norm_num
  simp only [advanceInput, charWidth]
  rw [if_pos hcond]
  simp only [inputStart, inputBackground]
  norm_num

/-- The `x` coordinate at which the loop would draw the next character after
`n` characters, for `n` up to 167. -/
theorem advanceInput_x (n : Nat) (hn : n ≤ 167) :
    (advanceInput^[n] inputStart).1 = 70 + 12 * ((n % 84 : Nat) : ℚ) := by
  have hstart : inputStart = (70, 430) := by
    simp only [inputStart, inputBackground]
    norm_num
  rw [hstart]
  by_cases h : n ≤ 83
  · rw [advanceInput_line 430 n h, Nat.mod_eq_of_lt (by omega)]
  · obtain ⟨j, rfl⟩ : ∃ j, n = j + 84 := ⟨n - 84, by omega⟩
    rw [Function.iterate_add_apply, advanceInput_wrap, advanceInput_line _ j (by omega)]
    have : (j + 84) % 84 = j := by omega
    rw [this]

/-- The `x` coordinate of the cursor for an input of `n` characters. -/
theorem cursorX_eq (n : Nat) : cursorX n = 70 + 12 * ((n % 76 : Nat) : ℚ) := by
  have h76 : toSizeT (maxCharsPerLine - 2) = 76 := toSizeT_natCast 76 (by norm_num)
  simp only [cursorX, h76, inputStart, inputBackground, charWidth]
  ring

/-- C20, on the code: the cursor is at the typing position for inputs of
up to 75 characters only. The loop of `drawTypingUI` wraps after 84
characters where `cursorX` wraps after 76: for every input of 76 to 89
characters (89 is the longest sentence of the list) the two `x` coordinates
differ, and after the first 76 characters of the second sentence the next
character goes to `x = 982` with the cursor at `x = 70`. -/
theorem cursor_leaves_typing_position (c : OtherCtx ℚ) (lib : TextLib ℚ) :
    longInput.userInput.length = 76 ∧
    (inputLoop c lib longInput.currentSentence 0 longInput.userInput inputStart).1 =
      (982, 430) ∧
    cursorX longInput.userInput.length = 70 ∧
    (∀ n : Nat, n < 76 → cursorX n = (advanceInput^[n] inputStart).1) ∧
    (∀ n : Nat, 76 ≤ n → n ≤ 89 → cursorX n ≠ (advanceInput^[n] inputStart).1) ∧
    (∀ s ∈ sentences, s.length ≤ 89) := by
  have hlen : longInput.userInput.length = 76 := by decide
  have hstart : inputStart = (70, 430) := by
    simp only [inputStart, inputBackground]
    norm_num
  refine ⟨hlen, ?_, ?_, ?_, ?_, by decide⟩
  · rw [inputLoop_pos, hlen, hstart, advanceInput_line 430 76 (by norm_num)]
    norm_num
  · rw [hlen, cursorX_eq]
    norm_num
  · intro n hn
    rw [cursorX_eq, advanceInput_x n (by omega), Nat.mod_eq_of_lt hn,
      Nat.mod_eq_of_lt (by omega)]
  · intro n h1 h2 heq
    rw [cursorX_eq, advanceInput_x n (by omega)] at heq
    have hq : ((n % 76 : Nat) : ℚ) = ((n % 84 : Nat) : ℚ) := by linarith
    have hnat : n % 76 = n % 84 := by exact_mod_cast hq
    omega

end TypingTest

namespace OtherCtx

/-! ## The loops of `drawCircle` end by their own condition -/

/-- Past the radius the filling loop of `drawCircle` draws nothing. -/
theorem circleFillLoop_done {F : Type} [LinearOrderedField F] [FloorRing F] (m : MathFns F)
    (renderer : Option Nat) (cx cy r dy : F) (h : ¬ dy ≤ r) (fuel : Nat) :
    circleFillLoop m renderer cx cy r fuel dy = [] := by
  cases fuel with
  | zero => rfl
  | succ n => simp only [circleFillLoop, if_neg h]

/-- The bound given to the filling loop of `drawCircle` is never what ends
it: with `floor(r - dy) + 1` passes allowed, allowing more changes
nothing. -/
theorem circleFillLoop_fuel {F : Type} [LinearOrderedField F] [FloorRing F] (m : MathFns F)
    (renderer : Option Nat) (cx cy r : F) :
    ∀ (fuel : Nat) (dy : F), ⌊r - dy⌋₊ < fuel → ∀ extra : Nat,
      circleFillLoop m renderer cx cy r (fuel + extra) dy =
        circleFillLoop m renderer cx cy r fuel dy := by
  intro fuel
  induction fuel with
  | zero =>
    intro dy h
    exact absurd h (Nat.not_lt_zero _)
  | succ n ih =>
    intro dy h extra
    rw [Nat.add_right_comm]
    by_cases hdy : dy ≤ r
    · simp only [circleFillLoop, if_pos hdy]
      by_cases hnext : dy + 1 ≤ r
      · have h0 : 0 ≤ r - dy := by linarith
        have h1 : 0 ≤ r - (dy + 1) := by linarith
        have hlt : r - dy < ((n + 1 : Nat) : F) := (Nat.floor_lt h0).mp h
        have hlt1 : r - (dy + 1) < (n : F) := by
          push_cast at hlt
          linarith
        rw [ih (dy + 1) ((Nat.floor_lt h1).mpr hlt1) extra]
      · rw [circleFillLoop_done m renderer cx cy r (dy + 1) hnext,
          circleFillLoop_done m renderer cx cy r (dy + 1) hnext]
    · rw [circleFillLoop_done m renderer cx cy r dy hdy,
        circleFillLoop_done m renderer cx cy r dy hdy]

/-- Once `dx < dy` the outline loop of `drawCircle` draws nothing. -/
theorem circleOutlineLoop_done {F : Type} [LinearOrderedField F] [FloorRing F]
    (renderer : Option Nat) (cx cy dx dy err : F) (h : ¬ dx ≥ dy) (fuel : Nat) :
    circleOutlineLoop renderer cx cy fuel dx dy err = [] := by
  cases fuel with
  | zero => rfl
  | succ n => simp only [circleOutlineLoop, if_neg h]

/-- The bound given to the outline loop of `drawCircle` is never what ends
it: every pass lowers `dx - dy` by one at least, so with
`floor(dx - dy) + 1` passes allowed, allowing more changes nothing. -/
theorem circleOutlineLoop_fuel {F : Type} [LinearOrderedField F] [FloorRing F]
    (renderer : Option Nat) (cx cy : F) :
    ∀ (fuel : Nat) (dx dy err : F), ⌊dx - dy⌋₊ < fuel → ∀ extra : Nat,
      circleOutlineLoop renderer cx cy (fuel + extra) dx dy err =
        circleOutlineLoop renderer cx cy fuel dx dy err := by
  intro fuel
  induction fuel with
  | zero =>
    intro dx dy err h
    exact absurd h (Nat.not_lt_zero _)
  | succ n ih =>
    intro dx dy err h extra
    rw [Nat.add_right_comm]
    by_cases hgo : dx ≥ dy
    · simp only [circleOutlineLoop, if_pos hgo]
      congr 1
      have h0 : 0 ≤ dx - dy := by linarith
      have hlt : dx - dy < ((n + 1 : Nat) : F) := (Nat.floor_lt h0).mp h
      push_cast at hlt
      have hdec : (if (if err ≤ 0 then err + (2 * (dy + 1) + 1) else err) > 0 then dx - 1
            else dx) - (if err ≤ 0 then dy + 1 else dy) ≤ dx - dy - 1 := by
        by_cases he : err ≤ 0
        · simp only [if_pos he]
          split <;> linarith
        · simp only [if_neg he, if_pos (not_le.mp he)]
          linarith
      by_cases hnext : (if (if err ≤ 0 then err + (2 * (dy + 1) + 1) else err) > 0 then dx - 1
            else dx) ≥ (if err ≤ 0 then dy + 1 else dy)
      · exact ih _ _ _ ((Nat.floor_lt (by linarith)).mpr (by linarith)) extra
      · rw [circleOutlineLoop_done renderer cx cy _ _ _ hnext,
          circleOutlineLoop_done renderer cx cy _ _ _ hnext]
    · rw [circleOutlineLoop_done renderer cx cy dx dy err hgo,
        circleOutlineLoop_done renderer cx cy dx dy err hgo]

end OtherCtx

namespace TypingTest

/-- C17, at a concrete input: Enter on a game fresh from its constructor. -/
theorem handleEvent_transitions_witness :
    ∃ g1, handleEvent (TypingTest.new ⟨0, by decide⟩)
        ⟨SDL_Event.keyDown ⟨40, 13, 0⟩, 5, ⟨3, by decide⟩⟩ = some g1 ∧
      g1 = startTest (TypingTest.new ⟨0, by decide⟩) 5 ∧
      g1.state = GameState.TYPING ∧ g1.userInput = [] ∧ g1.errors = 0 := by
  obtain ⟨g1, h, _, _, hstart, hret, _⟩ :=
    handleEvent_transitions (TypingTest.new ⟨0, by decide⟩)
      ⟨SDL_Event.keyDown ⟨40, 13, 0⟩, 5, ⟨3, by decide⟩⟩
  have hg1 : g1 = startTest (TypingTest.new ⟨0, by decide⟩) 5 := (hret _ rfl rfl).1 rfl
  obtain ⟨s1, s2, _, s4, _⟩ := hstart (TypingTest.new ⟨0, by decide⟩) 5
  exact ⟨g1, h, hg1, by rw [hg1]; exact s1, by rw [hg1]; exact s2, by rw [hg1]; exact s4⟩

/-- C18, at a concrete input: a text with leading, doubled and trailing
spaces. -/
theorem wrapLines_preserve_text_witness :
    ((wrapLines "  The quick   brown fox ".toList).map (fun l => l.splitOn ' ')).flatten =
      extractWords "  The quick   brown fox ".toList ∧
    (∀ l ∈ wrapLines "  The quick   brown fox ".toList,
      l ≠ [] ∧ l.head? ≠ some ' ' ∧ l.getLast? ≠ some ' ') :=
  ⟨(wrapLines_preserve_text "  The quick   brown fox ".toList).1,
   (wrapLines_preserve_text "  The quick   brown fox ".toList).2.1⟩

end TypingTest

namespace TypingTest

/-! ## The sample games can be reached -/

/-- Typing a part of a sentence that stops before its end, character by
character and without error, from a `TYPING` state: the characters are
appended and the position advances. -/
theorem typing_part (s : List Char) (hs : ∀ c ∈ s, 32 ≤ c.toNat ∧ c.toNat ≤ 126)
    (hlen : s.length < 2 ^ 63) :
    ∀ (part typed post : List Char) (inputs : List Input) (g : TypingTestGame),
      s = typed ++ part ++ post → post ≠ [] →
      List.Forall₂ (fun c i => typesChar c i.ev) part inputs →
      g.state = GameState.TYPING → g.currentSentence = s → g.userInput = typed →
      g.currentPosition = (typed.length : Int) →
      handleEventSeq g inputs =
        some { g with userInput := typed ++ part,
                      currentPosition := ((typed ++ part).length : Int) } := by
  intro part
  induction part with
  | nil =>
    intro typed post inputs g _ _ hf _ _ hinput hpos
    cases hf
    cases g
    simp only at hinput hpos
    subst hinput
    subst hpos
    simp only [handleEventSeq, List.append_nil]
  | cons c rest ih =>
    intro typed post inputs g hsplit hpost hf hstate hsent hinput hpos
    cases hf with
    | cons hci hrest =>
      rename_i i inputs1
      obtain ⟨key, hev, hsym, hshift⟩ := hci
      have hcmem : c ∈ s := by
        rw [hsplit]
        simp
      obtain ⟨hic, h32, h126⟩ := inputCharOf_typed c key (hs c hcmem) hsym hshift
      have hpostlen : 0 < post.length := List.length_pos.mpr hpost
      have hslen : s.length = typed.length + (rest.length + 1) + post.length := by
        rw [hsplit, List.length_append, List.length_append, List.length_cons]
      have hget : g.currentSentence[typed.length]? = some c := by
        rw [hsent, hsplit, List.append_assoc, List.getElem?_append_right (le_refl _)]
        simp
      have hstep := handleTypingInput_expected g key i.now c typed.length hic h32 h126 hpos
        (by omega) hget
      have hnfin : ¬ typed.length + 1 ≥ g.currentSentence.length := by
        rw [hsent, hslen]
        omega
      rw [if_neg hnfin] at hstep
      have hhe : handleEvent g i = handleTypingInput g key i.now := by
        unfold handleEvent
        rw [hev, hstate]
      have hnext := ih (typed ++ [c]) post inputs1
        { g with userInput := g.userInput ++ [c], currentPosition := (typed.length : Int) + 1 }
        (by rw [hsplit]; simp) hpost hrest hstate hsent
        (by show g.userInput ++ [c] = typed ++ [c]; rw [hinput])
        (by show (typed.length : Int) + 1 = ((typed ++ [c]).length : Int); simp)
      simp only [handleEventSeq, hhe, hstep]
      rw [hnext]
      simp

/-- A sequence of calls of `handleEvent` leads from a game that can be
reached to a game that can be reached. -/
theorem reachable_handleEventSeq (inputs : List Input) :
    ∀ (g g1 : TypingTestGame), Reachable g → handleEventSeq g inputs = some g1 →
      Reachable g1 := by
  induction inputs with
  | nil =>
    intro g g1 hr h
    simp only [handleEventSeq, Option.some.injEq] at h
    rw [← h]
    exact hr
  | cons i rest ih =>
    intro g g1 hr h
    unfold handleEventSeq at h
    split at h
    · cases h
    · rename_i g2 hstep
      exact ih g2 g1 (Reachable.handleEvent i hr hstep) h

/-- The game `lastCharPending` is reached by Enter and the first 43
characters of the first sentence. -/
theorem lastCharPending_reachable : Reachable lastCharPending := by
  have hstart : Reachable (startTest (TypingTest.new ⟨0, by decide⟩) 0) :=
    Reachable.handleEvent ⟨SDL_Event.keyDown ⟨40, 13, 0⟩, 0, ⟨0, by decide⟩⟩
      (Reachable.new ⟨0, by decide⟩) rfl
  refine reachable_handleEventSeq
    ("The quick brown fox jumps over the lazy dog".toList.map keyFor) _ _ hstart ?_
  have h := typing_part "The quick brown fox jumps over the lazy dog.".toList
    (sentences_printable _ (List.mem_cons_self _ _)) (by decide)
    "The quick brown fox jumps over the lazy dog".toList [] ".".toList
    ("The quick brown fox jumps over the lazy dog".toList.map keyFor)
    (startTest (TypingTest.new ⟨0, by decide⟩) 0) (by decide) (by decide)
    (forall2_keyFor _) rfl rfl rfl rfl
  rw [h]
  rfl

/-- The game `wrongLastChar` is `lastCharPending` after the key `x`. -/
theorem wrongLastChar_reachable :
    handleTypingInput lastCharPending ⟨0, 120, 0⟩ 0 = some wrongLastChar ∧
      Reachable wrongLastChar := by
  have hget : lastCharPending.currentSentence[toSizeT lastCharPending.currentPosition]? =
      some '.' := by decide
  have hne : inputCharOf ⟨0, 120, 0⟩ ≠ '.' := by decide
  have hstep : handleTypingInput lastCharPending ⟨0, 120, 0⟩ 0 = some wrongLastChar := by
    rw [handleTypingInput_wrong lastCharPending ⟨0, 120, 0⟩ 0 '.' (by decide) (by decide)
      hget hne]
    have hw : lastCharPending.wpm = some 0 := rfl
    have he : lastCharPending.errors = 0 := rfl
    have hin : inputCharOf ⟨0, 120, 0⟩ = 'x' := by decide
    simp only [wrongLastChar, hw, he, hin, Option.map_some', Option.some.injEq,
      TypingTestGame.mk.injEq]
    refine ⟨trivial, trivial, by decide, by decide, by decide, trivial, trivial, by norm_num,
      trivial, trivial, trivial, trivial, trivial⟩
  refine ⟨hstep, ?_⟩
  exact Reachable.handleEvent ⟨SDL_Event.keyDown ⟨0, 120, 0⟩, 0, ⟨0, by decide⟩⟩
    lastCharPending_reachable hstep

/-- The game `longInput` is reached from a game constructed on the second
sentence by Enter and the first 76 characters of the sentence. -/
theorem longInput_reachable : Reachable longInput := by
  have hstart : Reachable (startTest (TypingTest.new ⟨1, by decide⟩) 0) :=
    Reachable.handleEvent ⟨SDL_Event.keyDown ⟨40, 13, 0⟩, 0, ⟨0, by decide⟩⟩
      (Reachable.new ⟨1, by decide⟩) rfl
  refine reachable_handleEventSeq
    ("Programming is the art of telling another human what one wants the computer ".toList.map
      keyFor) _ _ hstart ?_
  have h := typing_part
    "Programming is the art of telling another human what one wants the computer to do.".toList
    (sentences_printable _ (by decide)) (by decide)
    "Programming is the art of telling another human what one wants the computer ".toList []
    "to do.".toList
    ("Programming is the art of telling another human what one wants the computer ".toList.map
      keyFor)
    (startTest (TypingTest.new ⟨1, by decide⟩) 0) (by decide) (by decide)
    (forall2_keyFor _) rfl rfl rfl rfl
  rw [h]
  rfl

/-- The game `shakenGame` is `wrongLastChar` after one `render` and one
`update` whose random draws are `3` and `4`. -/
theorem shakenGame_reachable : Reachable shakenGame := by
  have h1 : Reachable (render wrongLastChar typingCtx ⟨id, id, id, 3⟩ sampleLib
      (fun _ => []) none 0).1 :=
    Reachable.render typingCtx ⟨id, id, id, 3⟩ sampleLib (fun _ => []) none 0
      wrongLastChar_reachable.2
  have h2 := Reachable.update 0 0 3 4 h1
  have heq : updateGame (render wrongLastChar typingCtx ⟨id, id, id, 3⟩ sampleLib
      (fun _ => []) none 0).1 0 0 3 4 = shakenGame := by
    have hd : durationMs 0 0 = 0 := by decide
    simp only [updateGame, render, wrongLastChar, lastCharPending, shakenGame, startTest,
      TypingTest.new, selectRandomSentence, hd]
    norm_num [hd]
  rw [heq] at h2
  exact h2

end TypingTest

namespace TypingTest

/-! ## Shared lemmas: mismatching positions -/

theorem mismatchCount_nil (s : List Char) : mismatchCount s [] = 0 := rfl

/-- Appending a character adds one mismatching position exactly when the
character is not the one of the sentence at that position. -/
theorem mismatchCount_snoc (s u : List Char) (c : Char) :
    mismatchCount s (u ++ [c]) =
      mismatchCount s u + (if s[u.length]? = some c then 0 else 1) := by
  unfold mismatchCount
  rw [List.length_append, List.length_singleton, List.range_succ, List.filter_append,
    List.length_append]
  congr 1
  · congr 1
    apply List.filter_congr
    intro i hi
    rw [List.mem_range] at hi
    rw [List.getElem?_append_left hi]
  · have hlast : (u ++ [c])[u.length]? = some c := by
      rw [List.getElem?_append_right (le_refl _)]
      simp
    by_cases h : s[u.length]? = some c
    · simp [hlast, h]
    · have h2 : ¬ some c = s[u.length]? := fun hh => h hh.symm
      simp [hlast, h, h2]

/-- Removing the last character does not add mismatching positions. -/
theorem mismatchCount_dropLast_le (s u : List Char) :
    mismatchCount s u.dropLast ≤ mismatchCount s u := by
  by_cases h : u = []
  · rw [h]
    exact le_refl _
  · have hu : u = u.dropLast ++ [u.getLast h] := (List.dropLast_append_getLast h).symm
    have := mismatchCount_snoc s u.dropLast (u.getLast h)
    rw [← hu] at this
    omega

end TypingTest

namespace TypingTest

/-! ## Shared lemmas: what one key does to the input, the position and the errors -/

/-- The Backspace key in `handleTypingInput`: on a non-empty input the last
character is removed and a positive position is lowered by one; on an empty
input nothing changes. -/
theorem handleTypingInput_backspace (g : TypingTestGame) (key : Keysym) (now : Int)
    (hkey : key.sym = SDLK_BACKSPACE) :
    (g.userInput ≠ [] →
      handleTypingInput g key now =
        some { g with
          userInput := g.userInput.dropLast,
          currentPosition :=
            if g.currentPosition > 0 then g.currentPosition - 1 else g.currentPosition }) ∧
    (g.userInput = [] → handleTypingInput g key now = some g) := by
  have hesc : ¬ key.sym = SDLK_ESCAPE := by
    rw [hkey]
    decide
  have hpr : ¬ (32 ≤ key.sym ∧ key.sym ≤ 126) := by
    rw [hkey]
    decide
  constructor
  · intro hne
    unfold handleTypingInput
    rw [if_neg hesc, if_pos ⟨hkey, hne⟩]
  · intro hempty
    unfold handleTypingInput
    rw [if_neg hesc, if_neg (fun h => h.2 hempty), if_neg hpr]

/-- The outcome of `handleTypingInput` on the input, the position and the
error count: nothing changes, or Backspace removes the last character, or a
printable key appends its character, counted as an error exactly when it is
not the character of the sentence at the position. -/
theorem handleTypingInput_outcome (g : TypingTestGame) (key : Keysym) (now : Int) :
    ∃ g1, handleTypingInput g key now = some g1 ∧
      g1.currentSentence = g.currentSentence ∧
      ((g1.userInput = g.userInput ∧ g1.currentPosition = g.currentPosition ∧
          g1.errors = g.errors) ∨
       (key.sym = SDLK_BACKSPACE ∧ g.userInput ≠ [] ∧
          g1.userInput = g.userInput.dropLast ∧
          g1.currentPosition =
            (if g.currentPosition > 0 then g.currentPosition - 1 else g.currentPosition) ∧
          g1.errors = g.errors) ∨
       (key.sym ≠ SDLK_BACKSPACE ∧ toSizeT g.currentPosition < g.currentSentence.length ∧
          g.currentSentence[toSizeT g.currentPosition]? = some (inputCharOf key) ∧
          g1.userInput = g.userInput ++ [inputCharOf key] ∧
          g1.currentPosition = g.currentPosition + 1 ∧ g1.errors = g.errors) ∨
       (key.sym ≠ SDLK_BACKSPACE ∧ toSizeT g.currentPosition < g.currentSentence.length ∧
          g.currentSentence[toSizeT g.currentPosition]? ≠ some (inputCharOf key) ∧
          g1.userInput = g.userInput ++ [inputCharOf key] ∧
          g1.currentPosition = g.currentPosition + 1 ∧ g1.errors = g.errors + 1)) := by
  unfold handleTypingInput
  by_cases hesc : key.sym = SDLK_ESCAPE
  · rw [if_pos hesc]
    exact ⟨_, rfl, rfl, Or.inl ⟨rfl, rfl, rfl⟩⟩
  rw [if_neg hesc]
  by_cases hbs : key.sym = SDLK_BACKSPACE ∧ g.userInput ≠ []
  · rw [if_pos hbs]
    exact ⟨_, rfl, rfl, Or.inr (Or.inl ⟨hbs.1, hbs.2, rfl, rfl, rfl⟩)⟩
  rw [if_neg hbs]
  by_cases hpr : 32 ≤ key.sym ∧ key.sym ≤ 126
  swap
  · rw [if_neg hpr]
    exact ⟨_, rfl, rfl, Or.inl ⟨rfl, rfl, rfl⟩⟩
  rw [if_pos hpr]
  have hnb : key.sym ≠ SDLK_BACKSPACE := by
    unfold SDLK_BACKSPACE
    omega
  simp only
  by_cases hend : toSizeT g.currentPosition ≥ g.currentSentence.length
  · rw [if_pos hend]
    exact ⟨_, rfl, rfl, Or.inl ⟨rfl, rfl, rfl⟩⟩
  rw [if_neg hend]
  obtain ⟨expected, hex⟩ := sentence_read_in_range g hend
  rw [hex]
  simp only
  by_cases hc : inputCharOf key = expected
  · rw [if_pos hc]
    split
    · exact ⟨_, rfl, rfl, Or.inr (Or.inr (Or.inl
        ⟨hnb, by omega, by rw [hc], rfl, rfl, rfl⟩))⟩
    · exact ⟨_, rfl, rfl, Or.inr (Or.inr (Or.inl
        ⟨hnb, by omega, by rw [hc], rfl, rfl, rfl⟩))⟩
  · rw [if_neg hc]
    refine ⟨_, rfl, rfl, Or.inr (Or.inr (Or.inr ⟨hnb, by omega, ?_, rfl, rfl, rfl⟩))⟩
    intro h
    exact hc (Option.some.inj h).symm

end TypingTest

namespace TypingTest

/-! ## Shared lemmas: the invariant of the typing test -/

/-- The invariant survives a later record of a Backspace. -/
theorem TypingInv.weaken {b : Bool} {g : TypingTestGame} (h : TypingInv b g) (x : Bool) :
    TypingInv (b || x) g := by
  obtain ⟨h1, h2, h3, h4, h5⟩ := h
  refine ⟨h1, h2, h3, h4, ?_⟩
  intro hb
  cases b with
  | false => exact h5 rfl
  | true => cases hb

/-- `handleTypingInput` keeps the invariant, Backspace being recorded. -/
theorem typingInv_handleTypingInput (b : Bool) (g g1 : TypingTestGame) (key : Keysym)
    (now : Int) (hinv : TypingInv b g) (h : handleTypingInput g key now = some g1) :
    TypingInv (b || decide (key.sym = SDLK_BACKSPACE)) g1 := by
  obtain ⟨hs, hpos, hle, hmis, heq⟩ := hinv
  obtain ⟨hne, hlen100⟩ := sentences_length g.currentSentence hs
  obtain ⟨g2, hg2, hsent, hout⟩ := handleTypingInput_outcome g key now
  rw [h, Option.some.injEq] at hg2
  subst hg2
  have hsz : toSizeT g.currentPosition = g.userInput.length := by
    rw [hpos]
    exact toSizeT_natCast _ (by omega)
  rcases hout with ⟨hu, hp, he⟩ | ⟨hbs, hnonempty, hu, hp, he⟩ |
      ⟨hnb, hlt, hget, hu, hp, he⟩ | ⟨hnb, hlt, hget, hu, hp, he⟩
  · exact TypingInv.weaken ⟨by rw [hsent]; exact hs, by rw [hp, hu]; exact hpos,
      by rw [hu, hsent]; exact hle, by rw [hsent, hu, he]; exact hmis,
      by rw [hsent, hu, he]; exact heq⟩ _
  · have hposlen : 0 < g.userInput.length := List.length_pos.mpr hnonempty
    have hdrop := mismatchCount_dropLast_le g.currentSentence g.userInput
    refine ⟨by rw [hsent]; exact hs, ?_, ?_, ?_, ?_⟩
    · rw [hp, hu, List.length_dropLast, hpos, if_pos (by omega)]
      omega
    · rw [hu, hsent, List.length_dropLast]
      omega
    · rw [hsent, hu, he]
      omega
    · intro hb
      simp [hbs] at hb
  · rw [hsz] at hlt hget
    have hsnoc := mismatchCount_snoc g.currentSentence g.userInput (inputCharOf key)
    rw [if_pos hget] at hsnoc
    have hflag : (b || decide (key.sym = SDLK_BACKSPACE)) = b := by simp [hnb]
    rw [hflag]
    refine ⟨by rw [hsent]; exact hs, ?_, ?_, ?_, ?_⟩
    · rw [hp, hu, hpos]
      simp
    · rw [hu, hsent]
      simp only [List.length_append, List.length_singleton]
      omega
    · rw [hsent, hu, he, hsnoc]
      exact hmis
    · intro hb
      rw [hsent, hu, he, hsnoc]
      exact heq hb
  · rw [hsz] at hlt hget
    have hsnoc := mismatchCount_snoc g.currentSentence g.userInput (inputCharOf key)
    rw [if_neg hget] at hsnoc
    have hflag : (b || decide (key.sym = SDLK_BACKSPACE)) = b := by simp [hnb]
    rw [hflag]
    refine ⟨by rw [hsent]; exact hs, ?_, ?_, ?_, ?_⟩
    · rw [hp, hu, hpos]
      simp
    · rw [hu, hsent]
      simp only [List.length_append, List.length_singleton]
      omega
    · rw [hsent, hu, he, hsnoc]
      push_cast
      omega
    · intro hb
      rw [hsent, hu, he, hsnoc, heq hb]
      push_cast
      rfl

/-- `startTest` on a sentence of the list establishes the invariant with no
Backspace on record. -/
theorem typingInv_startTest (g : TypingTestGame) (now : Int)
    (hs : g.currentSentence ∈ sentences) : TypingInv false (startTest g now) :=
  ⟨hs, rfl, Nat.zero_le _, le_refl _, fun _ => rfl⟩

/-- `handleEvent` keeps the invariant; the record of a Backspace is cleared
by `startTest` and set by a Backspace key-down. -/
theorem typingInv_handleEvent (b : Bool) (g g1 : TypingTestGame) (i : Input)
    (hinv : TypingInv b g) (h : handleEvent g i = some g1) :
    TypingInv (if startsTest g i then false else (b || isBackspaceKey i.ev)) g1 := by
  have hst3 : g.state = GameState.START ∨ g.state = GameState.TYPING ∨
      g.state = GameState.FINISHED := by
    cases g.state
    · exact Or.inl rfl
    · exact Or.inr (Or.inl rfl)
    · exact Or.inr (Or.inr rfl)
  cases hev : i.ev with
  | keyDown key =>
    rcases hst3 with hst | hst | hst
    · by_cases hret : key.sym = SDLK_RETURN
      · simp only [handleEvent, hev, hst, if_pos hret, Option.some.injEq] at h
        have hflag : startsTest g i = true := by simp [startsTest, hev, hret, hst]
        rw [hflag, if_pos rfl, ← h]
        exact typingInv_startTest g i.now hinv.1
      · simp only [handleEvent, hev, hst, if_neg hret, Option.some.injEq] at h
        have hflag : startsTest g i = false := by simp [startsTest, hev, hret]
        rw [hflag, ← h]
        exact hinv.weaken _
    · simp only [handleEvent, hev, hst] at h
      have hflag : startsTest g i = false := by simp [startsTest, hev, hst]
      rw [hflag]
      exact typingInv_handleTypingInput b g g1 key i.now hinv h
    · by_cases hret : key.sym = SDLK_RETURN
      · simp only [handleEvent, hev, hst, if_pos hret, Option.some.injEq] at h
        have hflag : startsTest g i = true := by simp [startsTest, hev, hret, hst]
        rw [hflag, if_pos rfl, ← h]
        exact typingInv_startTest _ i.now (List.get_mem _ _ _)
      · simp only [handleEvent, hev, hst, if_neg hret, Option.some.injEq] at h
        have hflag : startsTest g i = false := by simp [startsTest, hev, hret]
        rw [hflag, ← h]
        exact hinv.weaken _
  | quit | keyUp _ | mouseMotion _ _ | mouseButtonDown _ | mouseButtonUp _ | other _ =>
    simp only [handleEvent, hev, Option.some.injEq] at h
    have hflag : startsTest g i = false := by simp [startsTest, hev]
    rw [hflag, ← h]
    exact hinv.weaken _

/-- Every game that can be reached satisfies the invariant, for its record
of a Backspace. -/
theorem reachableSince_inv (b : Bool) (g : TypingTestGame) (h : ReachableSince b g) :
    TypingInv b g := by
  induction h with
  | new pick => exact ⟨List.get_mem _ _ _, rfl, Nat.zero_le _, le_refl _, fun _ => rfl⟩
  | handleEvent i _ hstep ih => exact typingInv_handleEvent _ _ _ i ih hstep
  | update deltaTime now rx ry _ ih =>
    obtain ⟨_, h2, h3, h4, h5, _⟩ := updateGame_keeps _ deltaTime now rx ry
    unfold TypingInv
    rw [h2, h3, h4, h5]
    exact ih
  | render c m lib fmt opened ticks _ ih => exact ih

/-- A game that can be reached has a record of a Backspace, and conversely. -/
theorem reachable_iff_since (g : TypingTestGame) :
    Reachable g ↔ ∃ b, ReachableSince b g := by
  constructor
  · intro h
    induction h with
    | new pick => exact ⟨false, ReachableSince.new pick⟩
    | handleEvent i _ hstep ih =>
      obtain ⟨b, hb⟩ := ih
      exact ⟨_, ReachableSince.handleEvent i hb hstep⟩
    | update deltaTime now rx ry _ ih =>
      obtain ⟨b, hb⟩ := ih
      exact ⟨b, ReachableSince.update deltaTime now rx ry hb⟩
    | render c m lib fmt opened ticks _ ih =>
      obtain ⟨b, hb⟩ := ih
      exact ⟨b, ReachableSince.render c m lib fmt opened ticks hb⟩
  · rintro ⟨b, h⟩
    induction h with
    | new pick => exact Reachable.new pick
    | handleEvent i _ hstep ih => exact Reachable.handleEvent i ih hstep
    | update deltaTime now rx ry _ ih => exact Reachable.update deltaTime now rx ry ih
    | render c m lib fmt opened ticks _ ih => exact Reachable.render c m lib fmt opened ticks ih

end TypingTest

namespace TypingTest

/-! ## Shared lemmas: the characters drawn in the error colour -/

/-- The mismatching positions, counted from the first character on. -/
theorem mismatchCount_cons (s : List Char) (ch : Char) (rest : List Char) :
    mismatchCount s (ch :: rest) =
      (if s[0]? = some ch then 0 else 1) + mismatchCount (s.drop 1) rest := by
  unfold mismatchCount
  rw [List.length_cons, List.range_succ_eq_map, List.filter_cons, List.filter_map]
  have htail : List.filter
      ((fun i => decide ((ch :: rest)[i]? ≠ s[i]?)) ∘ Nat.succ) (List.range rest.length) =
      List.filter (fun i => decide (rest[i]? ≠ (s.drop 1)[i]?)) (List.range rest.length) := by
    apply List.filter_congr
    intro i _
    simp only [Function.comp_apply, Nat.succ_eq_add_one, List.getElem?_cons_succ,
      List.getElem?_drop]
    rw [Nat.add_comm 1 i]
  rw [htail]
  by_cases h : s[0]? = some ch
  · have hd : decide ((ch :: rest)[0]? ≠ s[0]?) = false := by simp [h]
    rw [hd, if_pos h, if_neg (by decide), List.length_map]
    omega
  · have hd : decide ((ch :: rest)[0]? ≠ s[0]?) = true := by
      simp only [List.getElem?_cons_zero, ne_eq, decide_eq_true_eq]
      exact fun hh => h hh.symm
    rw [hd, if_neg h, if_pos rfl, List.length_cons, List.length_map]
    omega

/-- The two colours of the typed characters are different. -/
theorem correctColor_ne_errorColor : correctColor ≠ errorColor := by decide

/-- When every character is drawn by one `RenderCopyF` in the colour asked
for, the characters that the loop of `drawTypingUI` draws in the error
colour are as many as the mismatching positions. -/
theorem inputLoop_error_colour (c : OtherCtx ℚ) (lib : TextLib ℚ) (s : List Char)
    (hdraw : ∀ (ch : Char) (x y : ℚ) (color : Color), ∃ r w h,
      OtherCtx.drawTextNamed c lib [ch] x y color "monospace" (6 / 5) =
        [SDLCall.RenderCopyF r [ch] color x y w h])
    (u : List Char) :
    ∀ (i : Nat) (p : ℚ × ℚ),
      ((inputLoop c lib s i u p).2.filter errorColoured).length =
        mismatchCount (s.drop i) u := by
  induction u with
  | nil =>
    intro i p
    rfl
  | cons ch rest ih =>
    intro i p
    rw [mismatchCount_cons, List.drop_drop, List.getElem?_drop, Nat.add_zero]
    simp only [inputLoop, List.filter_append, List.length_append, ih]
    congr 1
    by_cases hc : s[i]? = some ch
    · obtain ⟨r, w, h, hd⟩ := hdraw ch p.1 p.2 correctColor
      rw [if_pos hc, if_pos hc, hd]
      simp [errorColoured, correctColor_ne_errorColor]
    · obtain ⟨r, w, h, hd⟩ := hdraw ch p.1 p.2 errorColor
      rw [if_neg hc, if_neg hc, hd]
      simp [errorColoured]

/-- In the sample context and library every character is drawn by one
`RenderCopyF` in the colour asked for. -/
theorem typingCtx_draws (ch : Char) (x y : ℚ) (color : Color) :
    ∃ r w h, OtherCtx.drawTextNamed typingCtx sampleLib [ch] x y color "monospace" (6 / 5) =
      [SDLCall.RenderCopyF r [ch] color x y w h] :=
  ⟨_, _, _, rfl⟩

end TypingTest

namespace TypingTest

/-! ## Shared lemmas: histories without Backspace -/

/-- A sequence of calls of `handleEvent` none of which is a Backspace
key-down keeps the record of a Backspace clear. -/
theorem reachableSince_false_seq (inputs : List Input) :
    ∀ (g g1 : TypingTestGame), (∀ i ∈ inputs, isBackspaceKey i.ev = false) →
      ReachableSince false g → handleEventSeq g inputs = some g1 →
      ReachableSince false g1 := by
  induction inputs with
  | nil =>
    intro g g1 _ hr h
    simp only [handleEventSeq, Option.some.injEq] at h
    rw [← h]
    exact hr
  | cons i rest ih =>
    intro g g1 hnb hr h
    unfold handleEventSeq at h
    split at h
    · cases h
    · rename_i g2 hstep
      have hstep2 := ReachableSince.handleEvent i hr hstep
      have hflag : (if startsTest g i then false else (false || isBackspaceKey i.ev)) = false := by
        rw [hnb i (List.mem_cons_self _ _)]
        cases startsTest g i <;> rfl
      rw [hflag] at hstep2
      exact ih g2 g1 (fun j hj => hnb j (List.mem_cons_of_mem _ hj)) hstep2 h

/-- The game `wrongLastChar` is reached without any Backspace: Enter, the
first 43 characters of the first sentence, then the key `x`. -/
theorem wrongLastChar_since : ReachableSince false wrongLastChar := by
  have h0 : ReachableSince false (startTest (TypingTest.new ⟨0, by decide⟩) 0) :=
    reachableSince_false_seq [⟨SDL_Event.keyDown ⟨40, 13, 0⟩, 0, ⟨0, by decide⟩⟩]
      (TypingTest.new ⟨0, by decide⟩) _ (by decide) (ReachableSince.new ⟨0, by decide⟩) rfl
  have hpart := typing_part "The quick brown fox jumps over the lazy dog.".toList
    (sentences_printable _ (List.mem_cons_self _ _)) (by decide)
    "The quick brown fox jumps over the lazy dog".toList [] ".".toList
    ("The quick brown fox jumps over the lazy dog".toList.map keyFor)
    (startTest (TypingTest.new ⟨0, by decide⟩) 0) (by decide) (by decide)
    (forall2_keyFor _) rfl rfl rfl rfl
  have h1 : ReachableSince false lastCharPending :=
    reachableSince_false_seq ("The quick brown fox jumps over the lazy dog".toList.map keyFor)
      _ _ (by decide) h0 (by rw [hpart]; rfl)
  refine reachableSince_false_seq [⟨SDL_Event.keyDown ⟨0, 120, 0⟩, 0, ⟨0, by decide⟩⟩]
    lastCharPending _ (by decide) h1 ?_
  have hhe : handleEvent lastCharPending ⟨SDL_Event.keyDown ⟨0, 120, 0⟩, 0, ⟨0, by decide⟩⟩ =
      handleTypingInput lastCharPending ⟨0, 120, 0⟩ 0 := rfl
  simp only [handleEventSeq, hhe, wrongLastChar_reachable.1]

/-- After a wrong character and a Backspace the error count is above the
number of mismatching positions: `errors = 1` with no mismatch left. -/
theorem backspace_keeps_error :
    ∃ g, handleTypingInput wrongLastChar ⟨42, 8, 0⟩ 0 = some g ∧ Reachable g ∧
      g.errors = 1 ∧ mismatchCount g.currentSentence g.userInput = 0 := by
  have hne : wrongLastChar.userInput ≠ [] := by decide
  have hstep := (handleTypingInput_backspace wrongLastChar ⟨42, 8, 0⟩ 0 rfl).1 hne
  refine ⟨_, hstep, ?_, rfl, ?_⟩
  · exact Reachable.handleEvent ⟨SDL_Event.keyDown ⟨42, 8, 0⟩, 0, ⟨0, by decide⟩⟩
      wrongLastChar_reachable.2 hstep
  · decide

/-! ## Claims on the invariants of the typing test -/

/-- C21: in every game reached from the constructor through `handleEvent`
(and `update`, `render`), `currentPosition = |userInput|` and
`0 <= currentPosition <= |currentSentence|`; `handleTypingInput` returns on
every key, its read of `currentSentence[currentPosition]` being inside the
string; Backspace on a non-empty input removes exactly the last character
and lowers `currentPosition` by 1, and Backspace on an empty input changes
nothing. -/
theorem typing_position_invariant (g : TypingTestGame) (h : Reachable g) :
    g.currentPosition = (g.userInput.length : Int) ∧
    0 ≤ g.currentPosition ∧ g.currentPosition ≤ (g.currentSentence.length : Int) ∧
    toSizeT g.currentPosition ≤ g.currentSentence.length ∧
    (∀ (key : Keysym) (now : Int), ∃ g1, handleTypingInput g key now = some g1) ∧
    (∀ (key : Keysym) (now : Int), key.sym = SDLK_BACKSPACE → g.userInput ≠ [] →
      (∃ c, g.userInput = g.userInput.dropLast ++ [c]) ∧
      handleTypingInput g key now =
        some { g with userInput := g.userInput.dropLast,
                      currentPosition := g.currentPosition - 1 }) ∧
    (∀ (key : Keysym) (now : Int), key.sym = SDLK_BACKSPACE → g.userInput = [] →
      handleTypingInput g key now = some g) := by
  obtain ⟨b, hb⟩ := (reachable_iff_since g).mp h
  obtain ⟨hs, hpos, hle, _, _⟩ := reachableSince_inv b g hb
  obtain ⟨_, hlen100⟩ := sentences_length g.currentSentence hs
  have hsz : toSizeT g.currentPosition = g.userInput.length := by
    rw [hpos]
    exact toSizeT_natCast _ (by omega)
  refine ⟨hpos, by omega, by omega, by omega, ?_, ?_, ?_⟩
  · intro key now
    obtain ⟨g1, hg1, _⟩ := handleTypingInput_cases g key now
    exact ⟨g1, hg1⟩
  · intro key now hkey hne
    refine ⟨⟨g.userInput.getLast hne, (List.dropLast_append_getLast hne).symm⟩, ?_⟩
    have hposlen : 0 < g.userInput.length := List.length_pos.mpr hne
    rw [(handleTypingInput_backspace g key now hkey).1 hne, if_pos (by omega)]
  · intro key now hkey hempty
    exact (handleTypingInput_backspace g key now hkey).2 hempty

/-- C21, at a concrete input: the game `lastCharPending`, 43 characters into
the first sentence. -/
theorem typing_position_invariant_witness :
    lastCharPending.currentPosition = (lastCharPending.userInput.length : Int) ∧
    0 ≤ lastCharPending.currentPosition ∧
    lastCharPending.currentPosition ≤ (lastCharPending.currentSentence.length : Int) ∧
    toSizeT lastCharPending.currentPosition ≤ lastCharPending.currentSentence.length ∧
    (∀ (key : Keysym) (now : Int), ∃ g1, handleTypingInput lastCharPending key now = some g1) ∧
    (∀ (key : Keysym) (now : Int), key.sym = SDLK_BACKSPACE →
      lastCharPending.userInput ≠ [] →
      (∃ c, lastCharPending.userInput = lastCharPending.userInput.dropLast ++ [c]) ∧
      handleTypingInput lastCharPending key now =
        some { lastCharPending with
          userInput := lastCharPending.userInput.dropLast,
          currentPosition := lastCharPending.currentPosition - 1 }) ∧
    (∀ (key : Keysym) (now : Int), key.sym = SDLK_BACKSPACE →
      lastCharPending.userInput = [] →
      handleTypingInput lastCharPending key now = some lastCharPending) :=
  typing_position_invariant lastCharPending lastCharPending_reachable

/-- C22: in every game reached from the constructor through `handleEvent`
(and `update`, `render`), `errors` is at least the number of positions
`i < |userInput|` with `userInput[i] != currentSentence[i]`, which is the
number of characters that the loop of `drawTypingUI` draws in the error
colour; the two are equal when the game is reached with no Backspace key-down
since the last `startTest`; and a Backspace key-down leaves `errors` as it
was. -/
theorem errors_bound_mismatches (g : TypingTestGame) (h : Reachable g) :
    (mismatchCount g.currentSentence g.userInput : Int) ≤ g.errors ∧
    (ReachableSince false g →
      g.errors = (mismatchCount g.currentSentence g.userInput : Int)) ∧
    (∀ (i : Input) (g1 : TypingTestGame), isBackspaceKey i.ev = true →
      handleEvent g i = some g1 →
      g1.errors = g.errors ∧
        (mismatchCount g1.currentSentence g1.userInput : Int) ≤ g1.errors) ∧
    (∀ (c : OtherCtx ℚ) (lib : TextLib ℚ),
      (∀ (ch : Char) (x y : ℚ) (color : Color), ∃ r w h,
        OtherCtx.drawTextNamed c lib [ch] x y color "monospace" (6 / 5) =
          [SDLCall.RenderCopyF r [ch] color x y w h]) →
      ((inputLoop c lib g.currentSentence 0 g.userInput inputStart).2.filter
          errorColoured).length = mismatchCount g.currentSentence g.userInput) := by
  obtain ⟨b, hb⟩ := (reachable_iff_since g).mp h
  obtain ⟨_, _, _, hmis, _⟩ := reachableSince_inv b g hb
  refine ⟨hmis, fun hf => (reachableSince_inv false g hf).2.2.2.2 rfl, ?_, ?_⟩
  · intro i g1 hbk hstep
    have hinv1 := reachableSince_inv _ g1 (ReachableSince.handleEvent i hb hstep)
    refine ⟨?_, hinv1.2.2.2.1⟩
    cases hev : i.ev with
    | keyDown key =>
      rw [hev] at hbk
      simp only [isBackspaceKey, decide_eq_true_eq] at hbk
      have hnret : ¬ key.sym = SDLK_RETURN := by
        rw [hbk]
        decide
      have hst3 : g.state = GameState.START ∨ g.state = GameState.TYPING ∨
          g.state = GameState.FINISHED := by
        cases g.state
        · exact Or.inl rfl
        · exact Or.inr (Or.inl rfl)
        · exact Or.inr (Or.inr rfl)
      rcases hst3 with hst | hst | hst
      · simp only [handleEvent, hev, hst, if_neg hnret, Option.some.injEq] at hstep
        rw [← hstep]
      · simp only [handleEvent, hev, hst] at hstep
        by_cases hne : g.userInput = []
        · rw [(handleTypingInput_backspace g key i.now hbk).2 hne, Option.some.injEq] at hstep
          rw [← hstep]
        · rw [(handleTypingInput_backspace g key i.now hbk).1 hne, Option.some.injEq] at hstep
          rw [← hstep]
      · simp only [handleEvent, hev, hst, if_neg hnret, Option.some.injEq] at hstep
        rw [← hstep]
    | quit | keyUp _ | mouseMotion _ _ | mouseButtonDown _ | mouseButtonUp _ | other _ =>
      rw [hev] at hbk
      cases hbk
  · intro c lib hdraw
    have := inputLoop_error_colour c lib g.currentSentence hdraw g.userInput 0 inputStart
    rw [List.drop_zero] at this
    exact this

/-- C22, at a concrete input: the game `wrongLastChar`, one wrong character
typed and no Backspace, drawn in the sample context. -/
theorem errors_bound_mismatches_witness :
    (mismatchCount wrongLastChar.currentSentence wrongLastChar.userInput : Int) ≤
      wrongLastChar.errors ∧
    wrongLastChar.errors =
      (mismatchCount wrongLastChar.currentSentence wrongLastChar.userInput : Int) ∧
    ((inputLoop typingCtx sampleLib wrongLastChar.currentSentence 0 wrongLastChar.userInput
        inputStart).2.filter errorColoured).length =
      mismatchCount wrongLastChar.currentSentence wrongLastChar.userInput :=
  ⟨(errors_bound_mismatches wrongLastChar wrongLastChar_reachable.2).1,
   (errors_bound_mismatches wrongLastChar wrongLastChar_reachable.2).2.1 wrongLastChar_since,
   (errors_bound_mismatches wrongLastChar wrongLastChar_reachable.2).2.2.2 typingCtx sampleLib
     typingCtx_draws⟩

end TypingTest

end ContextEngine
